import Mathlib

/-!
Verification development for the configdiff repository.

The file embeds, in Lean, the normalized configuration tree of package
`tree` (src/tree/tree.go) and the diff engine.  The `diff` and `patch`
package sources are not part of the repository snapshot (only their
callers, tests and re-exported declarations are), so those components
are modelled from the specification; every such definition carries a
doc comment starting with "Modelled from the spec:".  Definitions taken
from tree.go are faithful translations of the Go functions.  Functions
whose recursion descends through association-list lookups (the diff
engine) take an explicit fuel argument bounded by the tree size, so
that they stay structurally recursive and compute by kernel reduction.

Go's float64 Number payload is modelled by the rationals.
-/

namespace Configdiff

/-- Node kinds, from tree.go (`NodeKind`). -/
inductive NodeKind where
  | null
  | bool
  | number
  | string
  | object
  | array
deriving DecidableEq

/-- The normalized configuration tree node, from tree.go (`Node`).
The Go struct stores a Kind tag plus payload fields `Value`, `Object`,
`Array` of which exactly one is meaningful (the invariant of spec §3);
following the design note of spec §9 the model is a sum type carrying
exactly the payload matching the kind, together with the `Path` field
that every Go Node carries.  Object entries are an association list
(Go map, unique keys); Number values are modelled as rationals. -/
inductive Node where
  | null (path : String)
  | bool (b : Bool) (path : String)
  | num (v : Rat) (path : String)
  | str (s : String) (path : String)
  | obj (entries : List (String × Node)) (path : String)
  | arr (elems : List Node) (path : String)

/-- The `Path` field of a node (tree.go `Node.Path`). -/
def Node.path : Node → String
  | .null p => p
  | .bool _ p => p
  | .num _ p => p
  | .str _ p => p
  | .obj _ p => p
  | .arr _ p => p

/-- The `Kind` tag of a node (tree.go `Node.Kind`). -/
def Node.kind : Node → NodeKind
  | .null _ => .null
  | .bool _ _ => .bool
  | .num _ _ => .number
  | .str _ _ => .string
  | .obj _ _ => .object
  | .arr _ _ => .array

/-- Association-list lookup used to model indexing a Go `map[string]*Node`
(first matching key wins; Go maps never hold duplicate keys). -/
def lookupEntry : List (String × Node) → String → Option Node
  | [], _ => none
  | (k, v) :: es, key => if k = key then some v else lookupEntry es key

mutual

/-- Size of a node (counts every node and list cell), used as the fuel
bound for the diff engine's recursion. -/
def nodeSize : Node → Nat
  | .null _ => 1
  | .bool _ _ => 1
  | .num _ _ => 1
  | .str _ _ => 1
  | .obj es _ => 1 + entriesSize es
  | .arr xs _ => 1 + elemsSize xs
termination_by structural n => n

/-- Size of an object entry list. -/
def entriesSize : List (String × Node) → Nat
  | [] => 0
  | kv :: es => 1 + nodeSize kv.2 + entriesSize es
termination_by structural es => es

/-- Size of an array element list. -/
def elemsSize : List Node → Nat
  | [] => 0
  | x :: xs => 1 + nodeSize x + elemsSize xs
termination_by structural xs => xs

end

/-! ### Decimal formatting and scanning

tree.go builds array-element paths with `fmt.Sprintf("%s[%d]", ...)` and
parses indices back with `fmt.Sscanf(..., "%d", ...)`.  The two helpers
below model the decimal formatting of a natural number and the Go verb
`%d` (skip leading spaces, optional sign, at least one digit, anything
after the digits is ignored by the verb). -/

/-- Decimal digit character for `d < 10`. -/
def digitChar (d : Nat) : Char := Char.ofNat (48 + d)

/-- Numeric value of a decimal digit character. -/
def digitVal (c : Char) : Nat := c.toNat - 48

/-- Is `c` a decimal digit? -/
def isDigit (c : Char) : Bool := 48 ≤ c.toNat && c.toNat ≤ 57

/-- Decimal digits of a natural number, most significant first; the
first argument is fuel (any fuel above the number of digits works). -/
def natDigitsF : Nat → Nat → List Char
  | 0, _ => []
  | fuel + 1, n => if n < 10 then [digitChar n] else natDigitsF fuel (n / 10) ++ [digitChar (n % 10)]

/-- Decimal rendering of a natural number, as produced by Go `%d` for a
non-negative int. -/
def printNat (n : Nat) : String := ⟨natDigitsF (n + 1) n⟩

/-- Fold a digit list (most significant first) to its value. -/
def digitsToNat (ds : List Char) : Nat := ds.foldl (fun a c => 10 * a + digitVal c) 0

/-- Model of scanning with the Go verb `%d`: skip leading spaces, read
an optional sign and at least one digit; trailing characters are left
unread (the call sites ignore them). Returns `none` when no digit is
found, which Go reports as a scan error. -/
def scanInt (cs : List Char) : Option Int :=
  let body := cs.dropWhile (· == ' ')
  match body with
  | '-' :: rest =>
      let ds := rest.takeWhile isDigit
      if ds = [] then none else some (-(digitsToNat ds : Int))
  | '+' :: rest =>
      let ds := rest.takeWhile isDigit
      if ds = [] then none else some ((digitsToNat ds : Int))
  | rest =>
      let ds := rest.takeWhile isDigit
      if ds = [] then none else some ((digitsToNat ds : Int))

/-! ### Path construction and parsing (tree.go) -/

/-- From tree.go `joinPath`: join path segments with proper formatting. -/
def joinPath (base key : String) : String :=
  if base = "" ∨ base = "/" then "/" ++ key else base ++ "/" ++ key

mutual

/-- From tree.go `Node.SetPaths`: recursively set the canonical path for
all nodes in the tree (the Go method mutates; the model returns the
re-annotated tree). -/
def Node.setPaths : Node → String → Node
  | .null _, base => .null base
  | .bool b _, base => .bool b base
  | .num v _, base => .num v base
  | .str s _, base => .str s base
  | .obj es _, base => .obj (setPathsEntries es base) base
  | .arr xs _, base => .arr (setPathsElems xs base 0) base
termination_by structural n => n

/-- Object branch of `SetPaths`: each member `k` gets `joinPath base k`. -/
def setPathsEntries : List (String × Node) → String → List (String × Node)
  | [], _ => []
  | (k, v) :: es, base => (k, v.setPaths (joinPath base k)) :: setPathsEntries es base
termination_by structural es => es

/-- Array branch of `SetPaths`: element `i` gets `base[i]`
(Go `fmt.Sprintf("%s[%d]", basePath, i)`). -/
def setPathsElems : List Node → String → Nat → List Node
  | [], _, _ => []
  | x :: xs, base, i =>
      x.setPaths (base ++ "[" ++ printNat i ++ "]") :: setPathsElems xs base (i + 1)
termination_by structural xs => xs

end

/-- Split a character list at every slash (model of Go
`strings.Split(s, "/")` on the characters of `s`). -/
def splitSlash : List Char → List (List Char)
  | [] => [[]]
  | c :: cs =>
      if c = '/' then [] :: splitSlash cs
      else
        match splitSlash cs with
        | [] => [[c]]
        | s :: ss => (c :: s) :: ss

/-- Model of Go `strings.TrimPrefix(path, "/")`. -/
def trimOneSlash (p : String) : String :=
  match p.data with
  | '/' :: rest => ⟨rest⟩
  | _ => p

/-- From tree.go `ParsePath`: parse a canonical path into segments. -/
def parsePath (path : String) : List String :=
  if path = "" ∨ path = "/" then []
  else
    let trimmed := trimOneSlash path
    if trimmed = "" then []
    else (splitSlash trimmed.data).map fun cs => (⟨cs⟩ : String)

/-- First index of character `t` in `cs` (Go `strings.Index` for a
one-character needle; `none` models Go's `-1`). -/
def idxOf : List Char → Char → Option Nat
  | [], _ => none
  | c :: cs, t => if c = t then some 0 else (idxOf cs t).map (· + 1)

/-- From tree.go `parseArrayNotation`: extract the base name and index
from array notation such as `containers[0]`.  `none` models
`isArray = false`; the index is an `Int` because Go scans a signed
int. -/
def parseArrayNotation (segment : String) : Option (String × Int) :=
  match idxOf segment.data '[' with
  | none => none
  | some start =>
      match idxOf segment.data ']' with
      | none => none
      | some stop =>
          if stop ≤ start + 1 then none
          else
            match scanInt ((segment.data.drop (start + 1)).take (stop - (start + 1))) with
            | none => none
            | some i => some ((⟨segment.data.take start⟩ : String), i)

/-- Result of a `GetByPath` walk.  `nil` is Go's nil pointer return;
`crash` models the Go runtime panic that `current.Array[idx]` raises
for a negative scanned index (the code only guards `idx >= len`). -/
inductive LookupResult where
  | found (n : Node)
  | nil
  | crash

/-- From tree.go `GetByPath`, the loop over parsed segments. -/
def getSegs : Node → List String → LookupResult
  | n, [] => .found n
  | n, seg :: rest =>
      match parseArrayNotation seg with
      | some (base, i) =>
          let step : LookupResult :=
            if base = "" then .found n
            else
              match n with
              | .obj es _ =>
                  match lookupEntry es base with
                  | some v => .found v
                  | none => .nil
              | _ => .nil
          match step with
          | .found m =>
              match m with
              | .arr xs _ =>
                  if (xs.length : Int) ≤ i then .nil
                  else if i < 0 then .crash
                  else
                    match xs[i.toNat]? with
                    | some x => getSegs x rest
                    | none => .nil
              | _ => .nil
          | r => r
      | none =>
          match n with
          | .obj es _ =>
              match lookupEntry es seg with
              | some v => getSegs v rest
              | none => .nil
          | _ => .nil

/-- tree.go `Node.GetByPath`: retrieve a node at the given path. -/
def Node.getByPath (n : Node) (path : String) : LookupResult :=
  getSegs n (parsePath path)

mutual

/-- All nodes of a tree: the node itself first, then the subnodes of
its children in order. -/
def Node.subnodes : Node → List Node
  | .null p => [.null p]
  | .bool b p => [.bool b p]
  | .num v p => [.num v p]
  | .str s p => [.str s p]
  | .obj es p => .obj es p :: subnodesEntries es
  | .arr xs p => .arr xs p :: subnodesElems xs
termination_by structural n => n

/-- Subnodes contributed by an object's entry list. -/
def subnodesEntries : List (String × Node) → List Node
  | [] => []
  | (_, v) :: es => v.subnodes ++ subnodesEntries es
termination_by structural es => es

/-- Subnodes contributed by an array's element list. -/
def subnodesElems : List Node → List Node
  | [] => []
  | x :: xs => x.subnodes ++ subnodesElems xs
termination_by structural xs => xs

end

/-! ## The diff engine

The `diff` package is not in the repository snapshot: its types are
re-exported by src/configdiff.go and consumed by src/report/report.go
and the CLI, but the implementation file is missing.  Everything below
is therefore modelled from the specification (§3, §4.1-§4.5), using the
option and change shapes that the callers in the snapshot pin down. -/

/-- Modelled from the spec: the missing diff package's `Coercions`
record (re-exported in src/configdiff.go): the two coercion flags. -/
structure Coercions where
  numericStrings : Bool
  boolStrings : Bool
deriving DecidableEq

/-- Modelled from the spec: the missing diff package's `Options` record
(re-exported in src/configdiff.go): ignore-path patterns, a mapping
from array path to key field for set-style matching, coercion flags and
the stable-ordering flag.  The Go map `ArraySetKeys` is modelled as an
association list. -/
structure Options where
  ignorePaths : List String
  arraySetKeys : List (String × String)
  coercions : Coercions
  stableOrder : Bool

/-- Modelled from the spec: the missing diff package's `ChangeType`
(Go strings "add", "remove", "modify", "move"). -/
inductive ChangeType where
  | add
  | remove
  | modify
  | move
deriving DecidableEq

/-- Modelled from the spec: the missing diff package's `Change` record:
a kind, the canonical path it occurred at, and optional old/new values
(`*tree.Node` in Go, hence optional). -/
structure Change where
  type : ChangeType
  path : String
  oldValue : Option Node
  newValue : Option Node

/-! ### Path Ignore Matcher (spec §4.3) -/

/-- Does the pattern end in the two characters `/*`? -/
def endsWithSlashStar (pat : String) : Bool :=
  match pat.data.reverse with
  | '*' :: '/' :: _ => true
  | _ => false

/-- The part of a `/*` pattern before the `/*`. -/
def patBase (pat : String) : String := ⟨pat.data.dropLast.dropLast⟩

/-- Is `pre` a prefix of `s`? -/
def strStarts (pre s : String) : Bool := pre.data.isPrefixOf s.data

/-- Modelled from the spec: the missing Path Ignore Matcher's single
pattern test (§4.3): a pattern matches exactly when `path == pattern`,
or when the pattern ends in `/*` and `path` begins with the pattern's
part before the `/*` followed by `/`. -/
def matchesPattern (pat path : String) : Bool :=
  path = pat || (endsWithSlashStar pat && strStarts (patBase pat ++ "/") path)

/-- Modelled from the spec: the missing Path Ignore Matcher `isIgnored`
(§4.3): some pattern of the list matches the path. -/
def isIgnored (path : String) (pats : List String) : Bool :=
  pats.any fun pat => matchesPattern pat path

/-! ### Coercion-Aware Equality (spec §4.4) -/

/-- Modelled from the spec: the numeric parse used by the
`numericStrings` coercion ("the string parses as a number"): optional
sign, a non-empty run of digits, optionally a dot and a non-empty run
of fraction digits.  Exponents are not modelled. -/
def parseNumber (s : String) : Option Rat :=
  let core : List Char → Option Rat := fun cs =>
    let intPart := cs.takeWhile isDigit
    let rest := cs.dropWhile isDigit
    if intPart = [] then none
    else
      match rest with
      | [] => some ((digitsToNat intPart : Nat) : Rat)
      | '.' :: frac =>
          if frac = [] || !(frac.all isDigit) then none
          else some (((digitsToNat intPart : Nat) : Rat) +
                       ((digitsToNat frac : Nat) : Rat) / ((10 : Rat) ^ frac.length))
      | _ => none
  match s.data with
  | '-' :: rest => (core rest).map fun q => -q
  | '+' :: rest => core rest
  | cs => core cs

/-- Modelled from the spec: the missing Coercion-Aware Equality
`equalScalars` (§4.4).  Same-kind scalars compare by raw value
equality; cross-kind String/Number and String/Bool comparisons are
considered only when the corresponding coercion is enabled; every other
pairing is unequal. -/
def scalarEq (c : Coercions) : Node → Node → Bool
  | .null _, .null _ => true
  | .bool a _, .bool b _ => a = b
  | .num a _, .num b _ => a = b
  | .str a _, .str b _ => a = b
  | .str s _, .num q _ => c.numericStrings && decide (parseNumber s = some q)
  | .num q _, .str s _ => c.numericStrings && decide (parseNumber s = some q)
  | .str s _, .bool b _ => c.boolStrings && ((s = "true" && b) || (s = "false" && !b))
  | .bool b _, .str s _ => c.boolStrings && ((s = "true" && b) || (s = "false" && !b))
  | _, _ => false

/-! ### Array identities (spec §4.2, set mode) -/

/-- Scalar payloads, used as array-element identities (the Go code
extracts the key field's scalar value). -/
inductive SVal where
  | null
  | b (v : Bool)
  | n (v : Rat)
  | s (v : String)
deriving DecidableEq

/-- The scalar payload of a scalar node (`none` for objects/arrays). -/
def svalOf : Node → Option SVal
  | .null _ => some .null
  | .bool v _ => some (.b v)
  | .num v _ => some (.n v)
  | .str v _ => some (.s v)
  | _ => none

/-- Rendering of an integer (Go `%v`-style for whole numbers). -/
def renderInt (i : Int) : String :=
  if i < 0 then "-" ++ printNat i.natAbs else printNat i.natAbs

/-- Modelled from the spec: rendering of an identity value inside a
set-mode element path `path[key=<value>]`. -/
def renderSVal : SVal → String
  | .null => "null"
  | .b true => "true"
  | .b false => "false"
  | .n q => if q.den = 1 then renderInt q.num else renderInt q.num ++ "/" ++ printNat q.den
  | .s v => v

/-- Association-list lookup for `Options.arraySetKeys`
(a Go `map[string]string`). -/
def lookupStr : List (String × String) → String → Option String
  | [], _ => none
  | (k, v) :: es, key => if k = key then some v else lookupStr es key

/-- The identity of a set-mode element: the scalar value of its `key`
member (`none` when the element is no object, lacks the member, or the
member is not scalar). -/
def getId (key : String) : Node → Option SVal
  | .obj es _ => (lookupEntry es key).bind svalOf
  | _ => none

/-- Is the node an object? -/
def isObjNode : Node → Bool
  | .obj _ _ => true
  | _ => false

/-- The identities of all elements, or `none` if some element has no
usable identity. -/
def idsOf (key : String) (xs : List Node) : Option (List SVal) :=
  xs.mapM (getId key)

/-- Modelled from the spec: §4.2's set-mode applicability: every
element carries a usable identity and identities are duplicate-free on
both sides; otherwise the array falls back to positional mode. -/
def setModeOK (key : String) (a1 a2 : List Node) : Bool :=
  match idsOf key a1, idsOf key a2 with
  | some ids1, some ids2 => decide ids1.Nodup && decide ids2.Nodup
  | _, _ => false

/-- The set-mode element path `path[key=<value>]`. -/
def elemPath (path key : String) (v : SVal) : String :=
  path ++ "[" ++ key ++ "=" ++ renderSVal v ++ "]"

/-- Remove the key member from a set-mode element before the content
comparison ("compare the two elements excluding the key field"). -/
def stripKey (key : String) : Node → Node
  | .obj es p => .obj (es.filter fun kv => kv.1 != key) p
  | n => n

/-- The first element with the given identity together with its index. -/
def findById (key : String) (v : SVal) : List Node → Nat → Option (Node × Nat)
  | [], _ => none
  | x :: xs, i => if getId key x = some v then some (x, i) else findById key v xs (i + 1)

/-! ### The Tree Comparator and Array Reconciliation (spec §4.1, §4.2)

The recursion of the comparator descends through association-list
lookups, so it is written with an explicit fuel parameter; the
non-recursive walkers below take the one-level-smaller comparator as
the argument `rec`, keeping everything structurally recursive. -/

/-- The keys of an object entry list. -/
def entryKeys (es : List (String × Node)) : List String := es.map Prod.fst

/-- Lexicographic order on character lists (model of Go's string
ordering used by `sort.Strings`; code points instead of UTF-8 bytes,
identical on ASCII). -/
def charsLe : List Char → List Char → Bool
  | [], _ => true
  | _ :: _, [] => false
  | a :: as, b :: bs =>
      if a.toNat = b.toNat then charsLe as bs else decide (a.toNat < b.toNat)

/-- Lexicographic string order. -/
def strLe (a b : String) : Bool := charsLe a.data b.data

/-- The ordering relation behind `strLe`, for the sorting lemmas. -/
def StrLe (a b : String) : Prop := strLe a b = true

instance : DecidableRel StrLe := fun a b => by
  unfold StrLe
  infer_instance

/-- Sorted, duplicate-free version of a key list (object iteration
order of the model; tree.go provides `SortedKeys` for exactly this). -/
def sortKeys (keys : List String) : List String :=
  (keys.dedup).insertionSort StrLe

/-- Modelled from the spec: §4.1's "union of member keys", iterated in
sorted order. -/
def unionKeys (e1 e2 : List (String × Node)) : List String :=
  sortKeys (entryKeys e1 ++ entryKeys e2)

/-- Modelled from the spec: §4.1's object recursion over the union of
member keys: keys only in old are Removes, keys only in new are Adds,
keys in both recurse; every emission point consults the ignore matcher
first. -/
def diffKeysGo (rec : Node → Node → String → Except String (List Change))
    (ign : String → Bool) :
    List String → List (String × Node) → List (String × Node) → String →
    Except String (List Change)
  | [], _, _, _ => .ok []
  | k :: ks, e1, e2, path => do
      let childPath := joinPath path k
      let head ←
        match lookupEntry e1 k, lookupEntry e2 k with
        | some v1, some v2 => rec v1 v2 childPath
        | some v1, none =>
            pure (if ign childPath then [] else [⟨.remove, childPath, some v1, none⟩])
        | none, some v2 =>
            pure (if ign childPath then [] else [⟨.add, childPath, none, some v2⟩])
        | none, none => pure []
      let rest ← diffKeysGo rec ign ks e1 e2 path
      pure (head ++ rest)

/-- Surplus new indices in positional mode: one Add per element at
`path[i]`, each guarded by the ignore matcher. -/
def posAdds (ign : String → Bool) : List Node → Nat → String → List Change
  | [], _, _ => []
  | y :: ys, i, path =>
      (if ign (path ++ "[" ++ printNat i ++ "]") then []
       else [⟨.add, path ++ "[" ++ printNat i ++ "]", none, some y⟩]) ++
        posAdds ign ys (i + 1) path

/-- Surplus old indices in positional mode: one Remove per element at
`path[i]`, each guarded by the ignore matcher. -/
def posRemoves (ign : String → Bool) : List Node → Nat → String → List Change
  | [], _, _ => []
  | x :: xs, i, path =>
      (if ign (path ++ "[" ++ printNat i ++ "]") then []
       else [⟨.remove, path ++ "[" ++ printNat i ++ "]", some x, none⟩]) ++
        posRemoves ign xs (i + 1) path

/-- Modelled from the spec: §4.2's positional mode: pair elements by
index and recurse, Removes for surplus old indices, Adds for surplus
new indices, no Moves. -/
def diffPosGo (rec : Node → Node → String → Except String (List Change))
    (ign : String → Bool) :
    List Node → List Node → Nat → String → Except String (List Change)
  | [], ys, i, path => .ok (posAdds ign ys i path)
  | x :: xs, ys, i, path =>
      match ys with
      | [] => .ok (posRemoves ign (x :: xs) i path)
      | y :: ys => do
          let p := path ++ "[" ++ printNat i ++ "]"
          let head ← rec x y p
          let rest ← diffPosGo rec ign xs ys (i + 1) path
          pure (head ++ rest)

/-- Modelled from the spec: §4.2's set-mode pairing loop: for each old
element whose identity also occurs in new, compare the elements
excluding the key field at `path[key=<value>]`, and emit one Move
(old index to new index) when the position changed. -/
def diffPairsGo (rec : Node → Node → String → Except String (List Change))
    (ign : String → Bool) (key : String) (newList : List Node) :
    List Node → Nat → String → Except String (List Change)
  | [], _, _ => .ok []
  | x :: xs, i, path => do
      let head ←
        match getId key x with
        | some v =>
            match findById key v newList 0 with
            | none => pure ([] : List Change)
            | some (y, j) =>
                let ep := elemPath path key v
                if ign ep then pure []
                else do
                  let content ← rec (stripKey key x) (stripKey key y) ep
                  pure (content ++
                    (if i ≠ j then [⟨.move, ep, some (.num (i : Rat) ""), some (.num (j : Rat) "")⟩]
                     else []))
        | none => pure []
      let rest ← diffPairsGo rec ign key newList xs (i + 1) path
      pure (head ++ rest)

/-- Modelled from the spec: §4.2's Array Reconciliation `reconcile`:
positional mode unless a key is configured for this path; with a key,
non-object elements are the invariant violation of §7, unusable or
duplicate identities fall back to positional mode, and otherwise
Removes for identities only in old, Adds for identities only in new,
then the pairing loop. -/
def reconcileGo (rec : Node → Node → String → Except String (List Change))
    (ign : String → Bool) (a1 a2 : List Node) (path : String) (opts : Options) :
    Except String (List Change) :=
  match lookupStr opts.arraySetKeys path with
  | none => diffPosGo rec ign a1 a2 0 path
  | some key =>
      if !(a1.all isObjNode && a2.all isObjNode) then
        .error ("set-keyed array element is not an object at " ++ path)
      else if setModeOK key a1 a2 then
        let ids1 := (idsOf key a1).getD []
        let ids2 := (idsOf key a2).getD []
        let removes : List Change := a1.filterMap fun x =>
          match getId key x with
          | some v =>
              if v ∈ ids2 then none
              else if ign (elemPath path key v) then none
              else some ⟨.remove, elemPath path key v, some x, none⟩
          | none => none
        let adds : List Change := a2.filterMap fun y =>
          match getId key y with
          | some v =>
              if v ∈ ids1 then none
              else if ign (elemPath path key v) then none
              else some ⟨.add, elemPath path key v, none, some y⟩
          | none => none
        do
          let pairs ← diffPairsGo rec ign key a2 a1 0 path
          pure (removes ++ adds ++ pairs)
      else diffPosGo rec ign a1 a2 0 path

/-- Modelled from the spec: the missing Tree Comparator `compare`
(§4.1), fueled.  Before anything else the current path is checked
against the ignore matcher; both-object pairs recurse over the key
union, both-array pairs delegate to Array Reconciliation, and every
other pairing (both null, same-kind scalars, differing kinds) is
settled by Coercion-Aware Equality, emitting one whole-subtree Modify
when unequal. -/
def diffNodeF : Nat → Node → Node → String → Options → Except String (List Change)
  | 0, _, _, _, _ => .error "fuel exhausted"
  | fuel + 1, old, new, path, opts =>
      if isIgnored path opts.ignorePaths then .ok []
      else
        match old, new with
        | .obj e1 _, .obj e2 _ =>
            diffKeysGo (fun a b p => diffNodeF fuel a b p opts)
              (fun p => isIgnored p opts.ignorePaths) (unionKeys e1 e2) e1 e2 path
        | .arr a1 _, .arr a2 _ =>
            reconcileGo (fun a b p => diffNodeF fuel a b p opts)
              (fun p => isIgnored p opts.ignorePaths) a1 a2 path opts
        | _, _ =>
            if scalarEq opts.coercions old new then .ok []
            else .ok [⟨.modify, path, some old, some new⟩]

/-- Ordering of changes by canonical path (spec §4.5 stable order). -/
def sortChanges (cs : List Change) : List Change :=
  cs.insertionSort fun c1 c2 => StrLe c1.path c2.path

/-- Modelled from the spec: the missing diff package's entry point
`diff.Diff`: run the comparator from the root with sufficient fuel and,
when `stableOrder` is set, sort the changes by canonical path. -/
def Diff (old new : Node) (opts : Options) : Except String (List Change) := do
  let cs ← diffNodeF (nodeSize old + nodeSize new) old new "" opts
  pure (if opts.stableOrder then sortChanges cs else cs)

/-! ### Patch Assembler (spec §4.5) -/

/-- Modelled from the spec: the "plain scalar/mapping/sequence
representation of the Node's content, not the Node wrapper itself"
carried by operations (§6).  Object entries are kept sorted by key,
matching Go's serialization of maps. -/
inductive Plain where
  | null
  | bool (b : Bool)
  | num (v : Rat)
  | str (s : String)
  | obj (entries : List (String × Plain))
  | arr (elems : List Plain)

mutual

/-- Modelled from the spec: conversion of a node to its plain content
representation (paths dropped, object entries sorted by key). -/
def plainValue : Node → Plain
  | .null _ => .null
  | .bool b _ => .bool b
  | .num v _ => .num v
  | .str s _ => .str s
  | .obj es _ => .obj ((plainEntries es).insertionSort fun a b => StrLe a.1 b.1)
  | .arr xs _ => .arr (plainElems xs)
termination_by structural n => n

/-- Plain representations of object entries. -/
def plainEntries : List (String × Node) → List (String × Plain)
  | [] => []
  | (k, v) :: es => (k, plainValue v) :: plainEntries es
termination_by structural es => es

/-- Plain representations of array elements. -/
def plainElems : List Node → List Plain
  | [] => []
  | x :: xs => plainValue x :: plainElems xs
termination_by structural xs => xs

end

/-- Modelled from the spec: the missing patch package's `Operation`
(re-exported in src/configdiff.go): op, target path, optional value,
and source path for moves (`From` in Go; `from` is reserved in Lean). -/
structure Operation where
  op : String
  path : String
  value : Option Plain
  fromPath : Option String

/-- Modelled from the spec: the missing patch package's `Patch`. -/
structure Patch where
  operations : List Operation

/-- Modelled from the spec: §4.5's change-to-operation mapping:
Add to "add" with the new value, Remove to "remove" without value,
Modify to "replace" with the new value, Move to "move" carrying the
source path. -/
def toOperation (c : Change) : Operation :=
  match c.type with
  | .add => ⟨"add", c.path, c.newValue.map plainValue, none⟩
  | .remove => ⟨"remove", c.path, none, none⟩
  | .modify => ⟨"replace", c.path, c.newValue.map plainValue, none⟩
  | .move => ⟨"move", c.path, none, some c.path⟩

/-- Modelled from the spec: the missing patch package's `FromChanges`
(called by src/configdiff.go DiffTrees). -/
def Patch.fromChanges (cs : List Change) : Patch :=
  ⟨cs.map toOperation⟩

/-- The `Result` of src/configdiff.go, without the `Report` field: the
presentation layer is excluded from scope by spec §1, so the report
string is not modelled. -/
structure Result where
  changes : List Change
  patch : Patch

/-- From src/configdiff.go `DiffTrees`: compute the diff, generate the
patch from the changes, and build the result; any engine error is
returned without a result. -/
def DiffTrees (a b : Node) (opts : Options) : Except String Result :=
  match Diff a b opts with
  | .error e => .error ("diff failed: " ++ e)
  | .ok changes => .ok ⟨changes, Patch.fromChanges changes⟩

/-! ## Predicates used by the theorems -/

/-- Is the node an array? -/
def isArrNode : Node → Bool
  | .arr _ _ => true
  | _ => false

mutual

/-- No invariant violation of spec §7 is reachable from this node at
this path: wherever `arraySetKeys` configures a key for an array's
path, the array's elements are all objects; the predicate follows every
location the comparator can reach (object members, positional elements,
and set-mode element contents with the key member excluded). -/
def wellKeyed : Node → String → Options → Bool
  | .obj es _, path, opts => wkEntries es path opts
  | .arr xs _, path, opts =>
      (match lookupStr opts.arraySetKeys path with
       | some key => xs.all isObjNode && wkSetElems key xs path opts
       | none => true) &&
      wkPosElems xs 0 path opts
  | _, _, _ => true
termination_by structural n => n

/-- `wellKeyed` for all members of an object. -/
def wkEntries : List (String × Node) → String → Options → Bool
  | [], _, _ => true
  | (k, v) :: es, path, opts => wellKeyed v (joinPath path k) opts && wkEntries es path opts
termination_by structural es => es

/-- `wellKeyed` for the set-mode contents of keyed array elements: the
members other than the key field, below the `path[key=<value>]`
element path. -/
def wkSetElems (key : String) : List Node → String → Options → Bool
  | [], _, _ => true
  | x :: xs, path, opts =>
      (match getId key x, x with
       | some v, .obj es2 _ => wkSetEntries key es2 (elemPath path key v) opts
       | _, _ => true) &&
      wkSetElems key xs path opts
termination_by structural xs => xs

/-- `wellKeyed` for the non-key members of a set-mode element. -/
def wkSetEntries (key : String) : List (String × Node) → String → Options → Bool
  | [], _, _ => true
  | (k2, v2) :: es, ep, opts =>
      (k2 == key || wellKeyed v2 (joinPath ep k2) opts) && wkSetEntries key es ep opts
termination_by structural es => es

/-- `wellKeyed` for positional array elements at `path[i]`. -/
def wkPosElems : List Node → Nat → String → Options → Bool
  | [], _, _, _ => true
  | x :: xs, i, path, opts =>
      wellKeyed x (path ++ "[" ++ printNat i ++ "]") opts && wkPosElems xs (i + 1) path opts
termination_by structural xs => xs

end

mutual

/-- Canonical form of a tree: object entry lists sorted by key (stable
sort, values canonicalized first).  Two trees denote the same Go input
(the same `map[string]*Node` contents at every object) exactly when
their canonical forms coincide; Go map iteration order is the only
nondeterminism of the original inputs. -/
def canonS : Node → Node
  | .null p => .null p
  | .bool b p => .bool b p
  | .num v p => .num v p
  | .str s p => .str s p
  | .obj es p => .obj ((canonEntries es).insertionSort fun a b => StrLe a.1 b.1) p
  | .arr xs p => .arr (canonElems xs) p
termination_by structural n => n

/-- Canonicalized object entries (values canonicalized, order kept). -/
def canonEntries : List (String × Node) → List (String × Node)
  | [] => []
  | (k, v) :: es => (k, canonS v) :: canonEntries es
termination_by structural es => es

/-- Canonicalized array elements. -/
def canonElems : List Node → List Node
  | [] => []
  | x :: xs => canonS x :: canonElems xs
termination_by structural xs => xs

end

mutual

/-- Every object of the tree has duplicate-free member keys (always
true of trees built from Go maps). -/
def nodupKeys : Node → Bool
  | .obj es _ => decide (entryKeys es).Nodup && ndkEntries es
  | .arr xs _ => ndkElems xs
  | _ => true
termination_by structural n => n

/-- `nodupKeys` for all members of an object. -/
def ndkEntries : List (String × Node) → Bool
  | [] => true
  | (_, v) :: es => nodupKeys v && ndkEntries es
termination_by structural es => es

/-- `nodupKeys` for all elements of an array. -/
def ndkElems : List Node → Bool
  | [] => true
  | x :: xs => nodupKeys x && ndkElems xs
termination_by structural xs => xs

end

/-- An object key that path assignment and path lookup treat cleanly:
nonempty, no slash (the segment separator), and no brackets (which
`parseArrayNotation` could misread as array notation). -/
def goodKey (k : String) : Bool :=
  !(k = "") && !(k.data.contains '/') && !(k.data.contains '[') && !(k.data.contains ']')

mutual

/-- The trees for which the SetPaths/GetByPath round trip holds: every
object has duplicate-free, clean member keys, and no array element is
itself an array (tree.go's `parseArrayNotation` reads only the first
bracket group of a segment, so paths of directly nested arrays do not
resolve). -/
def cleanTree : Node → Bool
  | .obj es _ =>
      decide (entryKeys es).Nodup && es.all (fun kv => goodKey kv.1) && cleanEntries es
  | .arr xs _ => xs.all (fun x => !isArrNode x) && cleanElems xs
  | _ => true
termination_by structural n => n

/-- `cleanTree` for all members of an object. -/
def cleanEntries : List (String × Node) → Bool
  | [] => true
  | (_, v) :: es => cleanTree v && cleanEntries es
termination_by structural es => es

/-- `cleanTree` for all elements of an array. -/
def cleanElems : List Node → Bool
  | [] => true
  | x :: xs => cleanTree x && cleanElems xs
termination_by structural xs => xs

end

/-- Equality of the canonical forms: the two nodes denote the same Go
value (same scalar payloads, same object contents, same element order,
same paths), independently of object entry order. -/
def canonEq (a b : Node) : Prop := canonS a = canonS b

/-- Pointwise `canonEq` on optional values. -/
def optCanonEq : Option Node → Option Node → Prop
  | none, none => True
  | some a, some b => canonEq a b
  | _, _ => False

/-- Two nodes that denote the same Go value and moreover have the same
plain content representation (the part of a node that is serialized
into a patch operation). -/
def valRel (a b : Node) : Prop :=
  canonS a = canonS b ∧ plainValue a = plainValue b

/-- Pointwise `valRel` on optional values. -/
def optValRel : Option Node → Option Node → Prop
  | none, none => True
  | some a, some b => valRel a b
  | _, _ => False

/-- Two changes that agree on kind and path and whose carried values
denote the same Go value (and hence serialize identically). -/
def changeRel (c c' : Change) : Prop :=
  c.type = c'.type ∧ c.path = c'.path ∧
    optValRel c.oldValue c'.oldValue ∧ optValRel c.newValue c'.newValue

/-- The path-assignment contract of the claim, stated over every node
of a tree: each object member `k` of a node with path `p` carries path
`p + "/" + k` (or `"/" + k` when `p` is empty or `"/"`), and each array
element `i` carries `p + "[" + i + "]"`. -/
def joinPathSpec (p k : String) : String :=
  if p = "" ∨ p = "/" then "/" ++ k else p ++ "/" ++ k

/-- All interior path assignments of a tree follow `joinPathSpec` and
the bracketed-index format. -/
def pathSpecOK (r : Node) : Prop :=
  ∀ m ∈ r.subnodes,
    (∀ es p, m = .obj es p → ∀ kv ∈ es, (kv.2 : Node).path = joinPathSpec p kv.1) ∧
    (∀ xs p, m = .arr xs p → ∀ i x, xs[i]? = some x → (x : Node).path = p ++ "[" ++ printNat i ++ "]")

/-- A canonical base path: a nonempty string that starts with a slash
(every path `SetPaths` assigns when seeded with the root path `/` has
this shape). -/
def ValidBase (b : String) : Prop := ∃ rest, b.data = '/' :: rest

/-- How an array node `a` sits in the tree as seen from the root `r`:
either it is the root itself (base `/`), or it is member `k` of an
object that the `GetByPath` walk reaches from `r` via the segments of
`base` other than its last one.  This is exactly the shape the
`parseArrayNotation`-driven lookup needs in order to resolve the element
paths `base[i]` that `SetPaths` assigns. -/
def ArrAt (r : Node) (base : String) (a : Node) : Prop :=
  (base = "/" ∧ r = a) ∨
  (∃ ss k pes pp, parsePath base = ss ++ [k] ∧ goodKey k = true ∧
    getSegs r ss = .found (.obj pes pp) ∧ lookupEntry pes k = some a)

/-- Relation between the two runs' engine results: the same error
message, or Change sequences pointwise `changeRel`. -/
def ExceptRel : Except String (List Change) → Except String (List Change) → Prop
  | .ok cs, .ok cs2 => List.Forall₂ changeRel cs cs2
  | .error e, .error e2 => e = e2
  | _, _ => False

/-- The relation between corresponding nodes of the two runs: same
canonical form, duplicate-free object keys on both sides. -/
def NodeRel (a b : Node) : Prop :=
  canonS a = canonS b ∧ nodupKeys a = true ∧ nodupKeys b = true

/-- Relation between the two runs' full results: Change sequences
pointwise `changeRel` and byte-identical operation sequences. -/
def ResultRel (r r2 : Result) : Prop :=
  List.Forall₂ changeRel r.changes r2.changes ∧
    r.patch.operations = r2.patch.operations

/-- `ResultRel` lifted to the fallible `DiffTrees` results: the same
error message, or related results. -/
def DTRel : Except String Result → Except String Result → Prop
  | .ok r, .ok r2 => ResultRel r r2
  | .error e, .error e2 => e = e2
  | _, _ => False

/-- Is a change a Move? -/
def isMove : ChangeType → Bool
  | .move => true
  | _ => false

/-- The Move changes of a sequence that sit at a given path: the claim
about set-mode reconciliation counts exactly these. -/
def movesAt (q : String) (cs : List Change) : List Change :=
  cs.filter fun c => isMove c.type && (c.path == q)

/-! ## Concrete inputs used by witnesses and counterexamples -/

/-- Options with nothing configured. -/
def noOpts : Options := ⟨[], [], ⟨false, false⟩, false⟩

/-- A set-mode element with fields `id` and `v`, as in spec §8. -/
def itemEl (i : Nat) (v : String) : Node := .obj [("id", .num i ""), ("v", .str v "")] ""

/-- `old = { items: [ {id:1, v:"a"}, {id:2, v:"b"} ] }` (spec §8). -/
def oldItems : Node := .obj [("items", .arr [itemEl 1 "a", itemEl 2 "b"] "")] ""

/-- `new = { items: [ {id:2, v:"b"}, {id:1, v:"a"} ] }` (spec §8). -/
def newItems : Node := .obj [("items", .arr [itemEl 2 "b", itemEl 1 "a"] "")] ""

/-- Options keying `/items` by `id` (spec §8). -/
def setOpts : Options := ⟨[], [("/items", "id")], ⟨false, false⟩, false⟩

/-- Options ignoring `/status/*`. -/
def statusStarOpts : Options := ⟨["/status/*"], [], ⟨false, false⟩, false⟩

/-- Options with stable ordering switched on, nothing else configured
(determinism example). -/
def stableOpts : Options := ⟨[], [], ⟨false, false⟩, true⟩

/-- Determinism example: an old tree in one map iteration order. -/
def detOldA : Node :=
  .obj [("b", .num 2 ""), ("a", .num 1 "")] ""

/-- The same old tree as `detOldA`, members enumerated in the other
iteration order (the same Go map value). -/
def detOldB : Node :=
  .obj [("a", .num 1 ""), ("b", .num 2 "")] ""

/-- Determinism example: a new tree in one map iteration order. -/
def detNewA : Node :=
  .obj [("a", .num 3 ""), ("c", .obj [("y", .bool true ""), ("x", .null "")] "")] ""

/-- The same new tree as `detNewA`, members (also of the nested object)
enumerated in the other iteration order. -/
def detNewB : Node :=
  .obj [("c", .obj [("x", .null ""), ("y", .bool true "")] ""), ("a", .num 3 "")] ""

/-- `{ n: "3" }` (spec §8 numeric-coercion example). -/
def oldN3 : Node := .obj [("n", .str "3" "")] ""

/-- `{ n: 3 }` (spec §8 numeric-coercion example). -/
def newN3 : Node := .obj [("n", .num 3 "")] ""

/-- Options with only `numericStrings` enabled. -/
def numStrOpts : Options := ⟨[], [], ⟨true, false⟩, false⟩

/-- `old = { a: 1, status: { x: 1 } }` (spec §8 ignore example). -/
def oldStatus : Node := .obj [("a", .num 1 ""), ("status", .obj [("x", .num 1 "")] "")] ""

/-- `new = { a: 2, status: { x: 2 } }` (spec §8 ignore example). -/
def newStatus : Node := .obj [("a", .num 2 ""), ("status", .obj [("x", .num 2 "")] "")] ""

/-- `{ items: [1] }`: an array of scalars, valid as a tree. -/
def scalarItems : Node := .obj [("items", .arr [.num 1 ""] "")] ""

/-- A tree with directly nested arrays: `{ a: [[null, null]] }`. -/
def nestedArrays : Node := .obj [("a", .arr [.arr [.null "", .null ""] ""] "")] ""

/-! ## Theorems -/

theorem nodeSize_pos (n : Node) : 1 ≤ nodeSize n := by
  cases n <;> simp [nodeSize]

theorem lookupEntry_size_le {es : List (String × Node)} {k : String} {v : Node}
    (h : lookupEntry es k = some v) : nodeSize v ≤ entriesSize es := by
  induction es with
  | nil => simp [lookupEntry] at h
  | cons kv es ih =>
      obtain ⟨k', v'⟩ := kv
      by_cases hk : k' = k
      · simp [lookupEntry, hk] at h
        subst h
        simp [entriesSize]
        omega
      · simp [lookupEntry, hk] at h
        have := ih h
        simp [entriesSize]
        omega

theorem lookupEntry_size {es : List (String × Node)} {k : String} {v : Node} {p : String}
    (h : lookupEntry es k = some v) : nodeSize v < nodeSize (.obj es p) := by
  have := lookupEntry_size_le h
  simp [nodeSize]
  omega

theorem mem_elems_size_le {xs : List Node} {x : Node} (h : x ∈ xs) :
    nodeSize x ≤ elemsSize xs := by
  induction xs with
  | nil => simp at h
  | cons y ys ih =>
      rcases List.mem_cons.mp h with h | h
      · subst h
        simp [elemsSize]
        omega
      · have := ih h
        simp [elemsSize]
        omega

theorem mem_elems_size {xs : List Node} {x : Node} {p : String} (h : x ∈ xs) :
    nodeSize x < nodeSize (.arr xs p) := by
  have := mem_elems_size_le h
  simp [nodeSize]
  omega

theorem entriesSize_filter_le (es : List (String × Node)) (f : String × Node → Bool) :
    entriesSize (es.filter f) ≤ entriesSize es := by
  induction es with
  | nil => simp [entriesSize]
  | cons kv es ih =>
      by_cases hf : f kv
      · simp [List.filter, hf, entriesSize]
        omega
      · simp [List.filter, hf, entriesSize]
        omega

theorem stripKey_size_le (key : String) (x : Node) : nodeSize (stripKey key x) ≤ nodeSize x := by
  cases x <;> simp [stripKey, nodeSize]
  exact entriesSize_filter_le _ _

/-- C10: tree.go's `GetByPath` is claimed total — returning a node or
nil without faulting even for malformed or out-of-range indices — but
on a negative scanned index the code only guards `idx >= len` and then
indexes the Go slice with a negative index, a runtime panic; evaluating
the model at an array root and path `/[-1]` reaches the crash. -/
theorem C10_getByPath_negative_index_crash :
    (Node.arr [.null ""] "/").getByPath "/[-1]" = .crash := rfl

/-- C1 counterexample: for the valid tree `T = { items: [1] }` and
Options keying `/items` by `id`, `DiffTrees T T opts` is an error (the
§7 invariant violation: a set-keyed array element that is not an
Object), not an empty Change sequence, so reflexivity does not hold for
every Options value. -/
theorem C1_counterexample :
    DiffTrees scalarItems scalarItems setOpts =
      .error "diff failed: set-keyed array element is not an object at /items" := rfl

/-- C2 counterexample: with ignore pattern `/status/*` the path
`/status` itself is not excluded — the matcher requires the prefix
followed by `/` — so a difference at `/status` is still reported, and
the claim's addendum that the `/*` wildcard covers the prefix path
itself is false of the matcher. -/
theorem C2_counterexample :
    Diff (.obj [("status", .num 1 "")] "") (.obj [("status", .num 2 "")] "") statusStarOpts =
        .ok [⟨.modify, "/status", some (.num 1 ""), some (.num 2 "")⟩] ∧
      patBase "/status/*" = "/status" ∧
      isIgnored "/status" statusStarOpts.ignorePaths = false := by
  refine ⟨rfl, rfl, rfl⟩

/-- C4 counterexample: positionally comparing the spec §8 arrays
(`[{id:1,v:"a"},{id:2,v:"b"}]` against the swapped order) yields four
Modify changes — both objects recurse per §4.1, producing one Modify
per differing member — not one Modify per differing index (two). -/
theorem C4_counterexample :
    ¬ ∃ cs, Diff oldItems newItems noOpts = .ok cs ∧ cs.length = 2 := by
  rintro ⟨cs, h, hl⟩
  have hv : Diff oldItems newItems noOpts = Except.ok
      [⟨.modify, "/items[0]/id", some (.num 1 ""), some (.num 2 "")⟩,
       ⟨.modify, "/items[0]/v", some (.str "a" ""), some (.str "b" "")⟩,
       ⟨.modify, "/items[1]/id", some (.num 2 ""), some (.num 1 "")⟩,
       ⟨.modify, "/items[1]/v", some (.str "b" ""), some (.str "a" "")⟩] := by rfl
  rw [hv] at h
  injection h with h3
  rw [← h3] at hl
  simp at hl

/-- C5: with `numericStrings` enabled a String node and a Number node
compare equal exactly when the string parses as a number equal to the
number, in either direction; comparing `{n:"3"}` with `{n:3}` yields
zero changes with the coercion on and exactly one Modify at `/n` with
it off. -/
theorem C5_numeric_strings :
    (∀ (c : Coercions) (s : String) (q : Rat) (p1 p2 : String), c.numericStrings = true →
        (scalarEq c (.str s p1) (.num q p2) = true ↔ parseNumber s = some q) ∧
        (scalarEq c (.num q p1) (.str s p2) = true ↔ parseNumber s = some q)) ∧
      Diff oldN3 newN3 numStrOpts = .ok [] ∧
      Diff oldN3 newN3 noOpts = .ok [⟨.modify, "/n", some (.str "3" ""), some (.num 3 "")⟩] := by
  refine ⟨fun c s q p1 p2 h => ?_, rfl, rfl⟩
  constructor <;> simp [scalarEq, h]

/-- C5 witness: the general equivalence applied at `"3"` and `3`. -/
theorem C5_witness :
    scalarEq ⟨true, false⟩ (.str "3" "") (.num 3 "") = true := by
  exact ((C5_numeric_strings.1 ⟨true, false⟩ "3" 3 "" "" rfl).1).mpr rfl

theorem except_ok_bind {α β : Type} (a : α) (f : α → Except String β) :
    (Except.ok a : Except String α) >>= f = f a := rfl

theorem except_pure_eq {α : Type} (a : α) : (pure a : Except String α) = .ok a := rfl

theorem scalarEq_refl (c : Coercions) (t : Node) (h1 : ¬ ∃ es p, t = Node.obj es p)
    (h2 : ¬ ∃ xs p, t = Node.arr xs p) : scalarEq c t t = true := by
  cases t <;> simp_all [scalarEq]

theorem wellKeyed_null (p path : String) (opts : Options) :
    wellKeyed (.null p) path opts = true := by rw [wellKeyed.eq_def]

theorem wellKeyed_bool (b : Bool) (p path : String) (opts : Options) :
    wellKeyed (.bool b p) path opts = true := by rw [wellKeyed.eq_def]

theorem wellKeyed_num (q : Rat) (p path : String) (opts : Options) :
    wellKeyed (.num q p) path opts = true := by rw [wellKeyed.eq_def]

theorem wellKeyed_str (s p path : String) (opts : Options) :
    wellKeyed (.str s p) path opts = true := by rw [wellKeyed.eq_def]

theorem wellKeyed_obj (es : List (String × Node)) (p path : String) (opts : Options) :
    wellKeyed (.obj es p) path opts = wkEntries es path opts := by rw [wellKeyed.eq_def]

theorem wellKeyed_arr (xs : List Node) (p path : String) (opts : Options) :
    wellKeyed (.arr xs p) path opts =
      ((match lookupStr opts.arraySetKeys path with
        | some key => xs.all isObjNode && wkSetElems key xs path opts
        | none => true) &&
       wkPosElems xs 0 path opts) := by rw [wellKeyed.eq_def]

theorem wkEntries_nil (path : String) (opts : Options) : wkEntries [] path opts = true := by
  rw [wkEntries.eq_def]

theorem wkEntries_cons (k : String) (v : Node) (es : List (String × Node)) (path : String)
    (opts : Options) :
    wkEntries ((k, v) :: es) path opts =
      (wellKeyed v (joinPath path k) opts && wkEntries es path opts) := by
  rw [wkEntries.eq_def]

theorem wkSetElems_nil (key path : String) (opts : Options) :
    wkSetElems key [] path opts = true := by rw [wkSetElems.eq_def]

theorem wkSetElems_cons (key : String) (x : Node) (xs : List Node) (path : String)
    (opts : Options) :
    wkSetElems key (x :: xs) path opts =
      ((match getId key x, x with
        | some v, Node.obj es2 _ => wkSetEntries key es2 (elemPath path key v) opts
        | _, _ => true) &&
       wkSetElems key xs path opts) := by
  rw [wkSetElems.eq_def]

theorem wkSetEntries_nil (key ep : String) (opts : Options) :
    wkSetEntries key [] ep opts = true := by rw [wkSetEntries.eq_def]

theorem wkSetEntries_cons (key k2 : String) (v2 : Node) (es : List (String × Node))
    (ep : String) (opts : Options) :
    wkSetEntries key ((k2, v2) :: es) ep opts =
      ((k2 == key || wellKeyed v2 (joinPath ep k2) opts) && wkSetEntries key es ep opts) := by
  rw [wkSetEntries.eq_def]

theorem wkPosElems_nil (i : Nat) (path : String) (opts : Options) :
    wkPosElems [] i path opts = true := by rw [wkPosElems.eq_def]

theorem wkPosElems_cons (x : Node) (xs : List Node) (i : Nat) (path : String)
    (opts : Options) :
    wkPosElems (x :: xs) i path opts =
      (wellKeyed x (path ++ "[" ++ printNat i ++ "]") opts && wkPosElems xs (i + 1) path opts) := by
  rw [wkPosElems.eq_def]

theorem wkEntries_lookup {es : List (String × Node)} {path : String} {opts : Options}
    {k : String} {v : Node} (hwk : wkEntries es path opts = true)
    (h : lookupEntry es k = some v) : wellKeyed v (joinPath path k) opts = true := by
  induction es with
  | nil => simp [lookupEntry] at h
  | cons kv es ih =>
      obtain ⟨k', v'⟩ := kv
      rw [wkEntries_cons, Bool.and_eq_true] at hwk
      by_cases hk : k' = k
      · simp only [lookupEntry, if_pos hk] at h
        injection h with h
        subst h
        rw [← hk]
        exact hwk.1
      · simp only [lookupEntry, if_neg hk] at h
        exact ih hwk.2 h

theorem wkPosElems_get {xs : List Node} {i : Nat} {path : String} {opts : Options}
    (hwk : wkPosElems xs i path opts = true) :
    ∀ j x, xs[j]? = some x →
      wellKeyed x (path ++ "[" ++ printNat (i + j) ++ "]") opts = true := by
  induction xs generalizing i with
  | nil => intro j x hx; simp at hx
  | cons y ys ih =>
      intro j x hx
      rw [wkPosElems_cons, Bool.and_eq_true] at hwk
      cases j with
      | zero =>
          simp only [List.getElem?_cons_zero] at hx
          injection hx with hx
          subst hx
          simpa using hwk.1
      | succ j =>
          simp only [List.getElem?_cons_succ] at hx
          have := ih hwk.2 j x hx
          simpa [Nat.add_assoc, Nat.add_comm 1 j] using this

theorem wkSetEntries_filter {key : String} {es : List (String × Node)} {ep : String}
    {opts : Options} (h : wkSetEntries key es ep opts = true) :
    wkEntries (es.filter fun kv => kv.1 != key) ep opts = true := by
  induction es with
  | nil => simp [wkEntries]
  | cons kv es ih =>
      obtain ⟨k2, v2⟩ := kv
      rw [wkSetEntries_cons, Bool.and_eq_true, Bool.or_eq_true] at h
      by_cases hk : k2 = key
      · simpa [List.filter, hk] using ih h.2
      · have hv : wellKeyed v2 (joinPath ep k2) opts = true := by
          rcases h.1 with h1 | h1
          · exact absurd (by simpa using h1) hk
          · exact h1
        simp only [List.filter]
        rw [show ((k2, v2).1 != key) = true by simpa using hk]
        rw [wkEntries_cons, Bool.and_eq_true]
        exact ⟨hv, ih h.2⟩

theorem wkSetElems_strip {key : String} {xs : List Node} {path : String} {opts : Options}
    (hwk : wkSetElems key xs path opts = true) :
    ∀ x ∈ xs, ∀ v, getId key x = some v →
      wellKeyed (stripKey key x) (elemPath path key v) opts = true := by
  induction xs with
  | nil => intro x hx; simp at hx
  | cons y ys ih =>
      intro x hx v hv
      rw [wkSetElems_cons, Bool.and_eq_true] at hwk
      rcases List.mem_cons.mp hx with hx | hx
      · subst hx
        cases x with
        | obj es2 p =>
            have h1 := hwk.1
            rw [hv] at h1
            simp only at h1
            have hgoal : stripKey key (Node.obj es2 p) =
                Node.obj (es2.filter fun kv => kv.1 != key) p := rfl
            rw [hgoal, wellKeyed_obj]
            exact wkSetEntries_filter h1
        | null p => simp [getId] at hv
        | bool b p => simp [getId] at hv
        | num q p => simp [getId] at hv
        | str s p => simp [getId] at hv
        | arr a p => simp [getId] at hv
      · exact ih hwk.2 x hx v hv

theorem mem_idsOf {key : String} {xs : List Node} {ids : List SVal}
    (hids : idsOf key xs = some ids) :
    ∀ (j : Nat) (x : Node) (v : SVal), xs[j]? = some x → getId key x = some v → v ∈ ids := by
  induction xs generalizing ids with
  | nil => intro j x v hx; simp at hx
  | cons y ys ih =>
      intro j x v hx hv
      simp only [idsOf, List.mapM_cons] at hids
      cases hy : getId key y with
      | none => rw [hy] at hids; simp at hids
      | some vy =>
          rw [hy] at hids
          cases hys : ys.mapM (getId key) with
          | none => rw [hys] at hids; simp at hids
          | some ids' =>
              rw [hys] at hids
              simp at hids
              subst hids
              cases j with
              | zero =>
                  simp only [List.getElem?_cons_zero] at hx
                  injection hx with hx
                  subst hx
                  rw [hy] at hv
                  injection hv with hv
                  subst hv
                  exact List.mem_cons_self _ _
              | succ j =>
                  simp only [List.getElem?_cons_succ] at hx
                  exact List.mem_cons_of_mem _ (ih hys j x v hx hv)

theorem idsOf_get {key : String} {xs : List Node} {ids : List SVal}
    (hids : idsOf key xs = some ids) :
    ∀ (j : Nat) (x : Node), xs[j]? = some x → ∃ v, getId key x = some v ∧ ids[j]? = some v := by
  induction xs generalizing ids with
  | nil => intro j x hx; simp at hx
  | cons y ys ih =>
      intro j x hx
      simp only [idsOf, List.mapM_cons] at hids
      cases hy : getId key y with
      | none => rw [hy] at hids; simp at hids
      | some vy =>
          rw [hy] at hids
          cases hys : ys.mapM (getId key) with
          | none => rw [hys] at hids; simp at hids
          | some ids' =>
              rw [hys] at hids
              simp at hids
              subst hids
              cases j with
              | zero =>
                  simp only [List.getElem?_cons_zero] at hx
                  injection hx with hx
                  subst hx
                  exact ⟨vy, hy, by simp⟩
              | succ j =>
                  simp only [List.getElem?_cons_succ] at hx
                  obtain ⟨v, hv, hjv⟩ := ih hys j x hx
                  exact ⟨v, hv, by simpa using hjv⟩

theorem findById_self {key : String} {xs : List Node} {ids : List SVal}
    (hids : idsOf key xs = some ids) (hnd : ids.Nodup) :
    ∀ (i : Nat) (x : Node) (v : SVal), xs[i]? = some x → getId key x = some v →
      ∀ n, findById key v xs n = some (x, n + i) := by
  induction xs generalizing ids with
  | nil => intro i x v hx; simp at hx
  | cons y ys ih =>
      intro i x v hx hv n
      simp only [idsOf, List.mapM_cons] at hids
      cases hy : getId key y with
      | none => rw [hy] at hids; simp at hids
      | some vy =>
          rw [hy] at hids
          cases hys : ys.mapM (getId key) with
          | none => rw [hys] at hids; simp at hids
          | some ids' =>
              rw [hys] at hids
              simp at hids
              subst hids
              cases i with
              | zero =>
                  simp only [List.getElem?_cons_zero] at hx
                  injection hx with hx
                  subst hx
                  rw [hv] at hy
                  injection hy with hy
                  simp [findById, hv, hy]
              | succ i =>
                  simp only [List.getElem?_cons_succ] at hx
                  have hvmem : v ∈ ids' := mem_idsOf hys i x v hx hv
                  have hvy : vy ≠ v := fun hh => (List.nodup_cons.mp hnd).1 (hh ▸ hvmem)
                  have hrec := ih hys (List.nodup_cons.mp hnd).2 i x v hx hv (n + 1)
                  have hne : ¬ (getId key y = some v) := by
                    rw [hy]
                    exact fun hh => hvy (Option.some.inj hh)
                  have harith : n + 1 + i = n + (i + 1) := by omega
                  simp only [findById]
                  rw [if_neg hne, hrec, harith]

end Configdiff

namespace Configdiff

theorem setModeOK_elim {key : String} {a1 a2 : List Node} (h : setModeOK key a1 a2 = true) :
    ∃ ids1 ids2, idsOf key a1 = some ids1 ∧ idsOf key a2 = some ids2 ∧
      ids1.Nodup ∧ ids2.Nodup := by
  unfold setModeOK at h
  cases h1 : idsOf key a1 with
  | none => rw [h1] at h; simp at h
  | some ids1 =>
      cases h2 : idsOf key a2 with
      | none => rw [h1, h2] at h; simp at h
      | some ids2 =>
          rw [h1, h2] at h
          simp only [Bool.and_eq_true, decide_eq_true_eq] at h
          exact ⟨ids1, ids2, rfl, rfl, h.1, h.2⟩

theorem diffKeysGo_refl {rec : Node → Node → String → Except String (List Change)}
    {ign : String → Bool} {es : List (String × Node)} {path : String}
    (hrec : ∀ k v, lookupEntry es k = some v → rec v v (joinPath path k) = .ok []) :
    ∀ ks, diffKeysGo rec ign ks es es path = .ok [] := by
  intro ks
  induction ks with
  | nil => rfl
  | cons k ks ih =>
      cases h : lookupEntry es k with
      | some v =>
          have h1 := hrec k v h
          simp [diffKeysGo, h, h1, except_ok_bind, ih]
      | none =>
          simp [diffKeysGo, h, except_ok_bind, ih]

theorem diffPosGo_refl {rec : Node → Node → String → Except String (List Change)}
    {ign : String → Bool} :
    ∀ (xs : List Node) (i : Nat) (path : String),
      (∀ (j : Nat) (x : Node), xs[j]? = some x →
        rec x x (path ++ "[" ++ printNat (i + j) ++ "]") = .ok []) →
      diffPosGo rec ign xs xs i path = .ok [] := by
  intro xs
  induction xs with
  | nil => intro i path _; rfl
  | cons x xs ih =>
      intro i path h
      have h0 := h 0 x (by simp)
      rw [Nat.add_zero] at h0
      have hrest := ih (i + 1) path (fun j y hj => by
        have hy := h (j + 1) y (by simpa using hj)
        have : i + (j + 1) = i + 1 + j := by omega
        rwa [this] at hy)
      simp [diffPosGo, h0, hrest, except_ok_bind]

theorem diffPairsGo_refl {rec : Node → Node → String → Except String (List Change)}
    {ign : String → Bool} {key : String} {xs : List Node} {ids : List SVal} {path : String}
    (hids : idsOf key xs = some ids) (hnd : ids.Nodup)
    (hrec : ∀ x v, x ∈ xs → getId key x = some v →
        rec (stripKey key x) (stripKey key x) (elemPath path key v) = .ok []) :
    ∀ (rem : List Node) (i : Nat), (∀ (j : Nat), rem[j]? = xs[i + j]?) →
      diffPairsGo rec ign key xs rem i path = .ok [] := by
  intro rem
  induction rem with
  | nil => intro i _; rfl
  | cons x rem ih =>
      intro i hrel
      have hx : xs[i]? = some x := by
        have h0 := hrel 0
        simp only [List.getElem?_cons_zero] at h0
        rw [Nat.add_zero] at h0
        exact h0.symm
      have hxmem : x ∈ xs := by
        have := List.getElem?_eq_some_iff.mp hx
        obtain ⟨hlt, hget⟩ := this
        exact hget ▸ List.getElem_mem hlt
      obtain ⟨v, hv, _⟩ := idsOf_get hids i x hx
      have hfind := findById_self hids hnd i x v hx hv 0
      rw [Nat.zero_add] at hfind
      have hrest := ih (i + 1) (fun j => by
        have := hrel (j + 1)
        simpa [Nat.add_assoc, Nat.add_comm 1 j] using this)
      cases hign : ign (elemPath path key v) with
      | true => simp [diffPairsGo, hv, hfind, hign, hrest, except_ok_bind]
      | false =>
          have hcontent := hrec x v hxmem hv
          simp [diffPairsGo, hv, hfind, hign, hcontent, hrest, except_ok_bind]

theorem filterMap_none_of_all {α β : Type} {xs : List α} {f : α → Option β}
    (h : ∀ x ∈ xs, f x = none) : xs.filterMap f = [] := by
  induction xs with
  | nil => rfl
  | cons x xs ih =>
      simp only [List.filterMap_cons, h x (List.mem_cons_self _ _)]
      exact ih (fun y hy => h y (List.mem_cons_of_mem _ hy))

theorem mem_exists_getElem {α : Type} {xs : List α} {x : α} (h : x ∈ xs) :
    ∃ j : Nat, xs[j]? = some x := by
  obtain ⟨j, hj, hget⟩ := List.getElem_of_mem h
  exact ⟨j, by rw [List.getElem?_eq_getElem hj]; exact congrArg some hget⟩

/-- Reflexivity of the comparator: with sufficient fuel and no
reachable invariant violation, diffing a tree against itself yields no
changes. -/
theorem diffNodeF_refl {opts : Options} :
    ∀ (fuel : Nat) (t : Node) (path : String), nodeSize t ≤ fuel →
      wellKeyed t path opts = true → diffNodeF fuel t t path opts = .ok [] := by
  intro fuel
  induction fuel with
  | zero =>
      intro t path hsz _
      have := nodeSize_pos t
      omega
  | succ fuel ih =>
      intro t path hsz hwk
      cases hign : isIgnored path opts.ignorePaths with
      | true => simp [diffNodeF, hign]
      | false =>
        cases t with
        | null p => simp [diffNodeF, hign, scalarEq]
        | bool b p => simp [diffNodeF, hign, scalarEq]
        | num q p => simp [diffNodeF, hign, scalarEq]
        | str s p => simp [diffNodeF, hign, scalarEq]
        | obj es p =>
            rw [wellKeyed_obj] at hwk
            simp only [diffNodeF, hign, Bool.false_eq_true, if_false]
            refine diffKeysGo_refl (fun k v hkv => ?_) _
            refine ih v (joinPath path k) ?_ (wkEntries_lookup hwk hkv)
            have := lookupEntry_size (p := p) hkv
            omega
        | arr xs p =>
            rw [wellKeyed_arr, Bool.and_eq_true] at hwk
            obtain ⟨hwk1, hwk2⟩ := hwk
            simp only [diffNodeF, hign, Bool.false_eq_true, if_false]
            have hpos : diffPosGo (fun a b q => diffNodeF fuel a b q opts)
                (fun q => isIgnored q opts.ignorePaths) xs xs 0 path = .ok [] := by
              refine diffPosGo_refl xs 0 path (fun j x hj => ?_)
              have hmemx : x ∈ xs := by
                obtain ⟨hlt, hget⟩ := List.getElem?_eq_some_iff.mp hj
                exact hget ▸ List.getElem_mem hlt
              refine ih x _ ?_ ?_
              · have := mem_elems_size (p := p) hmemx
                omega
              · have := wkPosElems_get hwk2 j x hj
                simpa using this
            cases hkey : lookupStr opts.arraySetKeys path with
            | none => simp only [reconcileGo, hkey]; exact hpos
            | some key =>
                rw [hkey] at hwk1
                rw [Bool.and_eq_true] at hwk1
                obtain ⟨hobj, hset⟩ := hwk1
                simp only [reconcileGo, hkey, hobj, Bool.and_self, Bool.not_true,
                  Bool.false_eq_true, if_false]
                cases hsm : setModeOK key xs xs with
                | false => exact hpos
                | true =>
                    obtain ⟨ids1, ids2, hids1, hids2, hnd1, _⟩ := setModeOK_elim hsm
                    have hgetd : (idsOf key xs).getD [] = ids1 := by rw [hids1]; rfl
                    have hpairs : diffPairsGo (fun a b q => diffNodeF fuel a b q opts)
                        (fun q => isIgnored q opts.ignorePaths) key xs xs 0 path = .ok [] := by
                      refine diffPairsGo_refl hids1 hnd1 (fun x v hx hv => ?_) xs 0
                        (fun j => by rw [Nat.zero_add])
                      refine ih (stripKey key x) _ ?_ (wkSetElems_strip hset x hx v hv)
                      have h1 := stripKey_size_le key x
                      have h2 := mem_elems_size (p := p) hx
                      omega
                    rw [if_pos rfl]
                    simp only [hpairs, except_ok_bind, hgetd, except_pure_eq]
                    simp only [List.append_nil, Except.ok.injEq]
                    rw [List.append_eq_nil]
                    constructor
                    · refine filterMap_none_of_all (fun x hx => ?_)
                      obtain ⟨j, hj⟩ := mem_exists_getElem hx
                      obtain ⟨v, hv, _⟩ := idsOf_get hids1 j x hj
                      simp [hv, mem_idsOf hids1 j x v hj hv]
                    · refine filterMap_none_of_all (fun x hx => ?_)
                      obtain ⟨j, hj⟩ := mem_exists_getElem hx
                      obtain ⟨v, hv, _⟩ := idsOf_get hids1 j x hj
                      simp [hv, mem_idsOf hids1 j x v hj hv]

/-- C1 (amended): for every valid tree `T` and every Options value
that does not key an array of non-Object elements anywhere the
comparator can reach (no §7 invariant violation), `DiffTrees T T opts`
returns the empty Change sequence and an empty patch. -/
theorem C1_reflexivity (t : Node) (opts : Options)
    (hwk : wellKeyed t "" opts = true) :
    DiffTrees t t opts = .ok ⟨[], ⟨[]⟩⟩ := by
  have h := diffNodeF_refl (nodeSize t + nodeSize t) t "" (by omega) hwk
  unfold DiffTrees Diff
  rw [h]
  simp [except_ok_bind, sortChanges, Patch.fromChanges]

/-- C1 witness: reflexivity applied to the keyed-array example tree
with the `/items` set key configured. -/
theorem C1_witness : DiffTrees oldItems oldItems setOpts = .ok ⟨[], ⟨[]⟩⟩ :=
  C1_reflexivity oldItems setOpts (by rfl)

theorem findById_mem {key : String} {v : SVal} :
    ∀ (lst : List Node) (n : Nat) (y : Node) (j : Nat),
      findById key v lst n = some (y, j) → y ∈ lst ∧ getId key y = some v := by
  intro lst
  induction lst with
  | nil => intro n y j h; simp [findById] at h
  | cons z zs ih =>
      intro n y j h
      simp only [findById] at h
      by_cases hz : getId key z = some v
      · rw [if_pos hz] at h
        injection h with h
        rw [Prod.mk.injEq] at h
        exact ⟨h.1 ▸ List.mem_cons_self _ _, h.1 ▸ hz⟩
      · rw [if_neg hz] at h
        obtain ⟨hmem, hid⟩ := ih (n + 1) y j h
        exact ⟨List.mem_cons_of_mem _ hmem, hid⟩

theorem diffKeysGo_ok {rec : Node → Node → String → Except String (List Change)}
    {ign : String → Bool} {e1 e2 : List (String × Node)} {path : String}
    (hrec : ∀ k v1 v2, lookupEntry e1 k = some v1 → lookupEntry e2 k = some v2 →
        ∃ cs, rec v1 v2 (joinPath path k) = .ok cs) :
    ∀ ks, ∃ cs, diffKeysGo rec ign ks e1 e2 path = .ok cs := by
  intro ks
  induction ks with
  | nil => exact ⟨[], rfl⟩
  | cons k ks ih =>
      obtain ⟨cs, hcs⟩ := ih
      cases h1 : lookupEntry e1 k with
      | some v1 =>
          cases h2 : lookupEntry e2 k with
          | some v2 =>
              obtain ⟨cs0, hcs0⟩ := hrec k v1 v2 h1 h2
              exact ⟨cs0 ++ cs, by simp [diffKeysGo, h1, h2, hcs0, hcs, except_ok_bind]⟩
          | none =>
              refine ⟨(if ign (joinPath path k) then [] else
                [⟨.remove, joinPath path k, some v1, none⟩]) ++ cs, ?_⟩
              simp [diffKeysGo, h1, h2, hcs, except_ok_bind]
      | none =>
          cases h2 : lookupEntry e2 k with
          | some v2 =>
              refine ⟨(if ign (joinPath path k) then [] else
                [⟨.add, joinPath path k, none, some v2⟩]) ++ cs, ?_⟩
              simp [diffKeysGo, h1, h2, hcs, except_ok_bind]
          | none =>
              exact ⟨cs, by simp [diffKeysGo, h1, h2, hcs, except_ok_bind]⟩

theorem diffPosGo_ok {rec : Node → Node → String → Except String (List Change)}
    {ign : String → Bool} :
    ∀ (xs ys : List Node) (i : Nat) (path : String),
      (∀ (j : Nat) (x y : Node), xs[j]? = some x → ys[j]? = some y →
        ∃ cs, rec x y (path ++ "[" ++ printNat (i + j) ++ "]") = .ok cs) →
      ∃ cs, diffPosGo rec ign xs ys i path = .ok cs := by
  intro xs
  induction xs with
  | nil => intro ys i path _; exact ⟨_, rfl⟩
  | cons x xs ih =>
      intro ys i path h
      cases ys with
      | nil => exact ⟨_, rfl⟩
      | cons y ys =>
          have h0 := h 0 x y (by simp) (by simp)
          rw [Nat.add_zero] at h0
          obtain ⟨cs0, hcs0⟩ := h0
          obtain ⟨cs, hcs⟩ := ih ys (i + 1) path (fun j a b ha hb => by
            have hj := h (j + 1) a b (by simpa using ha) (by simpa using hb)
            have : i + (j + 1) = i + 1 + j := by omega
            rwa [this] at hj)
          exact ⟨cs0 ++ cs, by simp [diffPosGo, hcs0, hcs, except_ok_bind]⟩

theorem diffPairsGo_ok2 {rec : Node → Node → String → Except String (List Change)}
    {ign : String → Bool} {key : String} {newList : List Node} {path : String} :
    ∀ (rem : List Node) (i : Nat),
      (∀ x v y j, x ∈ rem → getId key x = some v →
        findById key v newList 0 = some (y, j) →
        ∃ cs, rec (stripKey key x) (stripKey key y) (elemPath path key v) = .ok cs) →
      ∃ cs, diffPairsGo rec ign key newList rem i path = .ok cs := by
  intro rem
  induction rem with
  | nil => intro i _; exact ⟨[], rfl⟩
  | cons x rem ih =>
      intro i h
      obtain ⟨cs, hcs⟩ := ih (i + 1)
        (fun a v y j ha hv hf => h a v y j (List.mem_cons_of_mem _ ha) hv hf)
      cases hv : getId key x with
      | none => exact ⟨cs, by simp [diffPairsGo, hv, hcs, except_ok_bind]⟩
      | some v =>
          cases hf : findById key v newList 0 with
          | none => exact ⟨cs, by simp [diffPairsGo, hv, hf, hcs, except_ok_bind]⟩
          | some yj =>
              obtain ⟨y, j⟩ := yj
              cases hign : ign (elemPath path key v) with
              | true =>
                  exact ⟨cs, by simp [diffPairsGo, hv, hf, hign, hcs, except_ok_bind]⟩
              | false =>
                  obtain ⟨cs0, hcs0⟩ := h x v y j (List.mem_cons_self _ _) hv hf
                  refine ⟨(cs0 ++ if i ≠ j then
                    [⟨.move, elemPath path key v, some (.num (i : Rat) ""),
                      some (.num (j : Rat) "")⟩] else []) ++ cs, ?_⟩
                  simp [diffPairsGo, hv, hf, hign, hcs0, hcs, except_ok_bind]

theorem diffNodeF_other_ok {opts : Options} {fuel : Nat} {path : String} (o n : Node)
    (hign : isIgnored path opts.ignorePaths = false)
    (h1 : ¬ (o.kind = .object ∧ n.kind = .object))
    (h2 : ¬ (o.kind = .array ∧ n.kind = .array)) :
    ∃ cs, diffNodeF (fuel + 1) o n path opts = .ok cs := by
  refine ⟨if scalarEq opts.coercions o n = true then []
    else [⟨.modify, path, some o, some n⟩], ?_⟩
  cases o <;> cases n <;> simp_all [Node.kind] <;>
    · simp only [diffNodeF, hign, Bool.false_eq_true, if_false]
      split <;> rfl

/-- The comparator never errors when both trees are free of reachable
§7 invariant violations. -/
theorem diffNodeF_ok {opts : Options} :
    ∀ (fuel : Nat) (o n : Node) (path : String),
      nodeSize o + nodeSize n ≤ fuel →
      wellKeyed o path opts = true → wellKeyed n path opts = true →
      ∃ cs, diffNodeF fuel o n path opts = .ok cs := by
  intro fuel
  induction fuel with
  | zero =>
      intro o n path hsz
      have h1 := nodeSize_pos o
      have h2 := nodeSize_pos n
      omega
  | succ fuel ih =>
      intro o n path hsz hwko hwkn
      cases hign : isIgnored path opts.ignorePaths with
      | true => exact ⟨[], by simp [diffNodeF, hign]⟩
      | false =>
        cases o with
        | obj e1 p1 =>
            cases n with
            | obj e2 p2 =>
                rw [wellKeyed_obj] at hwko hwkn
                have hok := @diffKeysGo_ok (fun a b q => diffNodeF fuel a b q opts)
                  (fun q => isIgnored q opts.ignorePaths)
                  e1 e2 path (fun k v1 v2 h1 h2 => by
                    refine ih v1 v2 (joinPath path k) ?_
                      (wkEntries_lookup hwko h1) (wkEntries_lookup hwkn h2)
                    have s1 := lookupEntry_size (p := p1) h1
                    have s2 := lookupEntry_size (p := p2) h2
                    omega) (unionKeys e1 e2)
                obtain ⟨cs, hcs⟩ := hok
                exact ⟨cs, by simp [diffNodeF, hign, hcs]⟩
            | null p2 => exact diffNodeF_other_ok _ _ hign (by simp [Node.kind]) (by simp [Node.kind])
            | bool b p2 => exact diffNodeF_other_ok _ _ hign (by simp [Node.kind]) (by simp [Node.kind])
            | num q p2 => exact diffNodeF_other_ok _ _ hign (by simp [Node.kind]) (by simp [Node.kind])
            | str s2 p2 => exact diffNodeF_other_ok _ _ hign (by simp [Node.kind]) (by simp [Node.kind])
            | arr a2 p2 => exact diffNodeF_other_ok _ _ hign (by simp [Node.kind]) (by simp [Node.kind])
        | arr a1 p1 =>
            cases n with
            | arr a2 p2 =>
                rw [wellKeyed_arr, Bool.and_eq_true] at hwko hwkn
                obtain ⟨hwko1, hwko2⟩ := hwko
                obtain ⟨hwkn1, hwkn2⟩ := hwkn
                have hpos : ∃ cs, diffPosGo (fun a b q => diffNodeF fuel a b q opts)
                    (fun q => isIgnored q opts.ignorePaths) a1 a2 0 path = .ok cs := by
                  refine diffPosGo_ok a1 a2 0 path (fun j x y hx hy => ?_)
                  have hmx : x ∈ a1 := by
                    obtain ⟨hlt, hget⟩ := List.getElem?_eq_some_iff.mp hx
                    exact hget ▸ List.getElem_mem hlt
                  have hmy : y ∈ a2 := by
                    obtain ⟨hlt, hget⟩ := List.getElem?_eq_some_iff.mp hy
                    exact hget ▸ List.getElem_mem hlt
                  refine ih x y _ ?_ ?_ ?_
                  · have s1 := mem_elems_size (p := p1) hmx
                    have s2 := mem_elems_size (p := p2) hmy
                    omega
                  · simpa using wkPosElems_get hwko2 j x hx
                  · simpa using wkPosElems_get hwkn2 j y hy
                cases hkey : lookupStr opts.arraySetKeys path with
                | none =>
                    obtain ⟨cs, hcs⟩ := hpos
                    exact ⟨cs, by simp [diffNodeF, hign, reconcileGo, hkey, hcs]⟩
                | some key =>
                    rw [hkey, Bool.and_eq_true] at hwko1 hwkn1
                    obtain ⟨hobj1, hset1⟩ := hwko1
                    obtain ⟨hobj2, hset2⟩ := hwkn1
                    cases hsm : setModeOK key a1 a2 with
                    | false =>
                        obtain ⟨cs, hcs⟩ := hpos
                        exact ⟨cs, by
                          simp [diffNodeF, hign, reconcileGo, hkey, hobj1, hobj2, hsm, hcs]⟩
                    | true =>
                        have hpairs : ∃ cs, diffPairsGo
                            (fun a b q => diffNodeF fuel a b q opts)
                            (fun q => isIgnored q opts.ignorePaths) key a2 a1 0 path =
                              .ok cs := by
                          refine diffPairsGo_ok2 a1 0 (fun x v y j hx hv hf => ?_)
                          obtain ⟨hmy, hy⟩ := findById_mem a2 0 y j hf
                          refine ih (stripKey key x) (stripKey key y) _ ?_
                            (wkSetElems_strip hset1 x hx v hv)
                            (wkSetElems_strip hset2 y hmy v hy)
                          have s1 := stripKey_size_le key x
                          have s2 := stripKey_size_le key y
                          have s3 := mem_elems_size (p := p1) hx
                          have s4 := mem_elems_size (p := p2) hmy
                          omega
                        obtain ⟨cs, hcs⟩ := hpairs
                        refine ⟨((a1.filterMap fun x =>
                            (match getId key x with
                            | some v =>
                                if v ∈ (idsOf key a2).getD [] then none
                                else if isIgnored (elemPath path key v) opts.ignorePaths then
                                  none
                                else some (⟨.remove, elemPath path key v, some x, none⟩ : Change)
                            | none => none : Option Change)) ++
                          (a2.filterMap fun y =>
                            (match getId key y with
                            | some v =>
                                if v ∈ (idsOf key a1).getD [] then none
                                else if isIgnored (elemPath path key v) opts.ignorePaths then
                                  none
                                else some (⟨.add, elemPath path key v, none, some y⟩ : Change)
                            | none => none : Option Change))) ++ cs, ?_⟩
                        simp only [diffNodeF, hign, Bool.false_eq_true, if_false,
                          reconcileGo, hkey, hobj1, hobj2, Bool.and_self, Bool.not_true,
                          hsm, if_pos rfl, hcs, except_ok_bind]
                        rfl
            | null p2 => exact diffNodeF_other_ok _ _ hign (by simp [Node.kind]) (by simp [Node.kind])
            | bool b p2 => exact diffNodeF_other_ok _ _ hign (by simp [Node.kind]) (by simp [Node.kind])
            | num q p2 => exact diffNodeF_other_ok _ _ hign (by simp [Node.kind]) (by simp [Node.kind])
            | str s2 p2 => exact diffNodeF_other_ok _ _ hign (by simp [Node.kind]) (by simp [Node.kind])
            | obj e2 p2 => exact diffNodeF_other_ok _ _ hign (by simp [Node.kind]) (by simp [Node.kind])
        | null p1 =>
            exact diffNodeF_other_ok _ _ hign (by simp [Node.kind]) (by simp [Node.kind])
        | bool b p1 =>
            exact diffNodeF_other_ok _ _ hign (by simp [Node.kind]) (by simp [Node.kind])
        | num q p1 =>
            exact diffNodeF_other_ok _ _ hign (by simp [Node.kind]) (by simp [Node.kind])
        | str s1 p1 =>
            exact diffNodeF_other_ok _ _ hign (by simp [Node.kind]) (by simp [Node.kind])

/-- C7: the engine entry point fails only on the invariant violations
of spec §7; in the sum-type model a Kind/payload disagreement is
unrepresentable (spec §9), so the only representable violation is a
set-keyed array element that is not an Object, and whenever neither
input tree can reach one, `DiffTrees` succeeds.  Failure is atomic by
construction: the result type carries either an error or a Result,
never a partial Change list beside an error. -/
theorem C7_error_only_for_invariant_violation (a b : Node) (opts : Options)
    (ha : wellKeyed a "" opts = true) (hb : wellKeyed b "" opts = true) :
    ∃ r, DiffTrees a b opts = .ok r := by
  obtain ⟨cs, hcs⟩ := diffNodeF_ok (nodeSize a + nodeSize b) a b "" (le_refl _) ha hb
  refine ⟨⟨if opts.stableOrder then sortChanges cs else cs,
    Patch.fromChanges (if opts.stableOrder then sortChanges cs else cs)⟩, ?_⟩
  unfold DiffTrees Diff
  rw [hcs]
  rfl

/-- C7 witness: the spec §8 set-mode example never errors. -/
theorem C7_witness : ∃ r, DiffTrees oldItems newItems setOpts = .ok r :=
  C7_error_only_for_invariant_violation oldItems newItems setOpts (by rfl) (by rfl)

theorem except_bind_ok {α β : Type} {m : Except String α} {f : α → Except String β} {b : β}
    (h : (m >>= f) = .ok b) : ∃ a, m = .ok a ∧ f a = .ok b := by
  cases m with
  | error e => exact absurd h (by simp [Bind.bind, Except.bind])
  | ok a => exact ⟨a, rfl, h⟩

theorem posAdds_unignored {ign : String → Bool} :
    ∀ (ys : List Node) (i : Nat) (path : String) (c : Change),
      c ∈ posAdds ign ys i path → ign c.path = false := by
  intro ys
  induction ys with
  | nil => intro i path c hc; simp [posAdds] at hc
  | cons y ys ih =>
      intro i path c hc
      simp only [posAdds] at hc
      rcases List.mem_append.mp hc with hc | hc
      · cases hig : ign (path ++ "[" ++ printNat i ++ "]") with
        | true => rw [hig] at hc; simp at hc
        | false =>
            rw [hig] at hc
            simp at hc
            rw [hc]
            exact hig
      · exact ih (i + 1) path c hc

theorem posRemoves_unignored {ign : String → Bool} :
    ∀ (xs : List Node) (i : Nat) (path : String) (c : Change),
      c ∈ posRemoves ign xs i path → ign c.path = false := by
  intro xs
  induction xs with
  | nil => intro i path c hc; simp [posRemoves] at hc
  | cons x xs ih =>
      intro i path c hc
      simp only [posRemoves] at hc
      rcases List.mem_append.mp hc with hc | hc
      · cases hig : ign (path ++ "[" ++ printNat i ++ "]") with
        | true => rw [hig] at hc; simp at hc
        | false =>
            rw [hig] at hc
            simp at hc
            rw [hc]
            exact hig
      · exact ih (i + 1) path c hc

theorem diffKeysGo_unignored {rec : Node → Node → String → Except String (List Change)}
    {ign : String → Bool}
    (hrec : ∀ a b p cs, rec a b p = .ok cs → ∀ c ∈ cs, ign c.path = false) :
    ∀ (ks : List String) (e1 e2 : List (String × Node)) (path : String) (cs : List Change),
      diffKeysGo rec ign ks e1 e2 path = .ok cs → ∀ c ∈ cs, ign c.path = false := by
  intro ks
  induction ks with
  | nil =>
      intro e1 e2 path cs h c hc
      simp only [diffKeysGo] at h
      injection h with h
      rw [← h] at hc
      simp at hc
  | cons k ks ih =>
      intro e1 e2 path cs h c hc
      simp only [diffKeysGo] at h
      cases hl1 : lookupEntry e1 k with
      | some v1 =>
          cases hl2 : lookupEntry e2 k with
          | some v2 =>
              rw [hl1, hl2] at h
              obtain ⟨head, hhead, h2⟩ := except_bind_ok h
              obtain ⟨rest, hrest, h3⟩ := except_bind_ok h2
              rw [except_pure_eq] at h3
              injection h3 with h3
              rw [← h3] at hc
              rcases List.mem_append.mp hc with hc | hc
              · exact hrec v1 v2 _ head hhead c hc
              · exact ih e1 e2 path rest hrest c hc
          | none =>
              rw [hl1, hl2] at h
              obtain ⟨head, hhead, h2⟩ := except_bind_ok h
              obtain ⟨rest, hrest, h3⟩ := except_bind_ok h2
              rw [except_pure_eq] at h3
              injection h3 with h3
              rw [← h3] at hc
              rw [except_pure_eq] at hhead
              injection hhead with hhead
              rw [← hhead] at hc
              rcases List.mem_append.mp hc with hc | hc
              · cases hig : ign (joinPath path k) with
                | true => rw [hig] at hc; simp at hc
                | false =>
                    rw [hig] at hc
                    simp at hc
                    rw [hc]
                    exact hig
              · exact ih e1 e2 path rest hrest c hc
      | none =>
          cases hl2 : lookupEntry e2 k with
          | some v2 =>
              rw [hl1, hl2] at h
              obtain ⟨head, hhead, h2⟩ := except_bind_ok h
              obtain ⟨rest, hrest, h3⟩ := except_bind_ok h2
              rw [except_pure_eq] at h3
              injection h3 with h3
              rw [← h3] at hc
              rw [except_pure_eq] at hhead
              injection hhead with hhead
              rw [← hhead] at hc
              rcases List.mem_append.mp hc with hc | hc
              · cases hig : ign (joinPath path k) with
                | true => rw [hig] at hc; simp at hc
                | false =>
                    rw [hig] at hc
                    simp at hc
                    rw [hc]
                    exact hig
              · exact ih e1 e2 path rest hrest c hc
          | none =>
              rw [hl1, hl2] at h
              obtain ⟨head, hhead, h2⟩ := except_bind_ok h
              obtain ⟨rest, hrest, h3⟩ := except_bind_ok h2
              rw [except_pure_eq] at h3
              injection h3 with h3
              rw [← h3] at hc
              rw [except_pure_eq] at hhead
              injection hhead with hhead
              rw [← hhead] at hc
              rcases List.mem_append.mp hc with hc | hc
              · simp at hc
              · exact ih e1 e2 path rest hrest c hc

theorem diffPosGo_unignored {rec : Node → Node → String → Except String (List Change)}
    {ign : String → Bool}
    (hrec : ∀ a b p cs, rec a b p = .ok cs → ∀ c ∈ cs, ign c.path = false) :
    ∀ (xs ys : List Node) (i : Nat) (path : String) (cs : List Change),
      diffPosGo rec ign xs ys i path = .ok cs → ∀ c ∈ cs, ign c.path = false := by
  intro xs
  induction xs with
  | nil =>
      intro ys i path cs h c hc
      simp only [diffPosGo] at h
      injection h with h
      rw [← h] at hc
      exact posAdds_unignored ys i path c hc
  | cons x xs ih =>
      intro ys i path cs h c hc
      cases ys with
      | nil =>
          simp only [diffPosGo] at h
          injection h with h
          rw [← h] at hc
          exact posRemoves_unignored (x :: xs) i path c hc
      | cons y ys =>
          simp only [diffPosGo] at h
          obtain ⟨head, hhead, h2⟩ := except_bind_ok h
          obtain ⟨rest, hrest, h3⟩ := except_bind_ok h2
          rw [except_pure_eq] at h3
          injection h3 with h3
          rw [← h3] at hc
          rcases List.mem_append.mp hc with hc | hc
          · exact hrec x y _ head hhead c hc
          · exact ih ys (i + 1) path rest hrest c hc

theorem diffPairsGo_unignored {rec : Node → Node → String → Except String (List Change)}
    {ign : String → Bool} {key : String} {newList : List Node}
    (hrec : ∀ a b p cs, rec a b p = .ok cs → ∀ c ∈ cs, ign c.path = false) :
    ∀ (rem : List Node) (i : Nat) (path : String) (cs : List Change),
      diffPairsGo rec ign key newList rem i path = .ok cs →
      ∀ c ∈ cs, ign c.path = false := by
  intro rem
  induction rem with
  | nil =>
      intro i path cs h c hc
      simp only [diffPairsGo] at h
      injection h with h
      rw [← h] at hc
      simp at hc
  | cons x rem ih =>
      intro i path cs h c hc
      simp only [diffPairsGo] at h
      cases hv : getId key x with
      | none =>
          rw [hv] at h
          obtain ⟨head, hhead, h2⟩ := except_bind_ok h
          obtain ⟨rest, hrest, h3⟩ := except_bind_ok h2
          rw [except_pure_eq] at h3
          injection h3 with h3
          rw [← h3] at hc
          rw [except_pure_eq] at hhead
          injection hhead with hhead
          rw [← hhead] at hc
          rcases List.mem_append.mp hc with hc | hc
          · simp at hc
          · exact ih (i + 1) path rest hrest c hc
      | some v =>
          rw [hv] at h
          simp only at h
          cases hf : findById key v newList 0 with
          | none =>
              rw [hf] at h
              obtain ⟨head, hhead, h2⟩ := except_bind_ok h
              obtain ⟨rest, hrest, h3⟩ := except_bind_ok h2
              rw [except_pure_eq] at h3
              injection h3 with h3
              rw [← h3] at hc
              rw [except_pure_eq] at hhead
              injection hhead with hhead
              rw [← hhead] at hc
              rcases List.mem_append.mp hc with hc | hc
              · simp at hc
              · exact ih (i + 1) path rest hrest c hc
          | some yj =>
              obtain ⟨y, j⟩ := yj
              rw [hf] at h
              cases hig : ign (elemPath path key v) with
              | true =>
                  rw [hig] at h
                  simp only [if_pos rfl] at h
                  obtain ⟨head, hhead, h2⟩ := except_bind_ok h
                  obtain ⟨rest, hrest, h3⟩ := except_bind_ok h2
                  rw [except_pure_eq] at h3
                  injection h3 with h3
                  rw [← h3] at hc
                  rw [except_pure_eq] at hhead
                  injection hhead with hhead
                  rw [← hhead] at hc
                  rcases List.mem_append.mp hc with hc | hc
                  · simp at hc
                  · exact ih (i + 1) path rest hrest c hc
              | false =>
                  rw [hig] at h
                  simp only [Bool.false_eq_true, if_false] at h
                  obtain ⟨content, hcontent, h2⟩ := except_bind_ok h
                  obtain ⟨ymid, hymid, h3⟩ := except_bind_ok h2
                  rw [except_pure_eq] at hymid
                  injection hymid with hymid
                  obtain ⟨rest, hrest, h4⟩ := except_bind_ok h3
                  rw [except_pure_eq] at h4
                  injection h4 with h4
                  rw [← h4] at hc
                  rw [← hymid] at hc
                  rcases List.mem_append.mp hc with hc | hc
                  · rcases List.mem_append.mp hc with hc | hc
                    · exact hrec _ _ _ content hcontent c hc
                    · by_cases hij : i ≠ j
                      · rw [if_pos hij] at hc
                        simp at hc
                        rw [hc]
                        exact hig
                      · rw [if_neg hij] at hc
                        simp at hc
                  · exact ih (i + 1) path rest hrest c hc

theorem filterMap_unignored_of {ign : String → Bool} {f : Node → Option Change}
    {xs : List Node} (hf : ∀ x c, f x = some c → ign c.path = false) {cs : List Change}
    (h : xs.filterMap f = cs) : ∀ c ∈ cs, ign c.path = false := by
  intro c hc
  rw [← h] at hc
  obtain ⟨x, _, hx⟩ := List.mem_filterMap.mp hc
  exact hf x c hx

theorem modify_case_unignored {opts : Options} {o n : Node} {path : String} {cs : List Change}
    (h : (if scalarEq opts.coercions o n = true then Except.ok []
          else Except.ok [⟨.modify, path, some o, some n⟩] : Except String (List Change)) =
        .ok cs)
    {c : Change} (hc : c ∈ cs) (hign : isIgnored path opts.ignorePaths = false) :
    isIgnored c.path opts.ignorePaths = false := by
  by_cases hsc : scalarEq opts.coercions o n = true
  · rw [if_pos hsc] at h
    injection h with h
    rw [← h] at hc
    simp at hc
  · rw [if_neg hsc] at h
    injection h with h
    rw [← h] at hc
    simp at hc
    rw [hc]
    exact hign

/-- Every change the comparator emits lies at a path the ignore
matcher does not exclude. -/
theorem diffNodeF_unignored {opts : Options} :
    ∀ (fuel : Nat) (o n : Node) (path : String) (cs : List Change),
      diffNodeF fuel o n path opts = .ok cs →
      ∀ c ∈ cs, isIgnored c.path opts.ignorePaths = false := by
  intro fuel
  induction fuel with
  | zero =>
      intro o n path cs h
      exact absurd h (by simp [diffNodeF])
  | succ fuel ih =>
      intro o n path cs h c hc
      rw [diffNodeF.eq_def] at h
      simp only at h
      cases hign : isIgnored path opts.ignorePaths with
      | true =>
          rw [hign] at h
          simp only [if_pos rfl] at h
          injection h with h
          rw [← h] at hc
          simp at hc
      | false =>
          rw [hign] at h
          simp only [Bool.false_eq_true, if_false] at h
          have hrec : ∀ a b p cs', diffNodeF fuel a b p opts = .ok cs' →
              ∀ c' ∈ cs', (fun q => isIgnored q opts.ignorePaths) c'.path = false :=
            fun a b p cs' h' c' hc' => ih a b p cs' h' c' hc'
          cases o with
          | obj e1 p1 =>
              cases n with
              | obj e2 p2 =>
                  exact diffKeysGo_unignored hrec (unionKeys e1 e2) e1 e2 path cs h c hc
              | null p2 => exact modify_case_unignored h hc hign
              | bool b2 p2 => exact modify_case_unignored h hc hign
              | num q2 p2 => exact modify_case_unignored h hc hign
              | str s2 p2 => exact modify_case_unignored h hc hign
              | arr a2 p2 => exact modify_case_unignored h hc hign
          | arr a1 p1 =>
              cases n with
              | arr a2 p2 =>
                  simp only [reconcileGo] at h
                  cases hkey : lookupStr opts.arraySetKeys path with
                  | none =>
                      rw [hkey] at h
                      exact diffPosGo_unignored hrec a1 a2 0 path cs h c hc
                  | some key =>
                      rw [hkey] at h
                      by_cases hobjs : (a1.all isObjNode && a2.all isObjNode) = true
                      · rw [hobjs] at h
                        simp only [Bool.not_true, Bool.false_eq_true, if_false] at h
                        cases hsm : setModeOK key a1 a2 with
                        | false =>
                            rw [hsm] at h
                            simp only [Bool.false_eq_true, if_false] at h
                            exact diffPosGo_unignored hrec a1 a2 0 path cs h c hc
                        | true =>
                            rw [hsm] at h
                            simp only [if_pos rfl] at h
                            obtain ⟨pairs, hpairs, h2⟩ := except_bind_ok h
                            rw [except_pure_eq] at h2
                            injection h2 with h2
                            rw [← h2] at hc
                            rcases List.mem_append.mp hc with hc | hc
                            · rcases List.mem_append.mp hc with hc | hc
                              · obtain ⟨x, hxmem, hx⟩ := List.mem_filterMap.mp hc
                                cases hv : getId key x with
                                | none => rw [hv] at hx; simp at hx
                                | some v =>
                                    rw [hv] at hx
                                    simp only at hx
                                    by_cases hmem : v ∈ (idsOf key a2).getD []
                                    · rw [if_pos hmem] at hx; simp at hx
                                    · rw [if_neg hmem] at hx
                                      cases hig2 : isIgnored (elemPath path key v)
                                          opts.ignorePaths with
                                      | true => simp [hig2] at hx
                                      | false =>
                                          simp only [hig2, Bool.false_eq_true, if_false] at hx
                                          injection hx with hx
                                          rw [← hx]
                                          exact hig2
                              · obtain ⟨y, hymem, hx⟩ := List.mem_filterMap.mp hc
                                cases hv : getId key y with
                                | none => rw [hv] at hx; simp at hx
                                | some v =>
                                    rw [hv] at hx
                                    simp only at hx
                                    by_cases hmem : v ∈ (idsOf key a1).getD []
                                    · rw [if_pos hmem] at hx; simp at hx
                                    · rw [if_neg hmem] at hx
                                      cases hig2 : isIgnored (elemPath path key v)
                                          opts.ignorePaths with
                                      | true => simp [hig2] at hx
                                      | false =>
                                          simp only [hig2, Bool.false_eq_true, if_false] at hx
                                          injection hx with hx
                                          rw [← hx]
                                          exact hig2
                            · exact diffPairsGo_unignored hrec a1 0 path pairs hpairs c hc
                      · rw [Bool.not_eq_true] at hobjs
                        rw [hobjs] at h
                        simp only [Bool.not_false, if_pos rfl] at h
                        exact absurd h (by simp)
              | null p2 => exact modify_case_unignored h hc hign
              | bool b2 p2 => exact modify_case_unignored h hc hign
              | num q2 p2 => exact modify_case_unignored h hc hign
              | str s2 p2 => exact modify_case_unignored h hc hign
              | obj e2 p2 => exact modify_case_unignored h hc hign
          | null p1 => cases n <;> exact modify_case_unignored h hc hign
          | bool b1 p1 => cases n <;> exact modify_case_unignored h hc hign
          | num q1 p1 => cases n <;> exact modify_case_unignored h hc hign
          | str s1 p1 => cases n <;> exact modify_case_unignored h hc hign

theorem mem_sortChanges {cs : List Change} {c : Change} :
    c ∈ sortChanges cs ↔ c ∈ cs := by
  unfold sortChanges
  exact (List.perm_insertionSort _ cs).mem_iff

/-- C2 (amended): no change is ever reported at an excluded path, and
entering an excluded location yields nothing at all — so neither
excluded paths nor any of their descendants contribute changes; the
path itself before a pattern's `/*` is, however, not excluded (see the
counterexample). -/
theorem C2_ignore_suppression :
    (∀ (o n : Node) (opts : Options) (cs : List Change),
        Diff o n opts = .ok cs →
        ∀ c ∈ cs, isIgnored c.path opts.ignorePaths = false) ∧
    (∀ (fuel : Nat) (o n : Node) (path : String) (opts : Options),
        isIgnored path opts.ignorePaths = true →
        diffNodeF (fuel + 1) o n path opts = .ok []) := by
  constructor
  · intro o n opts cs h c hc
    unfold Diff at h
    obtain ⟨cs0, hcs0, h2⟩ := except_bind_ok h
    rw [except_pure_eq] at h2
    injection h2 with h2
    rw [← h2] at hc
    have hc0 : c ∈ cs0 := by
      cases hso : opts.stableOrder with
      | true => rw [hso] at hc; simp only [if_pos rfl] at hc; exact mem_sortChanges.mp hc
      | false => rw [hso] at hc; simpa using hc
    exact diffNodeF_unignored _ o n "" cs0 hcs0 c hc0
  · intro fuel o n path opts h
    rw [diffNodeF.eq_def]
    simp only
    rw [h]
    simp

/-- C2 witness: in the spec §8 ignore example the reported change at
`/a` is not excluded, and the comparator entered at the excluded
`/status/x` yields nothing. -/
theorem C2_witness :
    isIgnored "/a" statusStarOpts.ignorePaths = false ∧
    diffNodeF 5 oldStatus newStatus "/status/x" statusStarOpts = .ok [] := by
  constructor
  · exact C2_ignore_suppression.1 oldStatus newStatus statusStarOpts
      [⟨.modify, "/a", some (.num 1 ""), some (.num 2 "")⟩] (by rfl)
      ⟨.modify, "/a", some (.num 1 ""), some (.num 2 "")⟩ (by simp)
  · exact C2_ignore_suppression.2 4 oldStatus newStatus "/status/x" statusStarOpts (by rfl)

theorem posAdds_type {ign : String → Bool} :
    ∀ (ys : List Node) (i : Nat) (path : String) (c : Change),
      c ∈ posAdds ign ys i path → c.type = .add := by
  intro ys
  induction ys with
  | nil => intro i path c hc; simp [posAdds] at hc
  | cons y ys ih =>
      intro i path c hc
      simp only [posAdds] at hc
      rcases List.mem_append.mp hc with hc | hc
      · cases hig : ign (path ++ "[" ++ printNat i ++ "]") with
        | true => rw [hig] at hc; simp at hc
        | false =>
            rw [hig] at hc
            simp at hc
            rw [hc]
      · exact ih (i + 1) path c hc

theorem posRemoves_type {ign : String → Bool} :
    ∀ (xs : List Node) (i : Nat) (path : String) (c : Change),
      c ∈ posRemoves ign xs i path → c.type = .remove := by
  intro xs
  induction xs with
  | nil => intro i path c hc; simp [posRemoves] at hc
  | cons x xs ih =>
      intro i path c hc
      simp only [posRemoves] at hc
      rcases List.mem_append.mp hc with hc | hc
      · cases hig : ign (path ++ "[" ++ printNat i ++ "]") with
        | true => rw [hig] at hc; simp at hc
        | false =>
            rw [hig] at hc
            simp at hc
            rw [hc]
      · exact ih (i + 1) path c hc

theorem diffKeysGo_no_move {rec : Node → Node → String → Except String (List Change)}
    {ign : String → Bool}
    (hrec : ∀ a b p cs, rec a b p = .ok cs → ∀ c ∈ cs, c.type ≠ .move) :
    ∀ (ks : List String) (e1 e2 : List (String × Node)) (path : String) (cs : List Change),
      diffKeysGo rec ign ks e1 e2 path = .ok cs → ∀ c ∈ cs, c.type ≠ .move := by
  intro ks
  induction ks with
  | nil =>
      intro e1 e2 path cs h c hc
      simp only [diffKeysGo] at h
      injection h with h
      rw [← h] at hc
      simp at hc
  | cons k ks ih =>
      intro e1 e2 path cs h c hc
      simp only [diffKeysGo] at h
      cases hl1 : lookupEntry e1 k with
      | some v1 =>
          cases hl2 : lookupEntry e2 k with
          | some v2 =>
              rw [hl1, hl2] at h
              obtain ⟨head, hhead, h2⟩ := except_bind_ok h
              obtain ⟨rest, hrest, h3⟩ := except_bind_ok h2
              rw [except_pure_eq] at h3
              injection h3 with h3
              rw [← h3] at hc
              rcases List.mem_append.mp hc with hc | hc
              · exact hrec v1 v2 _ head hhead c hc
              · exact ih e1 e2 path rest hrest c hc
          | none =>
              rw [hl1, hl2] at h
              obtain ⟨head, hhead, h2⟩ := except_bind_ok h
              obtain ⟨rest, hrest, h3⟩ := except_bind_ok h2
              rw [except_pure_eq] at h3
              injection h3 with h3
              rw [← h3] at hc
              rw [except_pure_eq] at hhead
              injection hhead with hhead
              rw [← hhead] at hc
              rcases List.mem_append.mp hc with hc | hc
              · cases hig : ign (joinPath path k) with
                | true => rw [hig] at hc; simp at hc
                | false =>
                    rw [hig] at hc
                    simp at hc
                    rw [hc]
                    simp
              · exact ih e1 e2 path rest hrest c hc
      | none =>
          cases hl2 : lookupEntry e2 k with
          | some v2 =>
              rw [hl1, hl2] at h
              obtain ⟨head, hhead, h2⟩ := except_bind_ok h
              obtain ⟨rest, hrest, h3⟩ := except_bind_ok h2
              rw [except_pure_eq] at h3
              injection h3 with h3
              rw [← h3] at hc
              rw [except_pure_eq] at hhead
              injection hhead with hhead
              rw [← hhead] at hc
              rcases List.mem_append.mp hc with hc | hc
              · cases hig : ign (joinPath path k) with
                | true => rw [hig] at hc; simp at hc
                | false =>
                    rw [hig] at hc
                    simp at hc
                    rw [hc]
                    simp
              · exact ih e1 e2 path rest hrest c hc
          | none =>
              rw [hl1, hl2] at h
              obtain ⟨head, hhead, h2⟩ := except_bind_ok h
              obtain ⟨rest, hrest, h3⟩ := except_bind_ok h2
              rw [except_pure_eq] at h3
              injection h3 with h3
              rw [← h3] at hc
              rw [except_pure_eq] at hhead
              injection hhead with hhead
              rw [← hhead] at hc
              rcases List.mem_append.mp hc with hc | hc
              · simp at hc
              · exact ih e1 e2 path rest hrest c hc

theorem diffPosGo_no_move {rec : Node → Node → String → Except String (List Change)}
    {ign : String → Bool}
    (hrec : ∀ a b p cs, rec a b p = .ok cs → ∀ c ∈ cs, c.type ≠ .move) :
    ∀ (xs ys : List Node) (i : Nat) (path : String) (cs : List Change),
      diffPosGo rec ign xs ys i path = .ok cs → ∀ c ∈ cs, c.type ≠ .move := by
  intro xs
  induction xs with
  | nil =>
      intro ys i path cs h c hc
      simp only [diffPosGo] at h
      injection h with h
      rw [← h] at hc
      rw [posAdds_type ys i path c hc]
      simp
  | cons x xs ih =>
      intro ys i path cs h c hc
      cases ys with
      | nil =>
          simp only [diffPosGo] at h
          injection h with h
          rw [← h] at hc
          rw [posRemoves_type (x :: xs) i path c hc]
          simp
      | cons y ys =>
          simp only [diffPosGo] at h
          obtain ⟨head, hhead, h2⟩ := except_bind_ok h
          obtain ⟨rest, hrest, h3⟩ := except_bind_ok h2
          rw [except_pure_eq] at h3
          injection h3 with h3
          rw [← h3] at hc
          rcases List.mem_append.mp hc with hc | hc
          · exact hrec x y _ head hhead c hc
          · exact ih ys (i + 1) path rest hrest c hc

theorem modify_case_no_move {opts : Options} {o n : Node} {path : String} {cs : List Change}
    (h : (if scalarEq opts.coercions o n = true then Except.ok []
          else Except.ok [⟨.modify, path, some o, some n⟩] : Except String (List Change)) =
        .ok cs)
    {c : Change} (hc : c ∈ cs) : c.type ≠ .move := by
  by_cases hsc : scalarEq opts.coercions o n = true
  · rw [if_pos hsc] at h
    injection h with h
    rw [← h] at hc
    simp at hc
  · rw [if_neg hsc] at h
    injection h with h
    rw [← h] at hc
    simp at hc
    rw [hc]
    simp

/-- With no array-set keys configured the comparator never emits a
Move change. -/
theorem diffNodeF_no_move {opts : Options} (hkeys : opts.arraySetKeys = []) :
    ∀ (fuel : Nat) (o n : Node) (path : String) (cs : List Change),
      diffNodeF fuel o n path opts = .ok cs → ∀ c ∈ cs, c.type ≠ .move := by
  intro fuel
  induction fuel with
  | zero =>
      intro o n path cs h
      exact absurd h (by simp [diffNodeF])
  | succ fuel ih =>
      intro o n path cs h c hc
      rw [diffNodeF.eq_def] at h
      simp only at h
      cases hign : isIgnored path opts.ignorePaths with
      | true =>
          rw [hign] at h
          simp only [if_pos rfl] at h
          injection h with h
          rw [← h] at hc
          simp at hc
      | false =>
          rw [hign] at h
          simp only [Bool.false_eq_true, if_false] at h
          have hrec : ∀ a b p cs', diffNodeF fuel a b p opts = .ok cs' →
              ∀ c' ∈ cs', c'.type ≠ ChangeType.move :=
            fun a b p cs' h' c' hc' => ih a b p cs' h' c' hc'
          cases o with
          | obj e1 p1 =>
              cases n with
              | obj e2 p2 =>
                  exact diffKeysGo_no_move hrec (unionKeys e1 e2) e1 e2 path cs h c hc
              | null p2 => exact modify_case_no_move h hc
              | bool b2 p2 => exact modify_case_no_move h hc
              | num q2 p2 => exact modify_case_no_move h hc
              | str s2 p2 => exact modify_case_no_move h hc
              | arr a2 p2 => exact modify_case_no_move h hc
          | arr a1 p1 =>
              cases n with
              | arr a2 p2 =>
                  simp only [reconcileGo, hkeys] at h
                  exact diffPosGo_no_move hrec a1 a2 0 path cs (by
                    rw [show lookupStr [] path = none from rfl] at h
                    exact h) c hc
              | null p2 => exact modify_case_no_move h hc
              | bool b2 p2 => exact modify_case_no_move h hc
              | num q2 p2 => exact modify_case_no_move h hc
              | str s2 p2 => exact modify_case_no_move h hc
              | obj e2 p2 => exact modify_case_no_move h hc
          | null p1 => cases n <;> exact modify_case_no_move h hc
          | bool b1 p1 => cases n <;> exact modify_case_no_move h hc
          | num q1 p1 => cases n <;> exact modify_case_no_move h hc
          | str s1 p1 => cases n <;> exact modify_case_no_move h hc

/-- C4 (amended): in positional mode — no key configured for any path —
the Change sequence contains no Move; reordering the two spec §8
elements without a key yields the four member-level Modify changes the
§4.1 object recursion prescribes (not one whole-element Modify per
index). -/
theorem C4_positional_no_move :
    (∀ (o n : Node) (opts : Options) (cs : List Change), opts.arraySetKeys = [] →
        Diff o n opts = .ok cs → ∀ c ∈ cs, c.type ≠ .move) ∧
    Diff oldItems newItems noOpts = .ok
      [⟨.modify, "/items[0]/id", some (.num 1 ""), some (.num 2 "")⟩,
       ⟨.modify, "/items[0]/v", some (.str "a" ""), some (.str "b" "")⟩,
       ⟨.modify, "/items[1]/id", some (.num 2 ""), some (.num 1 "")⟩,
       ⟨.modify, "/items[1]/v", some (.str "b" ""), some (.str "a" "")⟩] := by
  constructor
  · intro o n opts cs hkeys h c hc
    unfold Diff at h
    obtain ⟨cs0, hcs0, h2⟩ := except_bind_ok h
    rw [except_pure_eq] at h2
    injection h2 with h2
    rw [← h2] at hc
    have hc0 : c ∈ cs0 := by
      cases hso : opts.stableOrder with
      | true => rw [hso] at hc; simp only [if_pos rfl] at hc; exact mem_sortChanges.mp hc
      | false => rw [hso] at hc; simpa using hc
    exact diffNodeF_no_move hkeys _ o n "" cs0 hcs0 c hc0
  · rfl

/-- C4 witness: the first part applied to the concrete positional
comparison of the spec §8 arrays. -/
theorem C4_witness :
    (⟨.modify, "/items[0]/id", some (.num 1 ""), some (.num 2 "")⟩ : Change).type ≠
      .move :=
  C4_positional_no_move.1 oldItems newItems noOpts _ rfl C4_positional_no_move.2
    ⟨.modify, "/items[0]/id", some (.num 1 ""), some (.num 2 "")⟩ (by simp)

theorem mem_entries_size_le {es : List (String × Node)} {kv : String × Node}
    (h : kv ∈ es) : nodeSize kv.2 ≤ entriesSize es := by
  induction es with
  | nil => simp at h
  | cons e es ih =>
      rcases List.mem_cons.mp h with h | h
      · subst h
        simp [entriesSize]
        omega
      · have := ih h
        simp [entriesSize]
        omega

theorem setPaths_path (t : Node) (b : String) : (t.setPaths b).path = b := by
  cases t <;> (rw [Node.setPaths.eq_def]; simp only [Node.path])

theorem joinPath_eq_spec (p k : String) : joinPath p k = joinPathSpec p k := rfl

theorem setPathsEntries_mem {es : List (String × Node)} {base : String}
    {kv : String × Node} (h : kv ∈ setPathsEntries es base) :
    ∃ k v, (k, v) ∈ es ∧ kv = (k, v.setPaths (joinPath base k)) := by
  induction es with
  | nil => rw [setPathsEntries.eq_def] at h; simp at h
  | cons e es ih =>
      obtain ⟨k0, v0⟩ := e
      rw [setPathsEntries.eq_def] at h
      simp only at h
      rcases List.mem_cons.mp h with h | h
      · exact ⟨k0, v0, List.mem_cons_self _ _, h⟩
      · obtain ⟨k, v, hmem, heq⟩ := ih h
        exact ⟨k, v, List.mem_cons_of_mem _ hmem, heq⟩

theorem setPathsElems_get {xs : List Node} :
    ∀ (base : String) (i j : Nat),
      (setPathsElems xs base i)[j]? =
        (xs[j]?).map fun x => x.setPaths (base ++ "[" ++ printNat (i + j) ++ "]") := by
  induction xs with
  | nil => intro base i j; rw [setPathsElems.eq_def]; simp
  | cons x xs ih =>
      intro base i j
      rw [setPathsElems.eq_def]
      simp only
      cases j with
      | zero => simp
      | succ j =>
          simp only [List.getElem?_cons_succ]
          rw [ih base (i + 1) j]
          have : i + 1 + j = i + (j + 1) := by omega
          rw [this]

theorem setPathsElems_mem {xs : List Node} {base : String} {x' : Node} :
    ∀ (i : Nat), x' ∈ setPathsElems xs base i →
      ∃ (j : Nat) (x : Node), xs[j]? = some x ∧
        x' = x.setPaths (base ++ "[" ++ printNat (i + j) ++ "]") := by
  induction xs with
  | nil => intro i h; rw [setPathsElems.eq_def] at h; simp at h
  | cons x xs ih =>
      intro i h
      rw [setPathsElems.eq_def] at h
      simp only at h
      rcases List.mem_cons.mp h with h | h
      · refine ⟨0, x, by simp, ?_⟩
        rw [Nat.add_zero]
        exact h
      · obtain ⟨j, y, hj, heq⟩ := ih (i + 1) h
        refine ⟨j + 1, y, ?_, ?_⟩
        · simp only [List.getElem?_cons_succ]
          exact hj
        · have harith : i + 1 + j = i + (j + 1) := by omega
          rw [← harith]
          exact heq

theorem subnodesEntries_mem {es : List (String × Node)} {m : Node}
    (h : m ∈ subnodesEntries es) : ∃ kv, kv ∈ es ∧ m ∈ Node.subnodes kv.2 := by
  induction es with
  | nil => rw [subnodesEntries.eq_def] at h; simp at h
  | cons e es ih =>
      obtain ⟨k0, v0⟩ := e
      rw [subnodesEntries.eq_def] at h
      simp only at h
      rcases List.mem_append.mp h with h | h
      · exact ⟨(k0, v0), List.mem_cons_self _ _, h⟩
      · obtain ⟨kv, hmem, hm⟩ := ih h
        exact ⟨kv, List.mem_cons_of_mem _ hmem, hm⟩

theorem subnodesElems_mem {xs : List Node} {m : Node}
    (h : m ∈ subnodesElems xs) : ∃ x, x ∈ xs ∧ m ∈ Node.subnodes x := by
  induction xs with
  | nil => rw [subnodesElems.eq_def] at h; simp at h
  | cons x xs ih =>
      rw [subnodesElems.eq_def] at h
      rcases List.mem_append.mp h with h | h
      · exact ⟨x, List.mem_cons_self _ _, h⟩
      · obtain ⟨y, hmem, hm⟩ := ih h
        exact ⟨y, List.mem_cons_of_mem _ hmem, hm⟩

theorem setPaths_spec_aux :
    ∀ (N : Nat) (t : Node) (base : String), nodeSize t ≤ N →
      ∀ m ∈ (t.setPaths base).subnodes,
        (∀ es p, m = .obj es p → ∀ kv ∈ es, (kv.2 : Node).path = joinPathSpec p kv.1) ∧
        (∀ xs p, m = .arr xs p → ∀ i x, xs[i]? = some x →
          (x : Node).path = p ++ "[" ++ printNat i ++ "]") := by
  intro N
  induction N with
  | zero =>
      intro t base hsz
      have := nodeSize_pos t
      omega
  | succ N ih =>
      intro t base hsz m hm
      cases t with
      | null p0 =>
          rw [Node.setPaths.eq_def] at hm
          simp only at hm
          rw [Node.subnodes.eq_def] at hm
          simp only at hm
          simp at hm
          subst hm
          constructor
          · intro es p h
            cases h
          · intro xs p h
            cases h
      | bool b0 p0 =>
          rw [Node.setPaths.eq_def] at hm
          simp only at hm
          rw [Node.subnodes.eq_def] at hm
          simp only at hm
          simp at hm
          subst hm
          constructor
          · intro es p h
            cases h
          · intro xs p h
            cases h
      | num q0 p0 =>
          rw [Node.setPaths.eq_def] at hm
          simp only at hm
          rw [Node.subnodes.eq_def] at hm
          simp only at hm
          simp at hm
          subst hm
          constructor
          · intro es p h
            cases h
          · intro xs p h
            cases h
      | str s0 p0 =>
          rw [Node.setPaths.eq_def] at hm
          simp only at hm
          rw [Node.subnodes.eq_def] at hm
          simp only at hm
          simp at hm
          subst hm
          constructor
          · intro es p h
            cases h
          · intro xs p h
            cases h
      | obj es0 p0 =>
          rw [Node.setPaths.eq_def] at hm
          simp only at hm
          rw [Node.subnodes.eq_def] at hm
          simp only at hm
          rcases List.mem_cons.mp hm with hm | hm
          · subst hm
            constructor
            · intro es p heq kv hkv
              injection heq with h1 h2
              rw [← h1] at hkv
              obtain ⟨k, v, _, hkveq⟩ := setPathsEntries_mem hkv
              rw [hkveq]
              simp only
              rw [setPaths_path, joinPath_eq_spec, ← h2]
            · intro xs p heq
              cases heq
          · obtain ⟨kv, hkvmem, hmsub⟩ := subnodesEntries_mem hm
            obtain ⟨k, v, hvmem, hkveq⟩ := setPathsEntries_mem hkvmem
            rw [hkveq] at hmsub
            simp only at hmsub
            refine ih v (joinPath base k) ?_ m hmsub
            have h1 : nodeSize v ≤ entriesSize es0 := mem_entries_size_le hvmem
            have h2 : nodeSize (Node.obj es0 p0) = 1 + entriesSize es0 := by simp [nodeSize]
            omega
      | arr xs0 p0 =>
          rw [Node.setPaths.eq_def] at hm
          simp only at hm
          rw [Node.subnodes.eq_def] at hm
          simp only at hm
          rcases List.mem_cons.mp hm with hm | hm
          · subst hm
            constructor
            · intro es p heq
              cases heq
            · intro xs p heq i x hx
              injection heq with h1 h2
              rw [← h1] at hx
              rw [setPathsElems_get base 0 i] at hx
              cases hx0 : xs0[i]? with
              | none => rw [hx0] at hx; simp at hx
              | some y =>
                  rw [hx0] at hx
                  simp only [Option.map_some'] at hx
                  injection hx with hx
                  rw [← hx, setPaths_path, ← h2, Nat.zero_add]
          · obtain ⟨x', hx'mem, hmsub⟩ := subnodesElems_mem hm
            obtain ⟨j, x, hj, hx'eq⟩ := setPathsElems_mem 0 hx'mem
            rw [hx'eq] at hmsub
            refine ih x _ ?_ m hmsub
            have hxmem : x ∈ xs0 := by
              obtain ⟨hlt, hget⟩ := List.getElem?_eq_some_iff.mp hj
              exact hget ▸ List.getElem_mem hlt
            have h1 : nodeSize x ≤ elemsSize xs0 := mem_elems_size_le hxmem
            have h2 : nodeSize (Node.arr xs0 p0) = 1 + elemsSize xs0 := by simp [nodeSize]
            omega

/-- C8: `SetPaths(base)` assigns the root's Path to `base`, every object
member `k` of a node with path `p` the path `joinPathSpec p k` (that is
`p + "/" + k`, or `"/" + k` when `p` is empty or `"/"`), and every
array element `i` the path `p + "[" + i + "]"`, throughout the tree. -/
theorem C8_setPaths_assignment (t : Node) (base : String) :
    (t.setPaths base).path = base ∧ pathSpecOK (t.setPaths base) := by
  refine ⟨setPaths_path t base, ?_⟩
  intro m hm
  exact setPaths_spec_aux (nodeSize t) t base (le_refl _) m hm


/-! ## Decimal/segment/string lemmas for the SetPaths-GetByPath round trip (C9) -/

theorem strEta (s : String) : (⟨s.data⟩ : String) = s := by cases s; rfl

theorem strDataInj {a b : String} (h : a.data = b.data) : a = b := by
  cases a
  cases b
  simp only at h
  rw [h]

theorem digitChar_toNat {d : Nat} (h : d < 10) : (digitChar d).toNat = 48 + d := by
  unfold digitChar Char.ofNat
  rw [dif_pos (Or.inl (by omega))]
  rfl

theorem digitVal_digitChar {d : Nat} (h : d < 10) : digitVal (digitChar d) = d := by
  unfold digitVal
  rw [digitChar_toNat h]
  omega

theorem isDigit_digitChar {d : Nat} (h : d < 10) : isDigit (digitChar d) = true := by
  unfold isDigit
  rw [digitChar_toNat h]
  simp only [Bool.and_eq_true, decide_eq_true_eq]
  omega

theorem isDigit_bounds {c : Char} (h : isDigit c = true) : 48 ≤ c.toNat ∧ c.toNat ≤ 57 := by
  unfold isDigit at h
  simp only [Bool.and_eq_true, decide_eq_true_eq] at h
  exact h

theorem isDigit_ne {c : Char} (h : isDigit c = true) :
    c ≠ '/' ∧ c ≠ '[' ∧ c ≠ ']' ∧ c ≠ ' ' ∧ c ≠ '-' ∧ c ≠ '+' := by
  obtain ⟨h1, h2⟩ := isDigit_bounds h
  refine ⟨?_, ?_, ?_, ?_, ?_, ?_⟩ <;>
    · intro he
      subst he
      first
        | exact absurd h1 (by decide)
        | exact absurd h2 (by decide)

theorem digitsToNat_append (xs : List Char) (d : Char) :
    digitsToNat (xs ++ [d]) = 10 * digitsToNat xs + digitVal d := by
  unfold digitsToNat
  rw [List.foldl_append]
  rfl

theorem natDigitsF_spec : ∀ (fuel n : Nat), n < 10 ^ fuel →
    (∀ c ∈ natDigitsF fuel n, isDigit c = true) ∧ digitsToNat (natDigitsF fuel n) = n := by
  intro fuel
  induction fuel with
  | zero =>
      intro n h
      have hn : n = 0 := by
        simp only [pow_zero] at h
        omega
      subst hn
      refine ⟨?_, ?_⟩
      · intro c hc
        simp [natDigitsF] at hc
      · simp [natDigitsF, digitsToNat]
  | succ f ih =>
      intro n h
      rw [natDigitsF]
      by_cases h10 : n < 10
      · rw [if_pos h10]
        refine ⟨?_, ?_⟩
        · intro c hc
          rw [List.mem_singleton] at hc
          subst hc
          exact isDigit_digitChar h10
        · unfold digitsToNat
          simp only [List.foldl_cons, List.foldl_nil]
          rw [digitVal_digitChar h10]
          omega
      · rw [if_neg h10]
        have hdiv : n / 10 < 10 ^ f := by
          rw [Nat.div_lt_iff_lt_mul (by norm_num)]
          calc n < 10 ^ (f + 1) := h
            _ = 10 ^ f * 10 := by ring
        obtain ⟨ihAll, ihVal⟩ := ih (n / 10) hdiv
        refine ⟨?_, ?_⟩
        · intro c hc
          rcases List.mem_append.mp hc with hc | hc
          · exact ihAll c hc
          · rw [List.mem_singleton] at hc
            subst hc
            exact isDigit_digitChar (Nat.mod_lt n (by norm_num))
        · rw [digitsToNat_append, ihVal, digitVal_digitChar (Nat.mod_lt n (by norm_num))]
          omega

theorem natDigitsF_ne_nil (f n : Nat) : natDigitsF (f + 1) n ≠ [] := by
  rw [natDigitsF]
  by_cases h10 : n < 10
  · rw [if_pos h10]
    simp
  · rw [if_neg h10]
    simp

theorem printNat_all_digits (n : Nat) : ∀ c ∈ (printNat n).data, isDigit c = true := by
  have h : n < 10 ^ (n + 1) :=
    lt_of_lt_of_le (Nat.lt_pow_self (by norm_num) n) (Nat.pow_le_pow_right (by norm_num) (Nat.le_succ n))
  exact (natDigitsF_spec (n + 1) n h).1

theorem digitsToNat_printNat (n : Nat) : digitsToNat (printNat n).data = n := by
  have h : n < 10 ^ (n + 1) :=
    lt_of_lt_of_le (Nat.lt_pow_self (by norm_num) n) (Nat.pow_le_pow_right (by norm_num) (Nat.le_succ n))
  exact (natDigitsF_spec (n + 1) n h).2

theorem printNat_ne_nil (n : Nat) : (printNat n).data ≠ [] := natDigitsF_ne_nil n n

theorem takeWhile_all {p : Char → Bool} :
    ∀ (cs : List Char), (∀ c ∈ cs, p c = true) → cs.takeWhile p = cs := by
  intro cs
  induction cs with
  | nil => intro _; rfl
  | cons c cs ih =>
      intro h
      rw [List.takeWhile_cons, h c (List.mem_cons_self _ _)]
      simp only [if_true]
      rw [ih (fun x hx => h x (List.mem_cons_of_mem _ hx))]

theorem dropWhile_space {cs : List Char} (h : ∀ c ∈ cs, (c == ' ') = false) :
    cs.dropWhile (· == ' ') = cs := by
  cases cs with
  | nil => rfl
  | cons c cs =>
      rw [List.dropWhile_cons, h c (List.mem_cons_self _ _)]
      simp

theorem scanInt_digits {ds : List Char} (hne : ds ≠ []) (hall : ∀ c ∈ ds, isDigit c = true) :
    scanInt ds = some ((digitsToNat ds : Nat) : Int) := by
  have hdrop : ds.dropWhile (· == ' ') = ds := by
    apply dropWhile_space
    intro c hc
    have := (isDigit_ne (hall c hc)).2.2.2.1
    simp [this]
  obtain ⟨d, ds2, rfl⟩ := List.exists_cons_of_ne_nil hne
  have hd := isDigit_ne (hall d (List.mem_cons_self _ _))
  simp only [scanInt]
  rw [hdrop]
  split
  · rename_i rest heq
    rw [List.cons.injEq] at heq
    exact absurd heq.1 hd.2.2.2.2.1
  · rename_i rest heq
    rw [List.cons.injEq] at heq
    exact absurd heq.1 hd.2.2.2.2.2
  · rw [takeWhile_all _ hall]
    rw [if_neg (by simp)]

theorem contains_false : ∀ (cs : List Char) (t : Char),
    cs.contains t = false → ∀ c ∈ cs, c ≠ t := by
  intro cs
  induction cs with
  | nil => intro t _ c hc; simp at hc
  | cons x xs ih =>
      intro t h c hc
      rw [List.contains_cons, Bool.or_eq_false_iff] at h
      rcases List.mem_cons.mp hc with rfl | hc
      · intro he
        subst he
        simp at h
      · exact ih t h.2 c hc

theorem goodKey_facts {k : String} (h : goodKey k = true) :
    k ≠ "" ∧ (∀ c ∈ k.data, c ≠ '/') ∧ (∀ c ∈ k.data, c ≠ '[') ∧ (∀ c ∈ k.data, c ≠ ']') := by
  unfold goodKey at h
  simp only [Bool.and_eq_true, Bool.not_eq_true', decide_eq_false_iff_not] at h
  exact ⟨h.1.1.1, contains_false _ _ h.1.1.2, contains_false _ _ h.1.2, contains_false _ _ h.2⟩

theorem idxOf_not_mem : ∀ {cs : List Char} {t : Char}, (∀ c ∈ cs, c ≠ t) → idxOf cs t = none := by
  intro cs t
  induction cs with
  | nil => intro _; rfl
  | cons c cs ih =>
      intro h
      rw [idxOf]
      rw [if_neg (h c (List.mem_cons_self _ _))]
      rw [ih (fun x hx => h x (List.mem_cons_of_mem _ hx))]
      rfl

theorem idxOf_append : ∀ (xs : List Char) (t : Char), (∀ c ∈ xs, c ≠ t) →
    ∀ (ys : List Char), idxOf (xs ++ t :: ys) t = some xs.length := by
  intro xs t
  induction xs with
  | nil =>
      intro _ ys
      rw [List.nil_append, idxOf]
      simp
  | cons c cs ih =>
      intro h ys
      rw [List.cons_append, idxOf]
      rw [if_neg (h c (List.mem_cons_self _ _))]
      rw [ih (fun x hx => h x (List.mem_cons_of_mem _ hx)) ys]
      simp

theorem parseArrayNotation_of_key {k : String} (h : goodKey k = true) :
    parseArrayNotation k = none := by
  obtain ⟨-, -, h3, -⟩ := goodKey_facts h
  unfold parseArrayNotation
  rw [idxOf_not_mem h3]

theorem printNat_no_bracket (n : Nat) :
    (∀ c ∈ (printNat n).data, c ≠ '[') ∧ (∀ c ∈ (printNat n).data, c ≠ ']') ∧
      (∀ c ∈ (printNat n).data, c ≠ '/') := by
  refine ⟨?_, ?_, ?_⟩ <;> intro c hc
  · exact (isDigit_ne (printNat_all_digits n c hc)).2.1
  · exact (isDigit_ne (printNat_all_digits n c hc)).2.2.1
  · exact (isDigit_ne (printNat_all_digits n c hc)).1

theorem parseArrayNotation_bracket {k : String} (i : Nat)
    (h1 : ∀ c ∈ k.data, c ≠ '[') (h2 : ∀ c ∈ k.data, c ≠ ']') :
    parseArrayNotation (k ++ "[" ++ printNat i ++ "]") = some (k, (i : Int)) := by
  have e1 : (k ++ "[" ++ printNat i ++ "]").data =
      k.data ++ '[' :: ((printNat i).data ++ [']']) := by
    simp [String.data_append]
  have e2 : k.data ++ '[' :: ((printNat i).data ++ [']']) =
      (k.data ++ '[' :: (printNat i).data) ++ ']' :: [] := by
    simp
  have e3 : k.data ++ '[' :: ((printNat i).data ++ [']']) =
      (k.data ++ ['[']) ++ ((printNat i).data ++ [']']) := by
    simp
  have hall2 : ∀ c ∈ k.data ++ '[' :: (printNat i).data, c ≠ ']' := by
    intro c hc
    rcases List.mem_append.mp hc with hc | hc
    · exact h2 c hc
    · rcases List.mem_cons.mp hc with rfl | hc
      · decide
      · exact (printNat_no_bracket i).2.1 c hc
  have hidx1 : idxOf (k ++ "[" ++ printNat i ++ "]").data '[' = some k.data.length := by
    rw [e1]
    exact idxOf_append k.data '[' h1 _
  have hidx2 : idxOf (k ++ "[" ++ printNat i ++ "]").data ']' =
      some (k.data ++ '[' :: (printNat i).data).length := by
    rw [e1, e2]
    exact idxOf_append _ ']' hall2 []
  have hD : 1 ≤ (printNat i).data.length :=
    List.length_pos.mpr (printNat_ne_nil i)
  have hlen : (k.data ++ '[' :: (printNat i).data).length =
      k.data.length + 1 + (printNat i).data.length := by
    simp
    omega
  unfold parseArrayNotation
  rw [hidx1, hidx2]
  simp only
  rw [if_neg (by rw [hlen]; omega)]
  have hdrop : ((k ++ "[" ++ printNat i ++ "]").data.drop (k.data.length + 1)).take
      ((k.data ++ '[' :: (printNat i).data).length - (k.data.length + 1)) =
      (printNat i).data := by
    rw [e1, e3]
    have hl1 : k.data.length + 1 = (k.data ++ ['[']).length := by simp
    rw [hl1, List.drop_left]
    have hl2 : (k.data ++ '[' :: (printNat i).data).length - (k.data ++ ['[']).length =
        (printNat i).data.length := by
      simp
      omega
    rw [hl2, List.take_left]
  rw [hdrop]
  rw [scanInt_digits (printNat_ne_nil i) (printNat_all_digits i)]
  rw [digitsToNat_printNat]
  have htake : (k ++ "[" ++ printNat i ++ "]").data.take k.data.length = k.data := by
    rw [e1, List.take_left]
  rw [htake, strEta]

theorem splitSlash_ne_nil : ∀ (cs : List Char), splitSlash cs ≠ [] := by
  intro cs
  induction cs with
  | nil => simp [splitSlash]
  | cons c cs ih =>
      rw [splitSlash]
      by_cases hc : c = '/'
      · rw [if_pos hc]
        simp
      · rw [if_neg hc]
        rcases hsp : splitSlash cs with _ | ⟨s, ss⟩
        · simp
        · simp

theorem splitSlash_slash : ∀ (xs ys : List Char),
    splitSlash (xs ++ '/' :: ys) = splitSlash xs ++ splitSlash ys := by
  intro xs ys
  induction xs with
  | nil => simp [splitSlash]
  | cons c cs ih =>
      rw [List.cons_append, splitSlash]
      by_cases hc : c = '/'
      · rw [if_pos hc, ih, splitSlash, if_pos hc]
        rfl
      · rw [if_neg hc, ih]
        obtain ⟨s, ss, hsp⟩ := List.exists_cons_of_ne_nil (splitSlash_ne_nil cs)
        rw [hsp]
        rw [splitSlash, if_neg hc, hsp]
        simp

theorem splitSlash_no_slash : ∀ (cs : List Char), (∀ c ∈ cs, c ≠ '/') →
    splitSlash cs = [cs] := by
  intro cs
  induction cs with
  | nil => intro _; rfl
  | cons c cs ih =>
      intro h
      rw [splitSlash, if_neg (h c (List.mem_cons_self _ _))]
      rw [ih (fun x hx => h x (List.mem_cons_of_mem _ hx))]

theorem splitSlash_ext : ∀ (xs : List Char) {zs : List (List Char)} {ks : List Char},
    splitSlash xs = zs ++ [ks] → ∀ {ys : List Char}, (∀ c ∈ ys, c ≠ '/') →
    splitSlash (xs ++ ys) = zs ++ [ks ++ ys] := by
  intro xs
  induction xs with
  | nil =>
      intro zs ks h ys hy
      rw [splitSlash] at h
      have hz : zs = [] := by
        cases zs with
        | nil => rfl
        | cons z zt =>
            rw [List.cons_append] at h
            have := congrArg List.length h
            simp at this
      subst hz
      rw [List.nil_append] at h ⊢
      have hks : ks = [] := by
        rw [List.cons.injEq] at h
        exact h.1.symm
      subst hks
      rw [splitSlash_no_slash ys hy]
      rfl
  | cons c cs ih =>
      intro zs ks h ys hy
      by_cases hc : c = '/'
      · subst hc
        rw [List.cons_append, splitSlash, if_pos rfl]
        rw [splitSlash, if_pos rfl] at h
        cases zs with
        | nil =>
            exfalso
            rw [List.nil_append, List.cons.injEq] at h
            exact splitSlash_ne_nil cs h.2
        | cons z zt =>
            rw [List.cons_append, List.cons.injEq] at h
            rw [ih h.2 hy, h.1]
            rfl
      · rw [List.cons_append, splitSlash, if_neg hc]
        rw [splitSlash, if_neg hc] at h
        obtain ⟨s, ss, hsp⟩ := List.exists_cons_of_ne_nil (splitSlash_ne_nil cs)
        rw [hsp] at h
        cases ss with
        | nil =>
            have hzs : zs = [] := by
              cases zs with
              | nil => rfl
              | cons z zt =>
                  rw [List.cons_append, List.cons.injEq] at h
                  have := h.2
                  have hlen := congrArg List.length this
                  simp at hlen
            subst hzs
            rw [List.nil_append, List.cons.injEq] at h
            have hks : ks = c :: s := h.1.symm
            have hs2 : splitSlash cs = [] ++ [s] := by rw [hsp]; rfl
            rw [ih hs2 hy, hks]
            simp
        | cons s2 ss2 =>
            cases zs with
            | nil =>
                exfalso
                rw [List.nil_append, List.cons.injEq] at h
                exact List.cons_ne_nil _ _ h.2
            | cons z zt =>
                rw [List.cons_append, List.cons.injEq] at h
                have hs2 : splitSlash cs = (s :: zt) ++ [ks] := by
                  rw [hsp, h.2]
                  rfl
                have hih := ih hs2 hy
                rw [hih]
                show (c :: s) :: (zt ++ [ks ++ ys]) = z :: zt ++ [ks ++ ys]
                rw [h.1]
                rfl

theorem parsePath_root : parsePath "/" = [] := by
  unfold parsePath
  rw [if_pos (Or.inr rfl)]

theorem parsePath_valid {b : String} {rest : List Char} (h : b.data = '/' :: rest)
    (hne : rest ≠ []) :
    parsePath b = (splitSlash rest).map (fun cs => (⟨cs⟩ : String)) := by
  have hb1 : b ≠ "" := by
    intro he
    subst he
    exact List.noConfusion (show ([] : List Char) = '/' :: rest from h)
  have hb2 : b ≠ "/" := by
    intro he
    subst he
    have h2 : ['/'] = '/' :: rest := h
    injection h2 with _ h3
    exact hne h3.symm
  have htrim : trimOneSlash b = ⟨rest⟩ := by
    unfold trimOneSlash
    rw [h]
    rfl
  unfold parsePath
  rw [if_neg (by push_neg; exact ⟨hb1, hb2⟩)]
  simp only [htrim]
  rw [if_neg (fun he => hne (by simpa using congrArg String.data he))]

theorem parsePath_join {base : String} {rest : List Char} (hb : base.data = '/' :: rest)
    {k : String} (hk1 : k ≠ "") (hk2 : ∀ c ∈ k.data, c ≠ '/') :
    parsePath (joinPath base k) = parsePath base ++ [k] := by
  have hkd : k.data ≠ [] := by
    intro he
    exact hk1 (strDataInj (by rw [he]))
  by_cases hr : rest = []
  · subst hr
    have hbase : base = "/" := strDataInj (by rw [hb])
    subst hbase
    rw [joinPath, if_pos (Or.inr rfl)]
    have hd : ("/" ++ k).data = '/' :: k.data := by simp [String.data_append]
    rw [parsePath_valid hd hkd]
    rw [splitSlash_no_slash k.data hk2]
    rw [parsePath_root]
    simp [strEta]
  · have hb1 : base ≠ "" := by
      intro he
      subst he
      exact List.noConfusion (show ([] : List Char) = '/' :: rest from hb)
    have hb2 : base ≠ "/" := by
      intro he
      subst he
      have h2 : ['/'] = '/' :: rest := hb
      injection h2 with _ h3
      exact hr h3.symm
    rw [joinPath, if_neg (by push_neg; exact ⟨hb1, hb2⟩)]
    have hd : (base ++ "/" ++ k).data = '/' :: (rest ++ '/' :: k.data) := by
      simp [String.data_append, hb]
    have hd2 : rest ++ '/' :: k.data ≠ [] := by simp
    rw [parsePath_valid hd hd2]
    rw [splitSlash_slash rest k.data]
    rw [splitSlash_no_slash k.data hk2]
    rw [parsePath_valid hb hr]
    simp [strEta]

theorem parsePath_arr {base : String} {rest : List Char} (hb : base.data = '/' :: rest)
    {ss : List String} {kk : String} (hps : parsePath base = ss ++ [kk]) (i : Nat) :
    parsePath (base ++ "[" ++ printNat i ++ "]") =
      ss ++ [kk ++ "[" ++ printNat i ++ "]"] := by
  have hr : rest ≠ [] := by
    intro he
    subst he
    have hbase : base = "/" := strDataInj (by rw [hb])
    rw [hbase, parsePath_root] at hps
    simp at hps
  rw [parsePath_valid hb hr] at hps
  obtain ⟨zs, ks, hdecomp⟩ : ∃ zs ks, splitSlash rest = zs ++ [ks] :=
    ⟨(splitSlash rest).dropLast, (splitSlash rest).getLast (splitSlash_ne_nil rest),
      (List.dropLast_append_getLast (splitSlash_ne_nil rest)).symm⟩
  rw [hdecomp, List.map_append, List.map_singleton] at hps
  have hmap := List.append_inj' hps (by simp)
  have hkk1 : (⟨ks⟩ : String) = kk := by
    have h2 := hmap.2
    rw [List.cons.injEq] at h2
    exact h2.1
  have hkk : kk.data = ks := by rw [← hkk1]
  have hbd : (base ++ "[" ++ printNat i ++ "]").data =
      '/' :: (rest ++ ('[' :: ((printNat i).data ++ [']']))) := by
    simp [String.data_append, hb]
  have hnos : ∀ c ∈ ('[' : Char) :: ((printNat i).data ++ [']']), c ≠ '/' := by
    intro c hc
    rcases List.mem_cons.mp hc with rfl | hc
    · decide
    · rcases List.mem_append.mp hc with hc | hc
      · exact (printNat_no_bracket i).2.2 c hc
      · rw [List.mem_singleton] at hc
        subst hc
        decide
  have hext := splitSlash_ext rest hdecomp hnos
  rw [parsePath_valid hbd (by simp), hext, List.map_append, List.map_singleton, hmap.1]
  have hfin : (⟨ks ++ ('[' :: ((printNat i).data ++ [']']))⟩ : String) =
      kk ++ "[" ++ printNat i ++ "]" := by
    apply strDataInj
    simp [String.data_append, hkk]
  rw [hfin]



/-! ## GetByPath navigation lemmas -/

theorem getSegs_cons_eq (n : Node) (seg : String) (rest : List String) :
    getSegs n (seg :: rest) =
      match parseArrayNotation seg with
      | some (base, i) =>
          let step : LookupResult :=
            if base = "" then .found n
            else
              match n with
              | .obj es _ =>
                  match lookupEntry es base with
                  | some v => .found v
                  | none => .nil
              | _ => .nil
          match step with
          | .found m =>
              match m with
              | .arr xs _ =>
                  if (xs.length : Int) ≤ i then .nil
                  else if i < 0 then .crash
                  else
                    match xs[i.toNat]? with
                    | some x => getSegs x rest
                    | none => .nil
              | _ => .nil
          | r => r
      | none =>
          match n with
          | .obj es _ =>
              match lookupEntry es seg with
              | some v => getSegs v rest
              | none => .nil
          | _ => .nil := rfl

theorem getSegs_append_found : ∀ (xs : List String) (n m : Node),
    getSegs n xs = .found m → ∀ (ys : List String), getSegs n (xs ++ ys) = getSegs m ys := by
  intro xs
  induction xs with
  | nil =>
      intro n m h ys
      have h2 : LookupResult.found n = .found m := h
      injection h2 with h3
      subst h3
      rw [List.nil_append]
  | cons seg rest ih =>
      intro n m h ys
      rw [List.cons_append]
      rw [getSegs_cons_eq] at h
      rw [getSegs_cons_eq]
      cases hpa : parseArrayNotation seg with
      | none =>
          rw [hpa] at h
          simp only at h ⊢
          cases n with
          | obj es p =>
              simp only at h ⊢
              cases hl : lookupEntry es seg with
              | some v =>
                  rw [hl] at h
                  simp only at h ⊢
                  exact ih v m h ys
              | none =>
                  rw [hl] at h
                  exact LookupResult.noConfusion h
          | null p => exact LookupResult.noConfusion h
          | bool b p => exact LookupResult.noConfusion h
          | num v p => exact LookupResult.noConfusion h
          | str s p => exact LookupResult.noConfusion h
          | arr xs2 p => exact LookupResult.noConfusion h
      | some bi =>
          obtain ⟨b, i⟩ := bi
          rw [hpa] at h
          simp only at h ⊢
          by_cases hb : b = ""
          · rw [if_pos hb] at h ⊢
            simp only at h ⊢
            cases n with
            | arr xs2 p =>
                simp only at h ⊢
                by_cases hle : (xs2.length : Int) ≤ i
                · rw [if_pos hle] at h
                  exact LookupResult.noConfusion h
                · rw [if_neg hle] at h ⊢
                  by_cases hlt : i < 0
                  · rw [if_pos hlt] at h
                    exact LookupResult.noConfusion h
                  · rw [if_neg hlt] at h ⊢
                    cases hx : xs2[i.toNat]? with
                    | some x =>
                        rw [hx] at h
                        simp only at h ⊢
                        exact ih x m h ys
                    | none =>
                        rw [hx] at h
                        exact LookupResult.noConfusion h
            | null p => exact LookupResult.noConfusion h
            | bool b2 p => exact LookupResult.noConfusion h
            | num v p => exact LookupResult.noConfusion h
            | str s p => exact LookupResult.noConfusion h
            | obj es p => exact LookupResult.noConfusion h
          · rw [if_neg hb] at h ⊢
            cases n with
            | obj es p =>
                simp only at h ⊢
                cases hl : lookupEntry es b with
                | some v =>
                    rw [hl] at h
                    simp only at h ⊢
                    cases v with
                    | arr xs2 p2 =>
                        simp only at h ⊢
                        by_cases hle : (xs2.length : Int) ≤ i
                        · rw [if_pos hle] at h
                          exact LookupResult.noConfusion h
                        · rw [if_neg hle] at h ⊢
                          by_cases hlt : i < 0
                          · rw [if_pos hlt] at h
                            exact LookupResult.noConfusion h
                          · rw [if_neg hlt] at h ⊢
                            cases hx : xs2[i.toNat]? with
                            | some x =>
                                rw [hx] at h
                                simp only at h ⊢
                                exact ih x m h ys
                            | none =>
                                rw [hx] at h
                                exact LookupResult.noConfusion h
                    | null p2 => exact LookupResult.noConfusion h
                    | bool b2 p2 => exact LookupResult.noConfusion h
                    | num v2 p2 => exact LookupResult.noConfusion h
                    | str s2 p2 => exact LookupResult.noConfusion h
                    | obj es2 p2 => exact LookupResult.noConfusion h
                | none =>
                    rw [hl] at h
                    exact LookupResult.noConfusion h
            | null p => exact LookupResult.noConfusion h
            | bool b2 p => exact LookupResult.noConfusion h
            | num v p => exact LookupResult.noConfusion h
            | str s p => exact LookupResult.noConfusion h
            | arr xs2 p => exact LookupResult.noConfusion h

theorem getSegs_key_obj {es : List (String × Node)} {p k : String}
    (hk : parseArrayNotation k = none) {v : Node} (hl : lookupEntry es k = some v)
    (ys : List String) : getSegs (.obj es p) (k :: ys) = getSegs v ys := by
  rw [getSegs_cons_eq]
  rw [hk]
  simp only
  rw [hl]

theorem getSegs_arr_root {xs : List Node} {p : String} {j : Nat} {x : Node}
    (hlen : j < xs.length) (hj : xs[j]? = some x) {seg : String}
    (hpa : parseArrayNotation seg = some ("", (j : Int))) (ys : List String) :
    getSegs (.arr xs p) (seg :: ys) = getSegs x ys := by
  rw [getSegs_cons_eq]
  rw [hpa]
  simp only [if_true]
  rw [if_neg (by omega)]
  rw [if_neg (by omega)]
  rw [Int.toNat_ofNat, hj]

theorem getSegs_arr_member {es : List (String × Node)} {p kk : String} {xs : List Node}
    {q : String} {j : Nat} {x : Node} {seg : String}
    (hpa : parseArrayNotation seg = some (kk, (j : Int))) (hkk : kk ≠ "")
    (hl : lookupEntry es kk = some (.arr xs q)) (hlen : j < xs.length)
    (hj : xs[j]? = some x) (ys : List String) :
    getSegs (.obj es p) (seg :: ys) = getSegs x ys := by
  rw [getSegs_cons_eq]
  rw [hpa]
  simp only
  rw [if_neg hkk]
  rw [hl]
  simp only
  rw [if_neg (by omega)]
  rw [if_neg (by omega)]
  rw [Int.toNat_ofNat, hj]

theorem lookupEntry_setPathsEntries (es : List (String × Node)) (base k : String) :
    lookupEntry (setPathsEntries es base) k =
      (lookupEntry es k).map fun v => v.setPaths (joinPath base k) := by
  induction es with
  | nil => rw [setPathsEntries.eq_def]; rfl
  | cons e es ih =>
      obtain ⟨k0, v0⟩ := e
      rw [setPathsEntries.eq_def]
      simp only
      rw [lookupEntry, lookupEntry]
      by_cases hk0 : k0 = k
      · subst hk0
        rw [if_pos rfl, if_pos rfl]
        rfl
      · rw [if_neg hk0, if_neg hk0]
        exact ih

theorem setPathsElems_length : ∀ (xs : List Node) (base : String) (i : Nat),
    (setPathsElems xs base i).length = xs.length := by
  intro xs
  induction xs with
  | nil => intro base i; rw [setPathsElems.eq_def]
  | cons x xs ih =>
      intro base i
      rw [setPathsElems.eq_def]
      simp only [List.length_cons]
      exact congrArg (fun n => n + 1) (ih base (i + 1))

theorem lookup_of_mem_nodup : ∀ {es : List (String × Node)} {k : String} {v : Node},
    (entryKeys es).Nodup → (k, v) ∈ es → lookupEntry es k = some v := by
  intro es
  induction es with
  | nil => intro k v _ hmem; simp at hmem
  | cons e es ih =>
      intro k v hnd hmem
      obtain ⟨k0, v0⟩ := e
      have hnd2 : k0 ∉ entryKeys es ∧ (entryKeys es).Nodup := by
        have : entryKeys ((k0, v0) :: es) = k0 :: entryKeys es := rfl
        rw [this] at hnd
        exact List.nodup_cons.mp hnd
      rw [lookupEntry]
      rcases List.mem_cons.mp hmem with heq | hmem2
      · rw [Prod.mk.injEq] at heq
        obtain ⟨h1, h2⟩ := heq
        subst h1
        subst h2
        rw [if_pos rfl]
      · have hk : k0 ≠ k := by
          intro he
          subst he
          exact hnd2.1 (List.mem_map_of_mem Prod.fst hmem2)
        rw [if_neg hk]
        exact ih hnd2.2 hmem2

theorem cleanEntries_mem : ∀ {es : List (String × Node)}, cleanEntries es = true →
    ∀ kv ∈ es, cleanTree kv.2 = true := by
  intro es
  induction es with
  | nil => intro _ kv hkv; simp at hkv
  | cons e es ih =>
      intro h kv hkv
      obtain ⟨k0, v0⟩ := e
      rw [cleanEntries.eq_def] at h
      simp only [Bool.and_eq_true] at h
      rcases List.mem_cons.mp hkv with rfl | hkv
      · exact h.1
      · exact ih h.2 kv hkv

theorem cleanElems_mem : ∀ {xs : List Node}, cleanElems xs = true →
    ∀ x ∈ xs, cleanTree x = true := by
  intro xs
  induction xs with
  | nil => intro _ x hx; simp at hx
  | cons y xs ih =>
      intro h x hx
      rw [cleanElems.eq_def] at h
      simp only [Bool.and_eq_true] at h
      rcases List.mem_cons.mp hx with rfl | hx
      · exact h.1
      · exact ih h.2 x hx

theorem cleanTree_obj {es : List (String × Node)} {p : String}
    (h : cleanTree (.obj es p) = true) :
    (entryKeys es).Nodup ∧ (∀ kv ∈ es, goodKey kv.1 = true) ∧
      ∀ kv ∈ es, cleanTree kv.2 = true := by
  rw [cleanTree.eq_def] at h
  simp only [Bool.and_eq_true, decide_eq_true_eq, List.all_eq_true] at h
  exact ⟨h.1.1, fun kv hkv => h.1.2 kv hkv, fun kv hkv => cleanEntries_mem h.2 kv hkv⟩

theorem cleanTree_arr {xs : List Node} {p : String} (h : cleanTree (.arr xs p) = true) :
    (∀ x ∈ xs, isArrNode x = false) ∧ ∀ x ∈ xs, cleanTree x = true := by
  rw [cleanTree.eq_def] at h
  simp only [Bool.and_eq_true, List.all_eq_true] at h
  refine ⟨fun x hx => ?_, fun x hx => cleanElems_mem h.2 x hx⟩
  have := h.1 x hx
  simpa using this

theorem isArrNode_setPaths (t : Node) (b : String) :
    isArrNode (t.setPaths b) = isArrNode t := by
  cases t <;> (rw [Node.setPaths.eq_def]; rfl)

theorem joinPath_valid {base : String} {rest : List Char} (hb : base.data = '/' :: rest)
    (k : String) : ∃ rr, (joinPath base k).data = '/' :: rr := by
  rw [joinPath]
  by_cases hc : base = "" ∨ base = "/"
  · rw [if_pos hc]
    exact ⟨k.data, by simp [String.data_append]⟩
  · rw [if_neg hc]
    exact ⟨rest ++ '/' :: k.data, by simp [String.data_append, hb]⟩

theorem bracketBase_data {base : String} {rest : List Char} (hb : base.data = '/' :: rest)
    (j : Nat) : (base ++ "[" ++ printNat j ++ "]").data =
      '/' :: (rest ++ ('[' :: ((printNat j).data ++ [']']))) := by
  simp [String.data_append, hb]


theorem bracketChars_no_slash (j : Nat) :
    ∀ c ∈ ('[' : Char) :: ((printNat j).data ++ [']']), c ≠ '/' := by
  intro c hc
  rcases List.mem_cons.mp hc with rfl | hc
  · decide
  · rcases List.mem_append.mp hc with hc | hc
    · exact (printNat_no_bracket j).2.2 c hc
    · rw [List.mem_singleton] at hc
      subst hc
      decide

theorem getByPath_setPaths_aux :
    ∀ (N : Nat) (t : Node) (base : String) (r : Node) (rest : List Char),
      nodeSize t ≤ N → cleanTree t = true → base.data = '/' :: rest →
      getSegs r (parsePath base) = .found (t.setPaths base) →
      (isArrNode (t.setPaths base) = true → ArrAt r base (t.setPaths base)) →
      ∀ m ∈ (t.setPaths base).subnodes, getSegs r (parsePath m.path) = .found m := by
  intro N
  induction N with
  | zero =>
      intro t base r rest hsz
      have := nodeSize_pos t
      omega
  | succ N ih =>
      intro t base r rest hsz hclean hbase hnav harr m hm
      cases t with
      | null p0 =>
          rw [Node.setPaths.eq_def] at hm hnav
          simp only at hm hnav
          rw [Node.subnodes.eq_def] at hm
          simp only at hm
          rw [List.mem_singleton] at hm
          subst hm
          exact hnav
      | bool b0 p0 =>
          rw [Node.setPaths.eq_def] at hm hnav
          simp only at hm hnav
          rw [Node.subnodes.eq_def] at hm
          simp only at hm
          rw [List.mem_singleton] at hm
          subst hm
          exact hnav
      | num q0 p0 =>
          rw [Node.setPaths.eq_def] at hm hnav
          simp only at hm hnav
          rw [Node.subnodes.eq_def] at hm
          simp only at hm
          rw [List.mem_singleton] at hm
          subst hm
          exact hnav
      | str s0 p0 =>
          rw [Node.setPaths.eq_def] at hm hnav
          simp only at hm hnav
          rw [Node.subnodes.eq_def] at hm
          simp only at hm
          rw [List.mem_singleton] at hm
          subst hm
          exact hnav
      | obj es p0 =>
          rw [Node.setPaths.eq_def] at hm hnav
          simp only at hm hnav
          rw [Node.subnodes.eq_def] at hm
          simp only at hm
          rcases List.mem_cons.mp hm with rfl | hm
          · exact hnav
          · obtain ⟨kv, hkvmem, hmsub⟩ := subnodesEntries_mem hm
            obtain ⟨k, v, hkv_es, rfl⟩ := setPathsEntries_mem hkvmem
            obtain ⟨hnd, hgkAll, hclAll⟩ := cleanTree_obj hclean
            have hgk : goodKey k = true := hgkAll (k, v) hkv_es
            obtain ⟨hk1, hkslash, hkbrL, hkbrR⟩ := goodKey_facts hgk
            have hcv : cleanTree v = true := hclAll (k, v) hkv_es
            have hszv : nodeSize v ≤ N := by
              have h1 : nodeSize v ≤ entriesSize es := mem_entries_size_le hkv_es
              have h2 : nodeSize (Node.obj es p0) = 1 + entriesSize es := by
                simp [nodeSize]
              omega
            have hpj := parsePath_join hbase hk1 hkslash
            obtain ⟨rr, hrr⟩ := joinPath_valid hbase k
            have hlk : lookupEntry (setPathsEntries es base) k =
                some (v.setPaths (joinPath base k)) := by
              rw [lookupEntry_setPathsEntries]
              rw [lookup_of_mem_nodup hnd hkv_es]
              rfl
            have hnav2 : getSegs r (parsePath (joinPath base k)) =
                .found (v.setPaths (joinPath base k)) := by
              rw [hpj]
              rw [getSegs_append_found (parsePath base) r _ hnav [k]]
              rw [getSegs_key_obj (parseArrayNotation_of_key hgk) hlk []]
              rfl
            have harr2 : isArrNode (v.setPaths (joinPath base k)) = true →
                ArrAt r (joinPath base k) (v.setPaths (joinPath base k)) := by
              intro _
              right
              exact ⟨parsePath base, k, setPathsEntries es base, base, hpj, hgk, hnav, hlk⟩
            exact ih v (joinPath base k) r rr hszv hcv hrr hnav2 harr2 m hmsub
      | arr xs p0 =>
          rw [Node.setPaths.eq_def] at hm hnav harr
          simp only at hm hnav harr
          rw [Node.subnodes.eq_def] at hm
          simp only at hm
          rcases List.mem_cons.mp hm with rfl | hm
          · exact hnav
          · obtain ⟨x2, hx2mem, hmsub⟩ := subnodesElems_mem hm
            obtain ⟨j, x, hj, rfl⟩ := setPathsElems_mem 0 hx2mem
            rw [Nat.zero_add] at hmsub
            obtain ⟨hnoarr, hclAll⟩ := cleanTree_arr hclean
            have hx_mem : x ∈ xs := by
              obtain ⟨hlt, hget⟩ := List.getElem?_eq_some_iff.mp hj
              exact hget ▸ List.getElem_mem hlt
            have hlenj : j < xs.length := (List.getElem?_eq_some_iff.mp hj).1
            have hcx : cleanTree x = true := hclAll x hx_mem
            have hxnoarr : isArrNode x = false := hnoarr x hx_mem
            have hszx : nodeSize x ≤ N := by
              have h1 := mem_elems_size_le hx_mem
              have h2 : nodeSize (Node.arr xs p0) = 1 + elemsSize xs := by
                simp [nodeSize]
              omega
            have hbd := bracketBase_data hbase j
            have hget2 : (setPathsElems xs base 0)[j]? =
                some (x.setPaths (base ++ "[" ++ printNat j ++ "]")) := by
              rw [setPathsElems_get]
              rw [hj]
              rw [Nat.zero_add]
              rfl
            have hlen2 : j < (setPathsElems xs base 0).length := by
              rw [setPathsElems_length]
              exact hlenj
            have hnav2 : getSegs r (parsePath (base ++ "[" ++ printNat j ++ "]")) =
                .found (x.setPaths (base ++ "[" ++ printNat j ++ "]")) := by
              rcases harr rfl with ⟨hb, hr⟩ | ⟨ss, kk, pes, pp, hps, hgkk, hss, hlk⟩
              · subst hb
                have hpd : ("/" ++ "[" ++ printNat j ++ "]").data =
                    '/' :: ('[' :: ((printNat j).data ++ [']'])) := by
                  have h0 := bracketBase_data (show ("/" : String).data = '/' :: [] from rfl) j
                  exact h0
                have hsplit : parsePath ("/" ++ "[" ++ printNat j ++ "]") =
                    [(⟨'[' :: ((printNat j).data ++ [']'])⟩ : String)] := by
                  rw [parsePath_valid hpd (by simp)]
                  rw [splitSlash_no_slash _ (bracketChars_no_slash j)]
                  rfl
                have hsegeq : (⟨'[' :: ((printNat j).data ++ [']'])⟩ : String) =
                    "" ++ "[" ++ printNat j ++ "]" := by
                  apply strDataInj
                  simp [String.data_append]
                rw [hsplit, hsegeq, hr]
                exact getSegs_arr_root hlen2 hget2
                  (parseArrayNotation_bracket j (fun c hc => absurd hc (List.not_mem_nil c))
                    (fun c hc => absurd hc (List.not_mem_nil c))) []
              · have hps2 := parsePath_arr hbase hps j
                rw [hps2]
                rw [getSegs_append_found ss r _ hss _]
                obtain ⟨hkk1, hkkslash, hkkbrL, hkkbrR⟩ := goodKey_facts hgkk
                exact getSegs_arr_member (parseArrayNotation_bracket j hkkbrL hkkbrR)
                  hkk1 hlk hlen2 hget2 []
            have harr2 : isArrNode (x.setPaths (base ++ "[" ++ printNat j ++ "]")) = true →
                ArrAt r (base ++ "[" ++ printNat j ++ "]")
                  (x.setPaths (base ++ "[" ++ printNat j ++ "]")) := by
              intro habs
              rw [isArrNode_setPaths, hxnoarr] at habs
              exact Bool.noConfusion habs
            exact ih x (base ++ "[" ++ printNat j ++ "]") r _ hszx hcx hbd hnav2 harr2 m hmsub

/-- C9 counterexample: in the tree `{ a: [[null, null]] }` with paths
assigned by `SetPaths("/")`, the descendant `null` at path `/a[0][1]`
is not what `GetByPath` returns for that path: `parseArrayNotation`
reads only the first bracket group of the composite segment `a[0][1]`,
so the walk resolves `/a[0]` and stops, returning the inner array
instead of its element. -/
theorem C9_counterexample :
    (Node.null "/a[0][1]") ∈ (nestedArrays.setPaths "/").subnodes ∧
    (nestedArrays.setPaths "/").getByPath "/a[0][1]" =
      .found (.arr [.null "/a[0][0]", .null "/a[0][1]"] "/a[0]") ∧
    (nestedArrays.setPaths "/").getByPath "/a[0][1]" ≠ .found (.null "/a[0][1]") := by
  refine ⟨?_, ?_, ?_⟩
  · exact .tail _ (.tail _ (.tail _ (.tail _ (.head _))))
  · rfl
  · intro h
    have h2 := (show (nestedArrays.setPaths "/").getByPath "/a[0][1]" =
        .found (.arr [.null "/a[0][0]", .null "/a[0][1]"] "/a[0]") from rfl).symm.trans h
    injection h2 with h3
    exact Node.noConfusion h3

/-- C9 (amended): for every clean tree (objects carry duplicate-free
keys that are nonempty and contain no slash or bracket, and no array
element is itself an array), path assignment and path lookup round-trip:
after `SetPaths("/")` on the root, `GetByPath` applied to the root with
any descendant's path returns exactly that descendant.  The
counterexample shows the no-nested-array restriction is necessary. -/
theorem C9_path_roundtrip (t : Node) (hc : cleanTree t = true) :
    ∀ m ∈ (t.setPaths "/").subnodes, (t.setPaths "/").getByPath m.path = .found m := by
  intro m hm
  have hnav : getSegs (t.setPaths "/") (parsePath "/") = .found (t.setPaths "/") := by
    rw [parsePath_root]
    rfl
  have harr : isArrNode (t.setPaths "/") = true →
      ArrAt (t.setPaths "/") "/" (t.setPaths "/") :=
    fun _ => Or.inl ⟨rfl, rfl⟩
  exact getByPath_setPaths_aux (nodeSize t) t "/" (t.setPaths "/") [] (le_refl _) hc rfl
    hnav harr m hm

/-- Witness for C9: the spec-§8 tree `{ items: [{id:1,v:"a"},{id:2,v:"b"}] }`
is clean, and looking up the assigned path `/items[0]/id` of its `id`
member returns exactly that member. -/
theorem C9_witness :
    cleanTree oldItems = true ∧
    (oldItems.setPaths "/").getByPath "/items[0]/id" = .found (.num 1 "/items[0]/id") := by
  refine ⟨rfl, ?_⟩
  exact C9_path_roundtrip oldItems rfl (.num 1 "/items[0]/id")
    (.tail _ (.tail _ (.tail _ (.head _))))

/-! ## Set-mode Move characterization (C3) -/

theorem movesAt_append (q : String) (cs1 cs2 : List Change) :
    movesAt q (cs1 ++ cs2) = movesAt q cs1 ++ movesAt q cs2 := by
  simp [movesAt]

theorem movesAt_nil_of {q : String} {cs : List Change}
    (h : ∀ c ∈ cs, (isMove c.type && (c.path == q)) = false) : movesAt q cs = [] := by
  unfold movesAt
  rw [List.filter_eq_nil_iff]
  intro c hc
  rw [h c hc]
  simp

theorem diffPairsGo_no_move_at {rec : Node → Node → String → Except String (List Change)}
    {key : String} {a2 : List Node} {path ep : String} :
    ∀ (zs : List Node) (c : Nat),
      (∀ z ∈ zs, ∀ w2, getId key z = some w2 →
        elemPath path key w2 ≠ ep ∧
        ∀ y2 j2, findById key w2 a2 0 = some (y2, j2) →
          ∃ cs0, rec (stripKey key z) (stripKey key y2) (elemPath path key w2) = .ok cs0 ∧
            movesAt ep cs0 = []) →
      ∃ cs1, diffPairsGo rec (fun _ => false) key a2 zs c path = .ok cs1 ∧
        movesAt ep cs1 = [] := by
  intro zs
  induction zs with
  | nil => intro c _; exact ⟨[], rfl, rfl⟩
  | cons x xs ih =>
      intro c hcond
      obtain ⟨cs1, hx1, hm1⟩ := ih (c + 1) (fun z hz => hcond z (List.mem_cons_of_mem _ hz))
      cases hv : getId key x with
      | none =>
          refine ⟨cs1, ?_, hm1⟩
          simp [diffPairsGo, hv, hx1, except_ok_bind]
      | some v =>
          obtain ⟨hne, hrec⟩ := hcond x (List.mem_cons_self _ _) v hv
          cases hf : findById key v a2 0 with
          | none =>
              refine ⟨cs1, ?_, hm1⟩
              simp [diffPairsGo, hv, hf, hx1, except_ok_bind]
          | some yj =>
              obtain ⟨y, j⟩ := yj
              obtain ⟨cs0, hcs0, hm0⟩ := hrec y j hf
              refine ⟨(cs0 ++ if c ≠ j then
                  [⟨.move, elemPath path key v, some (.num (c : Rat) ""),
                    some (.num (j : Rat) "")⟩] else []) ++ cs1, ?_, ?_⟩
              · simp [diffPairsGo, hv, hf, hcs0, hx1, except_ok_bind]
              · rw [movesAt_append, movesAt_append, hm0, hm1]
                simp only [List.nil_append, List.append_nil]
                by_cases hcj : c ≠ j
                · rw [if_pos hcj]
                  apply movesAt_nil_of
                  intro d hd
                  rw [List.mem_singleton] at hd
                  subst hd
                  simp only [isMove, Bool.true_and]
                  exact beq_eq_false_iff_ne.mpr hne
                · rw [if_neg hcj]
                  rfl

theorem diffPairsGo_single_move {rec : Node → Node → String → Except String (List Change)}
    {key : String} {a2 post : List Node} {path : String} {x y : Node} {v : SVal} {j : Nat}
    (hgx : getId key x = some v)
    (hfy : findById key v a2 0 = some (y, j))
    (hcx : rec (stripKey key x) (stripKey key y) (elemPath path key v) = .ok [])
    (hpost : ∀ z ∈ post, ∀ w2, getId key z = some w2 →
      elemPath path key w2 ≠ elemPath path key v ∧
      ∀ y2 j2, findById key w2 a2 0 = some (y2, j2) →
        ∃ cs0, rec (stripKey key z) (stripKey key y2) (elemPath path key w2) = .ok cs0 ∧
          movesAt (elemPath path key v) cs0 = []) :
    ∀ (pre : List Node) (c : Nat),
      (∀ z ∈ pre, ∀ w2, getId key z = some w2 →
        elemPath path key w2 ≠ elemPath path key v ∧
        ∀ y2 j2, findById key w2 a2 0 = some (y2, j2) →
          ∃ cs0, rec (stripKey key z) (stripKey key y2) (elemPath path key w2) = .ok cs0 ∧
            movesAt (elemPath path key v) cs0 = []) →
      c + pre.length ≠ j →
      ∃ cs1, diffPairsGo rec (fun _ => false) key a2 (pre ++ x :: post) c path = .ok cs1 ∧
        movesAt (elemPath path key v) cs1 =
          [⟨.move, elemPath path key v, some (.num ((c + pre.length : Nat) : Rat) ""),
            some (.num (j : Rat) "")⟩] := by
  intro pre
  induction pre with
  | nil =>
      intro c _ hcj
      obtain ⟨csp, hcsp, hmp⟩ := diffPairsGo_no_move_at post (c + 1) hpost
      refine ⟨(if c ≠ j then
          [⟨.move, elemPath path key v, some (.num (c : Rat) ""),
            some (.num (j : Rat) "")⟩] else []) ++ csp, ?_, ?_⟩
      · rw [List.nil_append]
        simp [diffPairsGo, hgx, hfy, hcx, hcsp, except_ok_bind]
      · rw [movesAt_append, hmp, List.append_nil]
        rw [if_pos (show c ≠ j from hcj)]
        simp [movesAt, isMove]
  | cons z pre2 ih =>
      intro c hcond hcj
      have hcj2 : (c + 1) + pre2.length ≠ j := by
        have harith : c + (z :: pre2).length = c + 1 + pre2.length := by
          simp only [List.length_cons]
          omega
        rwa [harith] at hcj
      obtain ⟨cs1, h1, hm1⟩ := ih (c + 1) (fun z2 hz2 => hcond z2 (List.mem_cons_of_mem _ hz2)) hcj2
      have harith : c + (z :: pre2).length = c + 1 + pre2.length := by
        simp only [List.length_cons]
        omega
      rw [List.cons_append]
      cases hv : getId key z with
      | none =>
          refine ⟨cs1, ?_, ?_⟩
          · simp [diffPairsGo, hv, h1, except_ok_bind]
          · rw [harith]
            exact hm1
      | some w2 =>
          obtain ⟨hne, hrec⟩ := hcond z (List.mem_cons_self _ _) w2 hv
          cases hf2 : findById key w2 a2 0 with
          | none =>
              refine ⟨cs1, ?_, ?_⟩
              · simp [diffPairsGo, hv, hf2, h1, except_ok_bind]
              · rw [harith]
                exact hm1
          | some yj2 =>
              obtain ⟨y2, j2⟩ := yj2
              obtain ⟨cs0, hcs0, hm0⟩ := hrec y2 j2 hf2
              have hmv : movesAt (elemPath path key v) (if c ≠ j2 then
                  [⟨.move, elemPath path key w2, some (.num (c : Rat) ""),
                    some (.num (j2 : Rat) "")⟩] else []) = [] := by
                by_cases hcj3 : c ≠ j2
                · rw [if_pos hcj3]
                  apply movesAt_nil_of
                  intro d hd
                  rw [List.mem_singleton] at hd
                  subst hd
                  simp only [isMove, Bool.true_and]
                  exact beq_eq_false_iff_ne.mpr hne
                · rw [if_neg hcj3]
                  rfl
              refine ⟨(cs0 ++ if c ≠ j2 then
                  [⟨.move, elemPath path key w2, some (.num (c : Rat) ""),
                    some (.num (j2 : Rat) "")⟩] else []) ++ cs1, ?_, ?_⟩
              · simp [diffPairsGo, hv, hf2, hcs0, h1, except_ok_bind]
              · rw [movesAt_append, movesAt_append, hm0, hmv, hm1]
                rw [harith]
                simp

/-- C3: in set-mode reconciliation (a key configured for the array's
path, all elements objects, usable duplicate-free identities), an
identity `v` present in both arrays whose element content is equal
apart from the key field (`rec` on the stripped elements yields no
changes) and whose index moved from `pre.length` to `j` produces
exactly one Move change at `path[key=v]`, carrying the old and new
index — provided no other element's changes land a Move at that very
path (distinct identities have distinct element paths).  In particular
the spec-§8 swap yields exactly the two Moves and nothing else. -/
theorem C3_set_mode_single_move
    {rec : Node → Node → String → Except String (List Change)}
    {key : String} {a1 a2 pre post : List Node} {path : String} {opts : Options}
    {x y : Node} {v : SVal} {j : Nat}
    (hkey : lookupStr opts.arraySetKeys path = some key)
    (hobj : (a1.all isObjNode && a2.all isObjNode) = true)
    (hsm : setModeOK key a1 a2 = true)
    (hsplit : a1 = pre ++ x :: post)
    (hgx : getId key x = some v)
    (hfy : findById key v a2 0 = some (y, j))
    (hij : pre.length ≠ j)
    (hcx : rec (stripKey key x) (stripKey key y) (elemPath path key v) = .ok [])
    (hpre : ∀ z ∈ pre, ∀ w2, getId key z = some w2 →
      elemPath path key w2 ≠ elemPath path key v ∧
      ∀ y2 j2, findById key w2 a2 0 = some (y2, j2) →
        ∃ cs0, rec (stripKey key z) (stripKey key y2) (elemPath path key w2) = .ok cs0 ∧
          movesAt (elemPath path key v) cs0 = [])
    (hpost : ∀ z ∈ post, ∀ w2, getId key z = some w2 →
      elemPath path key w2 ≠ elemPath path key v ∧
      ∀ y2 j2, findById key w2 a2 0 = some (y2, j2) →
        ∃ cs0, rec (stripKey key z) (stripKey key y2) (elemPath path key w2) = .ok cs0 ∧
          movesAt (elemPath path key v) cs0 = []) :
    (∃ cs, reconcileGo rec (fun _ => false) a1 a2 path opts = .ok cs ∧
      movesAt (elemPath path key v) cs =
        [⟨.move, elemPath path key v, some (.num (pre.length : Rat) ""),
          some (.num (j : Rat) "")⟩]) ∧
    Diff oldItems newItems setOpts = .ok
      [⟨.move, "/items[id=1]", some (.num 0 ""), some (.num 1 "")⟩,
       ⟨.move, "/items[id=2]", some (.num 1 ""), some (.num 0 "")⟩] := by
  constructor
  · subst hsplit
    obtain ⟨pairsCs, hpairs, hmpairs⟩ :=
      diffPairsGo_single_move hgx hfy hcx hpost pre 0 hpre
        (by rw [Nat.zero_add]; exact hij)
    refine ⟨((pre ++ x :: post).filterMap fun z =>
        match getId key z with
        | some w2 =>
            if w2 ∈ (idsOf key a2).getD [] then none
            else some ⟨.remove, elemPath path key w2, some z, none⟩
        | none => none) ++ ((a2.filterMap fun z =>
        match getId key z with
        | some w2 =>
            if w2 ∈ (idsOf key (pre ++ x :: post)).getD [] then none
            else some ⟨.add, elemPath path key w2, none, some z⟩
        | none => none) ++ pairsCs), ?_, ?_⟩
    · simp [reconcileGo, hkey, hobj, hsm, hpairs, except_ok_bind]
      have hobj2 := hobj
      simp at hobj2
      exact hobj2
    · rw [movesAt_append, movesAt_append, hmpairs]
      have hR : movesAt (elemPath path key v) ((pre ++ x :: post).filterMap fun z =>
          match getId key z with
          | some w2 =>
              if w2 ∈ (idsOf key a2).getD [] then none
              else some ⟨.remove, elemPath path key w2, some z, none⟩
          | none => none) = [] := by
        apply movesAt_nil_of
        intro d hd
        obtain ⟨z, hz, hzd⟩ := List.mem_filterMap.mp hd
        cases hgz : getId key z with
        | none =>
            rw [hgz] at hzd
            exact Option.noConfusion hzd
        | some w2 =>
            rw [hgz] at hzd
            simp only at hzd
            by_cases hmem : w2 ∈ (idsOf key a2).getD []
            · rw [if_pos hmem] at hzd
              exact Option.noConfusion hzd
            · rw [if_neg hmem] at hzd
              injection hzd with hzd
              rw [← hzd]
              rfl
      have hA : movesAt (elemPath path key v) (a2.filterMap fun z =>
          match getId key z with
          | some w2 =>
              if w2 ∈ (idsOf key (pre ++ x :: post)).getD [] then none
              else some ⟨.add, elemPath path key w2, none, some z⟩
          | none => none) = [] := by
        apply movesAt_nil_of
        intro d hd
        obtain ⟨z, hz, hzd⟩ := List.mem_filterMap.mp hd
        cases hgz : getId key z with
        | none =>
            rw [hgz] at hzd
            exact Option.noConfusion hzd
        | some w2 =>
            rw [hgz] at hzd
            simp only at hzd
            by_cases hmem : w2 ∈ (idsOf key (pre ++ x :: post)).getD []
            · rw [if_pos hmem] at hzd
              exact Option.noConfusion hzd
            · rw [if_neg hmem] at hzd
              injection hzd with hzd
              rw [← hzd]
              rfl
      rw [hR, hA]
      simp
  · rfl

/-- Witness for C3: the spec-§8 arrays keyed by `id`, identity `id=1`
moving from index 0 to index 1, produce exactly one Move at
`/items[id=1]`. -/
theorem C3_witness :
    ∃ cs, reconcileGo (fun a b p => diffNodeF 8 a b p setOpts) (fun _ => false)
        [itemEl 1 "a", itemEl 2 "b"] [itemEl 2 "b", itemEl 1 "a"] "/items" setOpts = .ok cs ∧
      movesAt "/items[id=1]" cs =
        [⟨.move, "/items[id=1]", some (.num 0 ""), some (.num 1 "")⟩] := by
  have h := @C3_set_mode_single_move (fun a b p => diffNodeF 8 a b p setOpts) "id"
    [itemEl 1 "a", itemEl 2 "b"] [itemEl 2 "b", itemEl 1 "a"] [] [itemEl 2 "b"]
    "/items" setOpts (itemEl 1 "a") (itemEl 1 "a") (.n ((1 : Nat) : Rat)) 1
    rfl rfl rfl rfl rfl rfl (by decide) rfl
    (fun z hz => absurd hz (List.not_mem_nil z))
    (by
      intro z hz w2 hw2
      rw [List.mem_singleton] at hz
      subst hz
      have hb : some (SVal.n ((2 : Nat) : Rat)) = some w2 := hw2
      injection hb with hb
      subst hb
      refine ⟨by decide, ?_⟩
      intro y2 j2 hf2
      have hb2 : some ((itemEl 2 "b"), (0 : Nat)) = some (y2, j2) := hf2
      injection hb2 with hb2
      rw [Prod.mk.injEq] at hb2
      obtain ⟨hY, hJ⟩ := hb2
      subst hY
      subst hJ
      exact ⟨[], rfl, rfl⟩)
  exact h.1

/-! ## Determinism under object entry-order permutation (C6) -/

theorem charEq_of_toNat {a b : Char} (h : a.toNat = b.toNat) : a = b :=
  Char.ext (UInt32.ext h)

theorem charsLe_total : ∀ (a b : List Char), charsLe a b = true ∨ charsLe b a = true := by
  intro a
  induction a with
  | nil => intro b; left; rfl
  | cons x xs ih =>
      intro b
      cases b with
      | nil => right; rfl
      | cons y ys =>
          rw [charsLe, charsLe]
          by_cases hxy : x.toNat = y.toNat
          · rw [if_pos hxy, if_pos hxy.symm]
            exact ih ys
          · rw [if_neg hxy, if_neg (fun h => hxy h.symm)]
            rcases Nat.lt_or_ge x.toNat y.toNat with h | h
            · left; simpa using h
            · right
              simp only [decide_eq_true_eq]
              omega

theorem charsLe_trans : ∀ (a b c : List Char),
    charsLe a b = true → charsLe b c = true → charsLe a c = true := by
  intro a
  induction a with
  | nil => intro b c _ _; rfl
  | cons x xs ih =>
      intro b c h1 h2
      cases b with
      | nil => rw [charsLe] at h1; exact absurd h1 (by simp)
      | cons y ys =>
          cases c with
          | nil => rw [charsLe] at h2; exact absurd h2 (by simp)
          | cons z zs =>
              rw [charsLe] at h1 h2 ⊢
              by_cases hxy : x.toNat = y.toNat
              · rw [if_pos hxy] at h1
                by_cases hyz : y.toNat = z.toNat
                · rw [if_pos hyz] at h2
                  rw [if_pos (hxy.trans hyz)]
                  exact ih ys zs h1 h2
                · rw [if_neg hyz] at h2
                  rw [if_neg (by omega : ¬ x.toNat = z.toNat)]
                  simp only [decide_eq_true_eq] at h2 ⊢
                  omega
              · rw [if_neg hxy] at h1
                simp only [decide_eq_true_eq] at h1
                by_cases hyz : y.toNat = z.toNat
                · rw [if_neg (by omega : ¬ x.toNat = z.toNat)]
                  simp only [decide_eq_true_eq]
                  omega
                · rw [if_neg hyz] at h2
                  simp only [decide_eq_true_eq] at h2
                  rw [if_neg (by omega : ¬ x.toNat = z.toNat)]
                  simp only [decide_eq_true_eq]
                  omega

theorem charsLe_antisymm : ∀ (a b : List Char),
    charsLe a b = true → charsLe b a = true → a = b := by
  intro a
  induction a with
  | nil =>
      intro b _ h2
      cases b with
      | nil => rfl
      | cons y ys => rw [charsLe] at h2; exact absurd h2 (by simp)
  | cons x xs ih =>
      intro b h1 h2
      cases b with
      | nil => rw [charsLe] at h1; exact absurd h1 (by simp)
      | cons y ys =>
          rw [charsLe] at h1 h2
          by_cases hxy : x.toNat = y.toNat
          · rw [if_pos hxy] at h1
            rw [if_pos hxy.symm] at h2
            rw [charEq_of_toNat hxy, ih ys h1 h2]
          · rw [if_neg hxy] at h1
            rw [if_neg (fun h => hxy h.symm)] at h2
            simp only [decide_eq_true_eq] at h1 h2
            omega

theorem strLe_total (a b : String) : StrLe a b ∨ StrLe b a := charsLe_total a.data b.data

theorem strLe_trans {a b c : String} (h1 : StrLe a b) (h2 : StrLe b c) : StrLe a c :=
  charsLe_trans a.data b.data c.data h1 h2

theorem strLe_antisymm {a b : String} (h1 : StrLe a b) (h2 : StrLe b a) : a = b := by
  cases a
  cases b
  exact congrArg String.mk (charsLe_antisymm _ _ h1 h2)

theorem perm_sorted_nodup_eq {α : Type} (keyOf : α → String) :
    ∀ {l1 l2 : List α}, l1.Perm l2 →
      List.Sorted (fun a b => StrLe (keyOf a) (keyOf b)) l1 →
      List.Sorted (fun a b => StrLe (keyOf a) (keyOf b)) l2 →
      (l1.map keyOf).Nodup → l1 = l2 := by
  intro l1
  induction l1 with
  | nil =>
      intro l2 hp _ _ _
      have := hp.length_eq
      cases l2 with
      | nil => rfl
      | cons a2 t2 => simp at this
  | cons a t1 ih =>
      intro l2 hp hs1 hs2 hnd
      cases l2 with
      | nil =>
          have := hp.length_eq
          simp at this
      | cons a2 t2 =>
          rw [List.map_cons] at hnd
          have haa : a = a2 := by
            by_contra hne
            have ha2' : a ∈ t2 := by
              have hmem := hp.subset (List.mem_cons_self a t1)
              rcases List.mem_cons.mp hmem with h | h
              · exact absurd h hne
              · exact h
            have ha2in : a2 ∈ t1 := by
              have hmem := hp.symm.subset (List.mem_cons_self a2 t2)
              rcases List.mem_cons.mp hmem with h | h
              · exact absurd h.symm hne
              · exact h
            have h1 : StrLe (keyOf a) (keyOf a2) := (List.sorted_cons.mp hs1).1 a2 ha2in
            have h2 : StrLe (keyOf a2) (keyOf a) := (List.sorted_cons.mp hs2).1 a ha2'
            have hk : keyOf a = keyOf a2 := strLe_antisymm h1 h2
            have hnd1 := List.nodup_cons.mp hnd
            exact hnd1.1 (by rw [hk]; exact List.mem_map_of_mem keyOf ha2in)
          subst haa
          have hp2 := hp.cons_inv
          have ht1 := (List.sorted_cons.mp hs1).2
          have ht2 := (List.sorted_cons.mp hs2).2
          have hndt : (t1.map keyOf).Nodup := (List.nodup_cons.mp hnd).2
          rw [ih hp2 ht1 ht2 hndt]

theorem orderedInsert_rel {α : Type} {R : α → α → Prop} {le : α → α → Prop} [DecidableRel le]
    (hcompat : ∀ a b a2 b2, R a b → R a2 b2 → (le a a2 ↔ le b b2)) :
    ∀ {l l2 : List α}, List.Forall₂ R l l2 → ∀ {c c2 : α}, R c c2 →
      List.Forall₂ R (l.orderedInsert le c) (l2.orderedInsert le c2) := by
  intro l l2 hrel
  induction hrel with
  | nil =>
      intro c c2 hc
      exact List.Forall₂.cons hc List.Forall₂.nil
  | cons h1 h2 ih =>
      rename_i x y t1 t2
      intro c c2 hc
      rw [List.orderedInsert, List.orderedInsert]
      by_cases hle : le c x
      · rw [if_pos hle, if_pos ((hcompat c c2 x y hc h1).mp hle)]
        exact .cons hc (.cons h1 h2)
      · rw [if_neg hle, if_neg (fun h => hle ((hcompat c c2 x y hc h1).mpr h))]
        exact .cons h1 (ih hc)

theorem insertionSort_rel {α : Type} {R : α → α → Prop} {le : α → α → Prop} [DecidableRel le]
    (hcompat : ∀ a b a2 b2, R a b → R a2 b2 → (le a a2 ↔ le b b2)) :
    ∀ {l l2 : List α}, List.Forall₂ R l l2 →
      List.Forall₂ R (l.insertionSort le) (l2.insertionSort le) := by
  intro l l2 h
  induction h with
  | nil => exact .nil
  | cons h1 h2 ih =>
      rw [List.insertionSort, List.insertionSort]
      exact orderedInsert_rel hcompat ih h1


theorem canonS_null_inv {o : Node} {p : String} (h : canonS o = .null p) : o = .null p := by
  cases o <;> simp_all [canonS]

theorem canonS_bool_inv {o : Node} {b : Bool} {p : String} (h : canonS o = .bool b p) :
    o = .bool b p := by
  cases o <;> simp_all [canonS]

theorem canonS_num_inv {o : Node} {q : Rat} {p : String} (h : canonS o = .num q p) :
    o = .num q p := by
  cases o <;> simp_all [canonS]

theorem canonS_str_inv {o : Node} {s2 : String} {p : String} (h : canonS o = .str s2 p) :
    o = .str s2 p := by
  cases o <;> simp_all [canonS]

theorem canonS_obj_inv {o : Node} {ces : List (String × Node)} {p : String}
    (h : canonS o = .obj ces p) : ∃ es, o = .obj es p ∧
      (canonEntries es).insertionSort (fun a b => StrLe a.1 b.1) = ces := by
  cases o with
  | obj es p0 =>
      simp only [canonS] at h
      rw [Node.obj.injEq] at h
      obtain ⟨h1, h2⟩ := h
      subst h2
      exact ⟨es, rfl, h1⟩
  | null p0 => exfalso; simp [canonS] at h
  | bool b p0 => exfalso; simp [canonS] at h
  | num q p0 => exfalso; simp [canonS] at h
  | str s2 p0 => exfalso; simp [canonS] at h
  | arr xs p0 => exfalso; simp [canonS] at h

theorem canonS_arr_inv {o : Node} {cxs : List Node} {p : String}
    (h : canonS o = .arr cxs p) : ∃ xs, o = .arr xs p ∧ canonElems xs = cxs := by
  cases o with
  | arr xs p0 =>
      simp only [canonS] at h
      rw [Node.arr.injEq] at h
      obtain ⟨h1, h2⟩ := h
      subst h2
      exact ⟨xs, rfl, h1⟩
  | null p0 => exfalso; simp [canonS] at h
  | bool b p0 => exfalso; simp [canonS] at h
  | num q p0 => exfalso; simp [canonS] at h
  | str s2 p0 => exfalso; simp [canonS] at h
  | obj es p0 => exfalso; simp [canonS] at h

theorem canonElems_forall2 : ∀ {xs ys : List Node}, canonElems xs = canonElems ys →
    List.Forall₂ (fun a b => canonS a = canonS b) xs ys := by
  intro xs
  induction xs with
  | nil =>
      intro ys h
      cases ys with
      | nil => exact .nil
      | cons y ys => simp [canonElems] at h
  | cons x xs ih =>
      intro ys h
      cases ys with
      | nil => simp [canonElems] at h
      | cons y ys =>
          simp only [canonElems] at h
          rw [List.cons.injEq] at h
          exact .cons h.1 (ih h.2)

theorem entriesSize_perm : ∀ {es es2 : List (String × Node)}, es.Perm es2 →
    entriesSize es = entriesSize es2 := by
  intro es es2 hp
  induction hp with
  | nil => rfl
  | cons kv hp ih => simp [entriesSize, ih]
  | swap a b l =>
      simp [entriesSize]
      omega
  | trans h1 h2 ih1 ih2 => exact ih1.trans ih2

theorem nodeSize_canonS_aux : ∀ (N : Nat) (t : Node), nodeSize t ≤ N →
    nodeSize (canonS t) = nodeSize t := by
  intro N
  induction N with
  | zero =>
      intro t hsz
      have := nodeSize_pos t
      omega
  | succ N ih =>
      intro t hsz
      cases t with
      | null p => rfl
      | bool b p => rfl
      | num q p => rfl
      | str s2 p => rfl
      | obj es p =>
          have hent : ∀ (es2 : List (String × Node)), entriesSize es2 ≤ N →
              entriesSize (canonEntries es2) = entriesSize es2 := by
            intro es2
            induction es2 with
            | nil => intro _; rfl
            | cons kv es2 ih2 =>
                intro hsz2
                obtain ⟨k, v⟩ := kv
                simp only [entriesSize] at hsz2
                have hv := nodeSize_pos v
                simp only [canonEntries, entriesSize]
                rw [ih v (by omega), ih2 (by omega)]
          simp only [canonS, nodeSize]
          rw [entriesSize_perm (List.perm_insertionSort _ _)]
          simp only [nodeSize] at hsz
          rw [hent es (by omega)]
      | arr xs p =>
          have helt : ∀ (xs2 : List Node), elemsSize xs2 ≤ N →
              elemsSize (canonElems xs2) = elemsSize xs2 := by
            intro xs2
            induction xs2 with
            | nil => intro _; rfl
            | cons x xs2 ih2 =>
                intro hsz2
                simp only [elemsSize] at hsz2
                have hv := nodeSize_pos x
                simp only [canonElems, elemsSize]
                rw [ih x (by omega), ih2 (by omega)]
          simp only [canonS, nodeSize]
          simp only [nodeSize] at hsz
          rw [helt xs (by omega)]

theorem nodeSize_canonEq {t t2 : Node} (h : canonS t = canonS t2) :
    nodeSize t = nodeSize t2 := by
  have h1 := nodeSize_canonS_aux (nodeSize t) t (le_refl _)
  have h2 := nodeSize_canonS_aux (nodeSize t2) t2 (le_refl _)
  rw [← h1, ← h2, h]

theorem ndkEntries_mem : ∀ {es : List (String × Node)}, ndkEntries es = true →
    ∀ kv ∈ es, nodupKeys kv.2 = true := by
  intro es
  induction es with
  | nil => intro _ kv hkv; simp at hkv
  | cons e es ih =>
      intro h kv hkv
      obtain ⟨k0, v0⟩ := e
      rw [ndkEntries.eq_def] at h
      simp only [Bool.and_eq_true] at h
      rcases List.mem_cons.mp hkv with rfl | hkv
      · exact h.1
      · exact ih h.2 kv hkv

theorem ndkElems_mem : ∀ {xs : List Node}, ndkElems xs = true →
    ∀ x ∈ xs, nodupKeys x = true := by
  intro xs
  induction xs with
  | nil => intro _ x hx; simp at hx
  | cons y xs ih =>
      intro h x hx
      rw [ndkElems.eq_def] at h
      simp only [Bool.and_eq_true] at h
      rcases List.mem_cons.mp hx with rfl | hx
      · exact h.1
      · exact ih h.2 x hx

theorem nodupKeys_obj {es : List (String × Node)} {p : String}
    (h : nodupKeys (.obj es p) = true) :
    (entryKeys es).Nodup ∧ ∀ kv ∈ es, nodupKeys kv.2 = true := by
  rw [nodupKeys.eq_def] at h
  simp only [Bool.and_eq_true, decide_eq_true_eq] at h
  exact ⟨h.1, fun kv hkv => ndkEntries_mem h.2 kv hkv⟩

theorem nodupKeys_arr {xs : List Node} {p : String} (h : nodupKeys (.arr xs p) = true) :
    ∀ x ∈ xs, nodupKeys x = true := by
  rw [nodupKeys.eq_def] at h
  simp only at h
  exact fun x hx => ndkElems_mem h x hx

theorem entryKeys_canonEntries : ∀ (es : List (String × Node)),
    entryKeys (canonEntries es) = entryKeys es := by
  intro es
  induction es with
  | nil => rfl
  | cons kv es ih =>
      obtain ⟨k, v⟩ := kv
      simp only [canonEntries, entryKeys, List.map_cons]
      rw [List.cons.injEq]
      exact ⟨rfl, ih⟩

theorem lookupEntry_map_canon : ∀ (es : List (String × Node)) (k : String),
    lookupEntry (canonEntries es) k = (lookupEntry es k).map canonS := by
  intro es k
  induction es with
  | nil => rfl
  | cons kv es ih =>
      obtain ⟨k0, v0⟩ := kv
      simp only [canonEntries, lookupEntry]
      by_cases hk : k0 = k
      · rw [if_pos hk, if_pos hk]
        rfl
      · rw [if_neg hk, if_neg hk]
        exact ih

theorem lookupEntry_perm_nodup : ∀ {es es2 : List (String × Node)}, es.Perm es2 →
    (entryKeys es).Nodup → ∀ k, lookupEntry es k = lookupEntry es2 k := by
  intro es es2 hp
  induction hp with
  | nil => intro _ k; rfl
  | cons kv hp ih =>
      intro hnd k
      obtain ⟨k0, v0⟩ := kv
      rw [lookupEntry, lookupEntry]
      by_cases hk : k0 = k
      · rw [if_pos hk, if_pos hk]
      · rw [if_neg hk, if_neg hk]
        exact ih (List.nodup_cons.mp hnd).2 k
  | swap a b l =>
      intro hnd k
      obtain ⟨ka, va⟩ := a
      obtain ⟨kb, vb⟩ := b
      have hnd2 : (kb :: ka :: entryKeys l).Nodup := hnd
      have hkk : kb ≠ ka := by
        have h2 := (List.nodup_cons.mp hnd2).1
        intro he
        exact h2 (by rw [he]; exact List.mem_cons_self _ _)
      simp only [lookupEntry]
      by_cases hb : kb = k
      · have ha : ¬ ka = k := fun he => hkk (hb.trans he.symm)
        rw [if_pos hb, if_neg ha, if_pos hb]
      · by_cases ha : ka = k
        · rw [if_neg hb, if_pos ha, if_pos ha]
        · rw [if_neg hb, if_neg ha, if_neg ha, if_neg hb]
  | trans h1 h2 ih1 ih2 =>
      intro hnd k
      rw [ih1 hnd k]
      have hkp := h1.map Prod.fst
      exact ih2 (hkp.nodup_iff.mp hnd) k

theorem lookup_canon_rel {e1 e1b : List (String × Node)}
    (hsort : (canonEntries e1).insertionSort (fun a b => StrLe a.1 b.1) =
      (canonEntries e1b).insertionSort (fun a b => StrLe a.1 b.1))
    (hnd : (entryKeys e1).Nodup) (hndb : (entryKeys e1b).Nodup) (k : String) :
    optCanonEq (lookupEntry e1 k) (lookupEntry e1b k) := by
  have h1 : lookupEntry (canonEntries e1) k =
      lookupEntry ((canonEntries e1).insertionSort (fun a b => StrLe a.1 b.1)) k := by
    apply lookupEntry_perm_nodup (List.perm_insertionSort _ _).symm ?_ k
    rw [entryKeys_canonEntries]
    exact hnd
  have h1b : lookupEntry (canonEntries e1b) k =
      lookupEntry ((canonEntries e1b).insertionSort (fun a b => StrLe a.1 b.1)) k := by
    apply lookupEntry_perm_nodup (List.perm_insertionSort _ _).symm ?_ k
    rw [entryKeys_canonEntries]
    exact hndb
  have hchain : (lookupEntry e1 k).map canonS = (lookupEntry e1b k).map canonS := by
    rw [← lookupEntry_map_canon, ← lookupEntry_map_canon, h1, h1b, hsort]
  cases hl : lookupEntry e1 k with
  | none =>
      cases hl2 : lookupEntry e1b k with
      | none => exact trivial
      | some v2 =>
          rw [hl, hl2] at hchain
          simp at hchain
  | some v =>
      cases hl2 : lookupEntry e1b k with
      | none =>
          rw [hl, hl2] at hchain
          simp at hchain
      | some v2 =>
          rw [hl, hl2] at hchain
          have h3 : some (canonS v) = some (canonS v2) := hchain
          exact Option.some.inj h3

theorem entryKeys_perm_of_sort {e1 e1b : List (String × Node)}
    (hsort : (canonEntries e1).insertionSort (fun a b => StrLe a.1 b.1) =
      (canonEntries e1b).insertionSort (fun a b => StrLe a.1 b.1)) :
    (entryKeys e1).Perm (entryKeys e1b) := by
  have p1 : (entryKeys (canonEntries e1)).Perm
      (entryKeys ((canonEntries e1).insertionSort (fun a b => StrLe a.1 b.1))) :=
    ((List.perm_insertionSort _ _).symm).map Prod.fst
  have p2 : (entryKeys (canonEntries e1b)).Perm
      (entryKeys ((canonEntries e1b).insertionSort (fun a b => StrLe a.1 b.1))) :=
    ((List.perm_insertionSort _ _).symm).map Prod.fst
  rw [entryKeys_canonEntries] at p1 p2
  rw [hsort] at p1
  exact p1.trans p2.symm

theorem unionKeys_canon {e1 e1b e2 e2b : List (String × Node)}
    (h1 : (canonEntries e1).insertionSort (fun a b => StrLe a.1 b.1) =
      (canonEntries e1b).insertionSort (fun a b => StrLe a.1 b.1))
    (h2 : (canonEntries e2).insertionSort (fun a b => StrLe a.1 b.1) =
      (canonEntries e2b).insertionSort (fun a b => StrLe a.1 b.1)) :
    unionKeys e1 e2 = unionKeys e1b e2b := by
  have hp : (entryKeys e1 ++ entryKeys e2).Perm (entryKeys e1b ++ entryKeys e2b) :=
    (entryKeys_perm_of_sort h1).append (entryKeys_perm_of_sort h2)
  unfold unionKeys sortKeys
  have hd := hp.dedup
  have htot : IsTotal String StrLe := ⟨strLe_total⟩
  have htrans : IsTrans String StrLe := ⟨fun a b c => strLe_trans⟩
  apply perm_sorted_nodup_eq (fun s2 => s2)
  · exact ((List.perm_insertionSort _ _).trans hd).trans (List.perm_insertionSort _ _).symm
  · exact @List.sorted_insertionSort _ _ _ htot htrans _
  · exact @List.sorted_insertionSort _ _ _ htot htrans _
  · have hmap : (List.map (fun s2 : String => s2)
        ((entryKeys e1 ++ entryKeys e2).dedup.insertionSort StrLe)) =
        (entryKeys e1 ++ entryKeys e2).dedup.insertionSort StrLe := by
      simp
    rw [hmap]
    exact ((List.perm_insertionSort _ _).nodup_iff).mpr (List.nodup_dedup _)

theorem svalOf_canonS (x : Node) : svalOf (canonS x) = svalOf x := by
  cases x <;> simp [canonS, svalOf]

theorem getId_canon {x xb : Node} (h : canonS x = canonS xb)
    (hnd : nodupKeys x = true) (hndb : nodupKeys xb = true) (key : String) :
    getId key x = getId key xb := by
  cases x with
  | null p =>
      rw [canonS_null_inv (h.symm : canonS xb = canonS (.null p))]
  | bool b p =>
      rw [canonS_bool_inv (h.symm : canonS xb = canonS (.bool b p))]
  | num q p =>
      rw [canonS_num_inv (h.symm : canonS xb = canonS (.num q p))]
  | str s2 p =>
      rw [canonS_str_inv (h.symm : canonS xb = canonS (.str s2 p))]
  | arr xs p =>
      have hh : canonS xb = .arr (canonElems xs) p := by
        rw [← h]
        simp [canonS]
      obtain ⟨xs2, rfl, hels⟩ := canonS_arr_inv hh
      rfl
  | obj es p =>
      have hh : canonS xb = .obj ((canonEntries es).insertionSort
          (fun a b => StrLe a.1 b.1)) p := by
        rw [← h]
        simp [canonS]
      obtain ⟨es2, rfl, hsort⟩ := canonS_obj_inv hh
      have hrel := lookup_canon_rel hsort.symm (nodupKeys_obj hnd).1 (nodupKeys_obj hndb).1 key
      simp only [getId]
      cases hl : lookupEntry es key with
      | none =>
          cases hl2 : lookupEntry es2 key with
          | none => rfl
          | some v2 =>
              rw [hl, hl2] at hrel
              exact hrel.elim
      | some v =>
          cases hl2 : lookupEntry es2 key with
          | none =>
              rw [hl, hl2] at hrel
              exact hrel.elim
          | some v2 =>
              rw [hl, hl2] at hrel
              show svalOf v = svalOf v2
              rw [← svalOf_canonS v, ← svalOf_canonS v2]
              rw [(hrel : canonS v = canonS v2)]

theorem optCanonEq_refl (o : Option Node) : optCanonEq o o := by
  cases o with
  | none => exact trivial
  | some v => show canonS v = canonS v; rfl

theorem plainEntries_eq_map (es : List (String × Node)) :
    plainEntries es = es.map fun kv => (kv.1, plainValue kv.2) := by
  induction es with
  | nil => rfl
  | cons kv es ih =>
      obtain ⟨k, v⟩ := kv
      rw [plainEntries, List.map_cons, ih]

theorem plainEntries_keys (es : List (String × Node)) :
    (plainEntries es).map Prod.fst = entryKeys es := by
  induction es with
  | nil => rfl
  | cons kv es ih =>
      obtain ⟨k, v⟩ := kv
      rw [plainEntries, List.map_cons]
      show k :: (plainEntries es).map Prod.fst = entryKeys ((k, v) :: es)
      rw [ih]
      rfl

theorem plainValue_canonS_aux : ∀ (N : Nat) (t : Node), nodeSize t ≤ N →
    nodupKeys t = true → plainValue (canonS t) = plainValue t := by
  intro N
  induction N with
  | zero =>
      intro t hsz _
      have := nodeSize_pos t
      omega
  | succ N ih =>
      intro t hsz hnd
      cases t with
      | null p => rfl
      | bool b p => rfl
      | num q p => rfl
      | str s2 p => rfl
      | obj es p =>
          rw [nodupKeys.eq_def] at hnd
          simp only [Bool.and_eq_true, decide_eq_true_eq] at hnd
          simp only [nodeSize] at hsz
          have hent : ∀ (es2 : List (String × Node)), entriesSize es2 ≤ N →
              ndkEntries es2 = true → plainEntries (canonEntries es2) = plainEntries es2 := by
            intro es2
            induction es2 with
            | nil => intro _ _; rfl
            | cons kv es2 ih2 =>
                intro hsz2 hnd2
                obtain ⟨k, v⟩ := kv
                rw [ndkEntries.eq_def] at hnd2
                simp only [Bool.and_eq_true] at hnd2
                simp only [entriesSize] at hsz2
                have hv := nodeSize_pos v
                simp only [canonEntries, plainEntries]
                rw [ih v (by omega) hnd2.1, ih2 (by omega) hnd2.2]
          have hpe : plainEntries (canonEntries es) = plainEntries es :=
            hent es (by omega) hnd.2
          have htot : IsTotal (String × Plain) (fun a b => StrLe a.1 b.1) :=
            ⟨fun a b => strLe_total a.1 b.1⟩
          have htrans : IsTrans (String × Plain) (fun a b => StrLe a.1 b.1) :=
            ⟨fun a b c h1 h2 => strLe_trans h1 h2⟩
          simp only [canonS, plainValue]
          rw [Plain.obj.injEq]
          have hperm : (plainEntries ((canonEntries es).insertionSort
              (fun a b => StrLe a.1 b.1))).Perm (plainEntries es) := by
            have p1 : (plainEntries ((canonEntries es).insertionSort
                (fun a b => StrLe a.1 b.1))).Perm (plainEntries (canonEntries es)) := by
              rw [plainEntries_eq_map, plainEntries_eq_map]
              exact (List.perm_insertionSort _ _).map _
            rw [hpe] at p1
            exact p1
          apply perm_sorted_nodup_eq Prod.fst
          · exact ((List.perm_insertionSort _ _).trans hperm).trans
              (List.perm_insertionSort _ _).symm
          · exact @List.sorted_insertionSort _ _ _ htot htrans _
          · exact @List.sorted_insertionSort _ _ _ htot htrans _
          · have hk1 : ((plainEntries ((canonEntries es).insertionSort
                (fun a b => StrLe a.1 b.1))).map Prod.fst).Nodup := by
              rw [plainEntries_keys]
              have hpk : (entryKeys ((canonEntries es).insertionSort
                  (fun a b => StrLe a.1 b.1))).Perm (entryKeys (canonEntries es)) :=
                (List.perm_insertionSort _ _).map _
              rw [entryKeys_canonEntries] at hpk
              exact hpk.nodup_iff.mpr hnd.1
            exact ((List.perm_insertionSort _ _).map Prod.fst).nodup_iff.mpr hk1
      | arr xs p =>
          rw [nodupKeys.eq_def] at hnd
          simp only at hnd
          simp only [nodeSize] at hsz
          have helt : ∀ (xs2 : List Node), elemsSize xs2 ≤ N →
              ndkElems xs2 = true → plainElems (canonElems xs2) = plainElems xs2 := by
            intro xs2
            induction xs2 with
            | nil => intro _ _; rfl
            | cons x xs2 ih2 =>
                intro hsz2 hnd2
                rw [ndkElems.eq_def] at hnd2
                simp only [Bool.and_eq_true] at hnd2
                simp only [elemsSize] at hsz2
                have hv := nodeSize_pos x
                simp only [canonElems, plainElems]
                rw [ih x (by omega) hnd2.1, ih2 (by omega) hnd2.2]
          simp only [canonS, plainValue]
          rw [Plain.arr.injEq]
          exact helt xs (by omega) hnd

theorem valRel_of_canon {a b : Node} (h : canonS a = canonS b)
    (h1 : nodupKeys a = true) (h2 : nodupKeys b = true) : valRel a b := by
  refine ⟨h, ?_⟩
  have ha := plainValue_canonS_aux (nodeSize a) a (le_refl _) h1
  have hb := plainValue_canonS_aux (nodeSize b) b (le_refl _) h2
  rw [← ha, ← hb, h]

theorem nodeRel_valRel {a b : Node} (h : NodeRel a b) : valRel a b :=
  valRel_of_canon h.1 h.2.1 h.2.2

theorem optValRel_refl (o : Option Node) : optValRel o o := by
  cases o with
  | none => exact trivial
  | some v => exact ⟨rfl, rfl⟩

theorem changeRel_refl (c : Change) : changeRel c c :=
  ⟨rfl, rfl, optValRel_refl _, optValRel_refl _⟩

theorem forall2_changeRel_refl (cs : List Change) : List.Forall₂ changeRel cs cs := by
  induction cs with
  | nil => exact .nil
  | cons c cs ih => exact .cons (changeRel_refl c) ih

theorem exceptRel_refl (m : Except String (List Change)) : ExceptRel m m := by
  cases m with
  | error e => show e = e; rfl
  | ok cs => exact forall2_changeRel_refl cs

theorem scalarEq_canon_right {c : Coercions} {o : Node} {n nb : Node}
    (hn : canonS n = canonS nb) : scalarEq c o n = scalarEq c o nb := by
  cases n with
  | null p => rw [canonS_null_inv hn.symm]
  | bool b p => rw [canonS_bool_inv hn.symm]
  | num q p => rw [canonS_num_inv hn.symm]
  | str s2 p => rw [canonS_str_inv hn.symm]
  | obj es p =>
      have hh : canonS nb = .obj ((canonEntries es).insertionSort
          (fun a b => StrLe a.1 b.1)) p := by
        rw [← hn]
        simp [canonS]
      obtain ⟨es2, rfl, -⟩ := canonS_obj_inv hh
      cases o <;> rfl
  | arr xs p =>
      have hh : canonS nb = .arr (canonElems xs) p := by
        rw [← hn]
        simp [canonS]
      obtain ⟨xs2, rfl, -⟩ := canonS_arr_inv hh
      cases o <;> rfl

theorem scalarEq_canon_left {c : Coercions} {o ob : Node} {n : Node}
    (ho : canonS o = canonS ob) : scalarEq c o n = scalarEq c ob n := by
  cases o with
  | null p => rw [canonS_null_inv ho.symm]
  | bool b p => rw [canonS_bool_inv ho.symm]
  | num q p => rw [canonS_num_inv ho.symm]
  | str s2 p => rw [canonS_str_inv ho.symm]
  | obj es p =>
      have hh : canonS ob = .obj ((canonEntries es).insertionSort
          (fun a b => StrLe a.1 b.1)) p := by
        rw [← ho]
        simp [canonS]
      obtain ⟨es2, rfl, -⟩ := canonS_obj_inv hh
      cases n <;> rfl
  | arr xs p =>
      have hh : canonS ob = .arr (canonElems xs) p := by
        rw [← ho]
        simp [canonS]
      obtain ⟨xs2, rfl, -⟩ := canonS_arr_inv hh
      cases n <;> rfl

theorem scalarEq_canon {c : Coercions} {o ob n nb : Node}
    (ho : canonS o = canonS ob) (hn : canonS n = canonS nb) :
    scalarEq c o n = scalarEq c ob nb :=
  (scalarEq_canon_right hn).trans (scalarEq_canon_left ho)

theorem isObjNode_canon {x xb : Node} (h : canonS x = canonS xb) :
    isObjNode x = isObjNode xb := by
  cases x with
  | null p => rw [canonS_null_inv h.symm]
  | bool b p => rw [canonS_bool_inv h.symm]
  | num q p => rw [canonS_num_inv h.symm]
  | str s2 p => rw [canonS_str_inv h.symm]
  | obj es p =>
      have hh : canonS xb = .obj ((canonEntries es).insertionSort
          (fun a b => StrLe a.1 b.1)) p := by
        rw [← h]
        simp [canonS]
      obtain ⟨es2, rfl, -⟩ := canonS_obj_inv hh
      rfl
  | arr xs p =>
      have hh : canonS xb = .arr (canonElems xs) p := by
        rw [← h]
        simp [canonS]
      obtain ⟨xs2, rfl, -⟩ := canonS_arr_inv hh
      rfl

theorem canonEntries_filter (key : String) : ∀ (es : List (String × Node)),
    canonEntries (es.filter fun kv => kv.1 != key) =
      (canonEntries es).filter fun kv => kv.1 != key := by
  intro es
  induction es with
  | nil => rfl
  | cons kv es ih =>
      obtain ⟨k, v⟩ := kv
      rw [List.filter_cons]
      by_cases hk : (k != key) = true
      · rw [if_pos hk]
        simp only [canonEntries]
        rw [List.filter_cons, if_pos hk, ih]
      · rw [if_neg hk]
        simp only [canonEntries]
        rw [List.filter_cons, if_neg hk, ih]

theorem ndkEntries_filter {f : String × Node → Bool} : ∀ {es : List (String × Node)},
    ndkEntries es = true → ndkEntries (es.filter f) = true := by
  intro es
  induction es with
  | nil => intro _; rfl
  | cons kv es ih =>
      intro h
      obtain ⟨k, v⟩ := kv
      rw [ndkEntries.eq_def] at h
      simp only [Bool.and_eq_true] at h
      rw [List.filter_cons]
      by_cases hk : f (k, v) = true
      · rw [if_pos hk]
        rw [ndkEntries.eq_def]
        simp only [Bool.and_eq_true]
        exact ⟨h.1, ih h.2⟩
      · rw [if_neg hk]
        exact ih h.2

theorem stripKey_nodup {key : String} {x : Node} (hnd : nodupKeys x = true) :
    nodupKeys (stripKey key x) = true := by
  cases x with
  | obj es p =>
      rw [stripKey]
      rw [nodupKeys.eq_def] at hnd ⊢
      simp only [Bool.and_eq_true, decide_eq_true_eq] at hnd ⊢
      refine ⟨?_, ndkEntries_filter hnd.2⟩
      have hsub : List.Sublist (es.filter fun kv => kv.1 != key) es :=
        List.filter_sublist es
      exact (hsub.map Prod.fst).nodup hnd.1
  | null p => exact hnd
  | bool b p => exact hnd
  | num q p => exact hnd
  | str s2 p => exact hnd
  | arr xs p => exact hnd

theorem stripKey_canon {key : String} {x xb : Node} (h : canonS x = canonS xb)
    (hnd : nodupKeys x = true) (hndb : nodupKeys xb = true) :
    canonS (stripKey key x) = canonS (stripKey key xb) := by
  cases x with
  | null p => rw [canonS_null_inv h.symm]
  | bool b p => rw [canonS_bool_inv h.symm]
  | num q p => rw [canonS_num_inv h.symm]
  | str s2 p => rw [canonS_str_inv h.symm]
  | arr xs p =>
      have hh : canonS xb = .arr (canonElems xs) p := by
        rw [← h]
        simp [canonS]
      obtain ⟨xs2, rfl, -⟩ := canonS_arr_inv hh
      exact h
  | obj es p =>
      have hh : canonS xb = .obj ((canonEntries es).insertionSort
          (fun a b => StrLe a.1 b.1)) p := by
        rw [← h]
        simp [canonS]
      obtain ⟨es2, rfl, hsort⟩ := canonS_obj_inv hh
      show canonS (.obj (es.filter fun kv => kv.1 != key) p) =
        canonS (.obj (es2.filter fun kv => kv.1 != key) p)
      simp only [canonS]
      rw [Node.obj.injEq]
      refine ⟨?_, rfl⟩
      have htot : IsTotal (String × Node) (fun a b => StrLe a.1 b.1) :=
        ⟨fun a b => strLe_total a.1 b.1⟩
      have htrans : IsTrans (String × Node) (fun a b => StrLe a.1 b.1) :=
        ⟨fun a b c h1 h2 => strLe_trans h1 h2⟩
      have hperm : (canonEntries (es.filter fun kv => kv.1 != key)).Perm
          (canonEntries (es2.filter fun kv => kv.1 != key)) := by
        rw [canonEntries_filter, canonEntries_filter]
        have p1 : ((canonEntries es).filter fun kv => kv.1 != key).Perm
            (((canonEntries es).insertionSort (fun a b => StrLe a.1 b.1)).filter
              fun kv => kv.1 != key) :=
          ((List.perm_insertionSort _ _).symm).filter _
        have p2 : ((canonEntries es2).filter fun kv => kv.1 != key).Perm
            (((canonEntries es2).insertionSort (fun a b => StrLe a.1 b.1)).filter
              fun kv => kv.1 != key) :=
          ((List.perm_insertionSort _ _).symm).filter _
        rw [hsort] at p2
        exact p1.trans p2.symm
      apply perm_sorted_nodup_eq Prod.fst
      · exact ((List.perm_insertionSort _ _).trans hperm).trans
          (List.perm_insertionSort _ _).symm
      · exact @List.sorted_insertionSort _ _ _ htot htrans _
      · exact @List.sorted_insertionSort _ _ _ htot htrans _
      · have hp3 : ((canonEntries (es.filter fun kv => kv.1 != key)).insertionSort
            (fun a b => StrLe a.1 b.1)).Perm
            (canonEntries (es.filter fun kv => kv.1 != key)) :=
          List.perm_insertionSort _ _
        have hnodup : (List.map Prod.fst
            (canonEntries (es.filter fun kv => kv.1 != key))).Nodup := by
          have he : List.map Prod.fst (canonEntries (es.filter fun kv => kv.1 != key)) =
              entryKeys (es.filter fun kv => kv.1 != key) :=
            entryKeys_canonEntries _
          rw [he]
          have hsub : List.Sublist (es.filter fun kv => kv.1 != key) es :=
            List.filter_sublist es
          exact (hsub.map Prod.fst).nodup (nodupKeys_obj hnd).1
        exact ((hp3.map Prod.fst).nodup_iff).mpr hnodup

theorem idsOf_congr {key : String} : ∀ {xs xsb : List Node},
    List.Forall₂ (fun a b => getId key a = getId key b) xs xsb →
    idsOf key xs = idsOf key xsb := by
  intro xs xsb h
  induction h with
  | nil => rfl
  | cons h1 h2 ih =>
      rename_i x y t1 t2
      unfold idsOf at ih ⊢
      rw [List.mapM_cons, List.mapM_cons, h1, ih]

theorem findById_congr {key : String} {v : SVal} : ∀ {xs xsb : List Node},
    List.Forall₂ (fun a b => getId key a = getId key b ∧ canonS a = canonS b ∧
      nodupKeys a = true ∧ nodupKeys b = true) xs xsb →
    ∀ (i : Nat),
      match findById key v xs i, findById key v xsb i with
      | none, none => True
      | some (y, j), some (yb, jb) => canonS y = canonS yb ∧ nodupKeys y = true ∧
          nodupKeys yb = true ∧ j = jb
      | _, _ => False := by
  intro xs xsb h
  induction h with
  | nil => intro i; exact trivial
  | cons h1 h2 ih =>
      rename_i x y t1 t2
      intro i
      obtain ⟨hid, hcan, hnx, hny⟩ := h1
      rw [findById, findById]
      by_cases hgx : getId key x = some v
      · rw [if_pos hgx, if_pos (by rw [← hid]; exact hgx)]
        exact ⟨hcan, hnx, hny, rfl⟩
      · rw [if_neg hgx, if_neg (by rw [← hid]; exact hgx)]
        exact ih (i + 1)

theorem forall2_append {α : Type} {R : α → α → Prop} :
    ∀ {a b c d : List α}, List.Forall₂ R a b → List.Forall₂ R c d →
      List.Forall₂ R (a ++ c) (b ++ d) := by
  intro a b c d h1 h2
  induction h1 with
  | nil => exact h2
  | cons hx hrest ih => exact .cons hx ih

theorem exceptRel_cases {m mb : Except String (List Change)} (h : ExceptRel m mb) :
    (∃ e, m = .error e ∧ mb = .error e) ∨
    (∃ cs csb, m = .ok cs ∧ mb = .ok csb ∧ List.Forall₂ changeRel cs csb) := by
  cases m with
  | error e =>
      cases mb with
      | error eb =>
          left
          exact ⟨e, rfl, by rw [(h : e = eb)]⟩
      | ok csb => exact (h : False).elim
  | ok cs =>
      cases mb with
      | error eb => exact (h : False).elim
      | ok csb => exact Or.inr ⟨cs, csb, rfl, rfl, h⟩

theorem lookupEntry_mem : ∀ {es : List (String × Node)} {k : String} {v : Node},
    lookupEntry es k = some v → (k, v) ∈ es := by
  intro es
  induction es with
  | nil => intro k v h; exact Option.noConfusion h
  | cons kv es ih =>
      intro k v h
      obtain ⟨k0, v0⟩ := kv
      rw [lookupEntry] at h
      by_cases hk : k0 = k
      · rw [if_pos hk] at h
        injection h with h
        subst hk
        subst h
        exact List.mem_cons_self _ _
      · rw [if_neg hk] at h
        exact List.mem_cons_of_mem _ (ih h)

theorem all_isObj_congr : ∀ {xs xsb : List Node},
    List.Forall₂ (fun a b => canonS a = canonS b) xs xsb →
    xs.all isObjNode = xsb.all isObjNode := by
  intro xs xsb h
  induction h with
  | nil => rfl
  | cons h1 h2 ih =>
      simp only [List.all_cons]
      rw [isObjNode_canon h1, ih]

theorem posAdds_rel {ign : String → Bool} : ∀ {ys ysb : List Node},
    List.Forall₂ valRel ys ysb → ∀ (i : Nat) (path : String),
    List.Forall₂ changeRel (posAdds ign ys i path) (posAdds ign ysb i path) := by
  intro ys ysb h
  induction h with
  | nil => intro i path; exact .nil
  | cons h1 h2 ih =>
      intro i path
      rw [posAdds, posAdds]
      apply forall2_append
      · by_cases hig : ign (path ++ "[" ++ printNat i ++ "]") = true
        · rw [if_pos hig, if_pos hig]
          exact .nil
        · rw [if_neg hig, if_neg hig]
          exact .cons ⟨rfl, rfl, trivial, h1⟩ .nil
      · exact ih (i + 1) path

theorem posRemoves_rel {ign : String → Bool} : ∀ {xs xsb : List Node},
    List.Forall₂ valRel xs xsb → ∀ (i : Nat) (path : String),
    List.Forall₂ changeRel (posRemoves ign xs i path) (posRemoves ign xsb i path) := by
  intro xs xsb h
  induction h with
  | nil => intro i path; exact .nil
  | cons h1 h2 ih =>
      intro i path
      rw [posRemoves, posRemoves]
      apply forall2_append
      · by_cases hig : ign (path ++ "[" ++ printNat i ++ "]") = true
        · rw [if_pos hig, if_pos hig]
          exact .nil
        · rw [if_neg hig, if_neg hig]
          exact .cons ⟨rfl, rfl, h1, trivial⟩ .nil
      · exact ih (i + 1) path

theorem except_error_bind {α β : Type} (e : String) (f : α → Except String β) :
    (Except.error e >>= f : Except String β) = .error e := rfl

theorem except_map_ok {α β : Type} (f : α → β) (a : α) :
    (f <$> (Except.ok a : Except String α)) = .ok (f a) := rfl

theorem except_map_error {α β : Type} (f : α → β) (e : String) :
    (f <$> (Except.error e : Except String α)) = .error e := rfl

theorem diffKeysGo_rel {rec : Node → Node → String → Except String (List Change)}
    {ign : String → Bool} {e1 e2 e1b e2b : List (String × Node)} {path : String}
    (hl1 : ∀ k, optValRel (lookupEntry e1 k) (lookupEntry e1b k))
    (hl2 : ∀ k, optValRel (lookupEntry e2 k) (lookupEntry e2b k))
    (hrec : ∀ k v1 v2 v1b v2b, lookupEntry e1 k = some v1 → lookupEntry e2 k = some v2 →
      lookupEntry e1b k = some v1b → lookupEntry e2b k = some v2b →
      ExceptRel (rec v1 v2 (joinPath path k)) (rec v1b v2b (joinPath path k))) :
    ∀ ks, ExceptRel (diffKeysGo rec ign ks e1 e2 path)
      (diffKeysGo rec ign ks e1b e2b path) := by
  intro ks
  induction ks with
  | nil => exact .nil
  | cons k ks ih =>
      have r1 := hl1 k
      have r2 := hl2 k
      cases hA : lookupEntry e1 k with
      | some v1 =>
          cases hAb : lookupEntry e1b k with
          | none => rw [hA, hAb] at r1; exact r1.elim
          | some v1b =>
              rw [hA, hAb] at r1
              cases hB : lookupEntry e2 k with
              | some v2 =>
                  cases hBb : lookupEntry e2b k with
                  | none => rw [hB, hBb] at r2; exact r2.elim
                  | some v2b =>
                      rw [hB, hBb] at r2
                      rcases exceptRel_cases (hrec k v1 v2 v1b v2b hA hB hAb hBb) with
                        ⟨e, he, heb⟩ | ⟨hd, hdb, hok, hokb, hrelh⟩
                      · have hL : diffKeysGo rec ign (k :: ks) e1 e2 path = .error e := by
                          simp [diffKeysGo, hA, hB, he, except_error_bind, except_map_ok, except_map_error]
                        have hLb : diffKeysGo rec ign (k :: ks) e1b e2b path = .error e := by
                          simp [diffKeysGo, hAb, hBb, heb, except_error_bind, except_map_ok, except_map_error]
                        rw [hL, hLb]
                        exact rfl
                      · rcases exceptRel_cases ih with ⟨er, hre, hreb⟩ |
                          ⟨rs, rsb, hro, hrob, hrelr⟩
                        · have hL : diffKeysGo rec ign (k :: ks) e1 e2 path = .error er := by
                            simp [diffKeysGo, hA, hB, hok, hre, except_ok_bind, except_error_bind, except_map_ok, except_map_error]
                          have hLb : diffKeysGo rec ign (k :: ks) e1b e2b path =
                              .error er := by
                            simp [diffKeysGo, hAb, hBb, hokb, hreb, except_ok_bind, except_error_bind, except_map_ok, except_map_error]
                          rw [hL, hLb]
                          exact rfl
                        · have hL : diffKeysGo rec ign (k :: ks) e1 e2 path =
                              .ok (hd ++ rs) := by
                            simp [diffKeysGo, hA, hB, hok, hro, except_ok_bind, except_error_bind, except_map_ok, except_map_error]
                          have hLb : diffKeysGo rec ign (k :: ks) e1b e2b path =
                              .ok (hdb ++ rsb) := by
                            simp [diffKeysGo, hAb, hBb, hokb, hrob, except_ok_bind, except_error_bind, except_map_ok, except_map_error]
                          rw [hL, hLb]
                          exact forall2_append hrelh hrelr
              | none =>
                  cases hBb : lookupEntry e2b k with
                  | some v2b => rw [hB, hBb] at r2; exact r2.elim
                  | none =>
                      rcases exceptRel_cases ih with ⟨er, hre, hreb⟩ |
                        ⟨rs, rsb, hro, hrob, hrelr⟩
                      · have hL : diffKeysGo rec ign (k :: ks) e1 e2 path = .error er := by
                          simp [diffKeysGo, hA, hB, hre, except_ok_bind, except_error_bind, except_map_ok, except_map_error]
                        have hLb : diffKeysGo rec ign (k :: ks) e1b e2b path = .error er := by
                          simp [diffKeysGo, hAb, hBb, hreb, except_ok_bind, except_error_bind, except_map_ok, except_map_error]
                        rw [hL, hLb]
                        exact rfl
                      · have hL : diffKeysGo rec ign (k :: ks) e1 e2 path =
                            .ok ((if ign (joinPath path k) then []
                              else [⟨.remove, joinPath path k, some v1, none⟩]) ++ rs) := by
                          simp [diffKeysGo, hA, hB, hro, except_ok_bind, except_error_bind, except_map_ok, except_map_error]
                        have hLb : diffKeysGo rec ign (k :: ks) e1b e2b path =
                            .ok ((if ign (joinPath path k) then []
                              else [⟨.remove, joinPath path k, some v1b, none⟩]) ++ rsb) := by
                          simp [diffKeysGo, hAb, hBb, hrob, except_ok_bind, except_error_bind, except_map_ok, except_map_error]
                        rw [hL, hLb]
                        apply forall2_append ?_ hrelr
                        by_cases hig : ign (joinPath path k) = true
                        · rw [if_pos hig, if_pos hig]
                          exact .nil
                        · rw [if_neg hig, if_neg hig]
                          exact .cons ⟨rfl, rfl, r1, trivial⟩ .nil
      | none =>
          cases hAb : lookupEntry e1b k with
          | some v1b => rw [hA, hAb] at r1; exact r1.elim
          | none =>
              cases hB : lookupEntry e2 k with
              | some v2 =>
                  cases hBb : lookupEntry e2b k with
                  | none => rw [hB, hBb] at r2; exact r2.elim
                  | some v2b =>
                      rw [hB, hBb] at r2
                      rcases exceptRel_cases ih with ⟨er, hre, hreb⟩ |
                        ⟨rs, rsb, hro, hrob, hrelr⟩
                      · have hL : diffKeysGo rec ign (k :: ks) e1 e2 path = .error er := by
                          simp [diffKeysGo, hA, hB, hre, except_ok_bind, except_error_bind, except_map_ok, except_map_error]
                        have hLb : diffKeysGo rec ign (k :: ks) e1b e2b path = .error er := by
                          simp [diffKeysGo, hAb, hBb, hreb, except_ok_bind, except_error_bind, except_map_ok, except_map_error]
                        rw [hL, hLb]
                        exact rfl
                      · have hL : diffKeysGo rec ign (k :: ks) e1 e2 path =
                            .ok ((if ign (joinPath path k) then []
                              else [⟨.add, joinPath path k, none, some v2⟩]) ++ rs) := by
                          simp [diffKeysGo, hA, hB, hro, except_ok_bind, except_error_bind, except_map_ok, except_map_error]
                        have hLb : diffKeysGo rec ign (k :: ks) e1b e2b path =
                            .ok ((if ign (joinPath path k) then []
                              else [⟨.add, joinPath path k, none, some v2b⟩]) ++ rsb) := by
                          simp [diffKeysGo, hAb, hBb, hrob, except_ok_bind, except_error_bind, except_map_ok, except_map_error]
                        rw [hL, hLb]
                        apply forall2_append ?_ hrelr
                        by_cases hig : ign (joinPath path k) = true
                        · rw [if_pos hig, if_pos hig]
                          exact .nil
                        · rw [if_neg hig, if_neg hig]
                          exact .cons ⟨rfl, rfl, trivial, r2⟩ .nil
              | none =>
                  cases hBb : lookupEntry e2b k with
                  | some v2b => rw [hB, hBb] at r2; exact r2.elim
                  | none =>
                      rcases exceptRel_cases ih with ⟨er, hre, hreb⟩ |
                        ⟨rs, rsb, hro, hrob, hrelr⟩
                      · have hL : diffKeysGo rec ign (k :: ks) e1 e2 path = .error er := by
                          simp [diffKeysGo, hA, hB, hre, except_ok_bind, except_error_bind, except_map_ok, except_map_error]
                        have hLb : diffKeysGo rec ign (k :: ks) e1b e2b path = .error er := by
                          simp [diffKeysGo, hAb, hBb, hreb, except_ok_bind, except_error_bind, except_map_ok, except_map_error]
                        rw [hL, hLb]
                        exact rfl
                      · have hL : diffKeysGo rec ign (k :: ks) e1 e2 path = .ok rs := by
                          simp [diffKeysGo, hA, hB, hro, except_ok_bind, except_error_bind, except_map_ok, except_map_error]
                        have hLb : diffKeysGo rec ign (k :: ks) e1b e2b path = .ok rsb := by
                          simp [diffKeysGo, hAb, hBb, hrob, except_ok_bind, except_error_bind, except_map_ok, except_map_error]
                        rw [hL, hLb]
                        exact hrelr

theorem diffPosGo_rel {rec : Node → Node → String → Except String (List Change)}
    {ign : String → Bool}
    (hrec : ∀ x y xb yb p2, NodeRel x xb → NodeRel y yb →
      ExceptRel (rec x y p2) (rec xb yb p2)) :
    ∀ {xs xsb : List Node}, List.Forall₂ NodeRel xs xsb →
    ∀ {ys ysb : List Node}, List.Forall₂ NodeRel ys ysb → ∀ (i : Nat) (path : String),
      ExceptRel (diffPosGo rec ign xs ys i path) (diffPosGo rec ign xsb ysb i path) := by
  intro xs xsb hx
  induction hx with
  | nil =>
      intro ys ysb hy i path
      show List.Forall₂ changeRel (posAdds ign ys i path) (posAdds ign ysb i path)
      exact posAdds_rel (hy.imp fun a b hab => nodeRel_valRel hab) i path
  | cons h1 h2 ih =>
      rename_i x xb t1 t2
      intro ys ysb hy i path
      cases hy with
      | nil =>
          show List.Forall₂ changeRel (posRemoves ign (x :: t1) i path)
            (posRemoves ign (xb :: t2) i path)
          exact posRemoves_rel ((List.Forall₂.cons h1 h2).imp
            fun a b hab => nodeRel_valRel hab) i path
      | cons hy1 hy2 =>
          rename_i y yb u1 u2
          rcases exceptRel_cases (hrec x y xb yb (path ++ "[" ++ printNat i ++ "]") h1 hy1)
            with ⟨e, he, heb⟩ | ⟨hd, hdb, hok, hokb, hrelh⟩
          · have hL : diffPosGo rec ign (x :: t1) (y :: u1) i path = .error e := by
              simp [diffPosGo, he, except_error_bind, except_map_ok, except_map_error]
            have hLb : diffPosGo rec ign (xb :: t2) (yb :: u2) i path = .error e := by
              simp [diffPosGo, heb, except_error_bind, except_map_ok, except_map_error]
            rw [hL, hLb]
            exact rfl
          · rcases exceptRel_cases (ih hy2 (i + 1) path) with ⟨er, hre, hreb⟩ |
              ⟨rs, rsb, hro, hrob, hrelr⟩
            · have hL : diffPosGo rec ign (x :: t1) (y :: u1) i path = .error er := by
                simp [diffPosGo, hok, hre, except_ok_bind, except_error_bind,
                  except_map_ok, except_map_error]
              have hLb : diffPosGo rec ign (xb :: t2) (yb :: u2) i path = .error er := by
                simp [diffPosGo, hokb, hreb, except_ok_bind, except_error_bind,
                  except_map_ok, except_map_error]
              rw [hL, hLb]
              exact rfl
            · have hL : diffPosGo rec ign (x :: t1) (y :: u1) i path = .ok (hd ++ rs) := by
                simp [diffPosGo, hok, hro, except_ok_bind, except_error_bind,
                  except_map_ok, except_map_error]
              have hLb : diffPosGo rec ign (xb :: t2) (yb :: u2) i path =
                  .ok (hdb ++ rsb) := by
                simp [diffPosGo, hokb, hrob, except_ok_bind, except_error_bind,
                  except_map_ok, except_map_error]
              rw [hL, hLb]
              exact forall2_append hrelh hrelr

theorem diffPairsGo_rel {rec : Node → Node → String → Except String (List Change)}
    {ign : String → Bool} {key : String} {newList newListb : List Node}
    (hnew : List.Forall₂ NodeRel newList newListb)
    (hrec : ∀ x y xb yb p2, NodeRel x xb → NodeRel y yb →
      ExceptRel (rec x y p2) (rec xb yb p2)) :
    ∀ {zs zsb : List Node}, List.Forall₂ NodeRel zs zsb → ∀ (c : Nat) (path : String),
      ExceptRel (diffPairsGo rec ign key newList zs c path)
        (diffPairsGo rec ign key newListb zsb c path) := by
  intro zs zsb h
  induction h with
  | nil => intro c path; exact .nil
  | cons h1 h2 ih =>
      rename_i x xb t1 t2
      intro c path
      have hgid : getId key x = getId key xb := getId_canon h1.1 h1.2.1 h1.2.2 key
      have hrest := ih (c + 1) path
      cases hv : getId key x with
      | none =>
          have hvb : getId key xb = none := by rw [← hgid]; exact hv
          rcases exceptRel_cases hrest with ⟨er, hre, hreb⟩ | ⟨rs, rsb, hro, hrob, hrelr⟩
          · have hL : diffPairsGo rec ign key newList (x :: t1) c path = .error er := by
              simp [diffPairsGo, hv, hre, except_ok_bind, except_error_bind,
                except_map_ok, except_map_error]
            have hLb : diffPairsGo rec ign key newListb (xb :: t2) c path = .error er := by
              simp [diffPairsGo, hvb, hreb, except_ok_bind, except_error_bind,
                except_map_ok, except_map_error]
            rw [hL, hLb]
            exact rfl
          · have hL : diffPairsGo rec ign key newList (x :: t1) c path = .ok rs := by
              simp [diffPairsGo, hv, hro, except_ok_bind, except_error_bind,
                except_map_ok, except_map_error]
            have hLb : diffPairsGo rec ign key newListb (xb :: t2) c path = .ok rsb := by
              simp [diffPairsGo, hvb, hrob, except_ok_bind, except_error_bind,
                except_map_ok, except_map_error]
            rw [hL, hLb]
            exact hrelr
      | some v =>
          have hvb : getId key xb = some v := by rw [← hgid]; exact hv
          have hfind := findById_congr
            (hnew.imp fun a b hab =>
              ⟨getId_canon hab.1 hab.2.1 hab.2.2 key, hab.1, hab.2.1, hab.2.2⟩) 0
            (v := v)
          cases hf : findById key v newList 0 with
          | none =>
              have hfb : findById key v newListb 0 = none := by
                cases hf2 : findById key v newListb 0 with
                | none => rfl
                | some yj =>
                    rw [hf, hf2] at hfind
                    exact hfind.elim
              rcases exceptRel_cases hrest with ⟨er, hre, hreb⟩ |
                ⟨rs, rsb, hro, hrob, hrelr⟩
              · have hL : diffPairsGo rec ign key newList (x :: t1) c path = .error er := by
                  simp [diffPairsGo, hv, hf, hre, except_ok_bind, except_error_bind,
                    except_map_ok, except_map_error]
                have hLb : diffPairsGo rec ign key newListb (xb :: t2) c path =
                    .error er := by
                  simp [diffPairsGo, hvb, hfb, hreb, except_ok_bind, except_error_bind,
                    except_map_ok, except_map_error]
                rw [hL, hLb]
                exact rfl
              · have hL : diffPairsGo rec ign key newList (x :: t1) c path = .ok rs := by
                  simp [diffPairsGo, hv, hf, hro, except_ok_bind, except_error_bind,
                    except_map_ok, except_map_error]
                have hLb : diffPairsGo rec ign key newListb (xb :: t2) c path = .ok rsb := by
                  simp [diffPairsGo, hvb, hfb, hrob, except_ok_bind, except_error_bind,
                    except_map_ok, except_map_error]
                rw [hL, hLb]
                exact hrelr
          | some yj =>
              obtain ⟨y, j⟩ := yj
              cases hf2 : findById key v newListb 0 with
              | none =>
                  rw [hf, hf2] at hfind
                  exact hfind.elim
              | some yjb =>
                  obtain ⟨yb, jb⟩ := yjb
                  rw [hf, hf2] at hfind
                  obtain ⟨hcy, hny, hnyb, hjj⟩ := hfind
                  subst hjj
                  by_cases hig : ign (elemPath path key v) = true
                  · rcases exceptRel_cases hrest with ⟨er, hre, hreb⟩ |
                      ⟨rs, rsb, hro, hrob, hrelr⟩
                    · have hL : diffPairsGo rec ign key newList (x :: t1) c path =
                          .error er := by
                        simp [diffPairsGo, hv, hf, hig, hre, except_ok_bind,
                          except_error_bind, except_map_ok, except_map_error]
                      have hLb : diffPairsGo rec ign key newListb (xb :: t2) c path =
                          .error er := by
                        simp [diffPairsGo, hvb, hf2, hig, hreb, except_ok_bind,
                          except_error_bind, except_map_ok, except_map_error]
                      rw [hL, hLb]
                      exact rfl
                    · have hL : diffPairsGo rec ign key newList (x :: t1) c path =
                          .ok rs := by
                        simp [diffPairsGo, hv, hf, hig, hro, except_ok_bind,
                          except_error_bind, except_map_ok, except_map_error]
                      have hLb : diffPairsGo rec ign key newListb (xb :: t2) c path =
                          .ok rsb := by
                        simp [diffPairsGo, hvb, hf2, hig, hrob, except_ok_bind,
                          except_error_bind, except_map_ok, except_map_error]
                      rw [hL, hLb]
                      exact hrelr
                  · have hcontent := hrec (stripKey key x) (stripKey key y)
                      (stripKey key xb) (stripKey key yb) (elemPath path key v)
                      ⟨stripKey_canon h1.1 h1.2.1 h1.2.2, stripKey_nodup h1.2.1,
                        stripKey_nodup h1.2.2⟩
                      ⟨stripKey_canon hcy hny hnyb, stripKey_nodup hny, stripKey_nodup hnyb⟩
                    rcases exceptRel_cases hcontent with ⟨e, he, heb⟩ |
                      ⟨hd, hdb, hok, hokb, hrelh⟩
                    · have hL : diffPairsGo rec ign key newList (x :: t1) c path =
                          .error e := by
                        simp [diffPairsGo, hv, hf, hig, he, except_ok_bind,
                          except_error_bind, except_map_ok, except_map_error]
                      have hLb : diffPairsGo rec ign key newListb (xb :: t2) c path =
                          .error e := by
                        simp [diffPairsGo, hvb, hf2, hig, heb, except_ok_bind,
                          except_error_bind, except_map_ok, except_map_error]
                      rw [hL, hLb]
                      exact rfl
                    · rcases exceptRel_cases hrest with ⟨er, hre, hreb⟩ |
                        ⟨rs, rsb, hro, hrob, hrelr⟩
                      · have hL : diffPairsGo rec ign key newList (x :: t1) c path =
                            .error er := by
                          simp [diffPairsGo, hv, hf, hig, hok, hre, except_ok_bind,
                            except_error_bind, except_map_ok, except_map_error]
                        have hLb : diffPairsGo rec ign key newListb (xb :: t2) c path =
                            .error er := by
                          simp [diffPairsGo, hvb, hf2, hig, hokb, hreb, except_ok_bind,
                            except_error_bind, except_map_ok, except_map_error]
                        rw [hL, hLb]
                        exact rfl
                      · have hL : diffPairsGo rec ign key newList (x :: t1) c path =
                            .ok ((hd ++ if c ≠ j then
                              [⟨.move, elemPath path key v, some (.num (c : Rat) ""),
                                some (.num (j : Rat) "")⟩] else []) ++ rs) := by
                          simp [diffPairsGo, hv, hf, hig, hok, hro, except_ok_bind,
                            except_error_bind, except_map_ok, except_map_error]
                        have hLb : diffPairsGo rec ign key newListb (xb :: t2) c path =
                            .ok ((hdb ++ if c ≠ j then
                              [⟨.move, elemPath path key v, some (.num (c : Rat) ""),
                                some (.num (j : Rat) "")⟩] else []) ++ rsb) := by
                          simp [diffPairsGo, hvb, hf2, hig, hokb, hrob, except_ok_bind,
                            except_error_bind, except_map_ok, except_map_error]
                        rw [hL, hLb]
                        exact forall2_append
                          (forall2_append hrelh (forall2_changeRel_refl _)) hrelr

theorem kind_canon {a ab : Node} (h : canonS a = canonS ab) : a.kind = ab.kind := by
  cases a with
  | null p => rw [canonS_null_inv h.symm]
  | bool b p => rw [canonS_bool_inv h.symm]
  | num q p => rw [canonS_num_inv h.symm]
  | str s2 p => rw [canonS_str_inv h.symm]
  | obj es p =>
      have hh : canonS ab = .obj ((canonEntries es).insertionSort
          (fun a b => StrLe a.1 b.1)) p := by
        rw [← h]
        simp [canonS]
      obtain ⟨es2, rfl, -⟩ := canonS_obj_inv hh
      rfl
  | arr xs p =>
      have hh : canonS ab = .arr (canonElems xs) p := by
        rw [← h]
        simp [canonS]
      obtain ⟨xs2, rfl, -⟩ := canonS_arr_inv hh
      rfl

theorem kind_obj_inv {o : Node} (h : o.kind = .object) : ∃ es p, o = .obj es p := by
  cases o <;> simp_all [Node.kind]

theorem kind_arr_inv {o : Node} (h : o.kind = .array) : ∃ xs p, o = .arr xs p := by
  cases o <;> simp_all [Node.kind]

theorem diffNodeF_catch {opts : Options} {fuel : Nat} {path : String} (o n : Node)
    (hig : isIgnored path opts.ignorePaths = false)
    (h1 : ¬ (o.kind = .object ∧ n.kind = .object))
    (h2 : ¬ (o.kind = .array ∧ n.kind = .array)) :
    diffNodeF (fuel + 1) o n path opts =
      if scalarEq opts.coercions o n then .ok []
      else .ok [⟨.modify, path, some o, some n⟩] := by
  cases o <;> cases n <;> simp_all [Node.kind] <;>
    · simp only [diffNodeF, hig, Bool.false_eq_true, if_false]

theorem forall2_nodeRel_of {xs ys : List Node}
    (h : List.Forall₂ (fun a b => canonS a = canonS b) xs ys)
    (hx : ∀ x ∈ xs, nodupKeys x = true) (hy : ∀ y ∈ ys, nodupKeys y = true) :
    List.Forall₂ NodeRel xs ys := by
  induction h with
  | nil => exact .nil
  | cons h1 h2 ih =>
      rename_i x y t1 t2
      exact .cons ⟨h1, hx x (List.mem_cons_self _ _), hy y (List.mem_cons_self _ _)⟩
        (ih (fun a ha => hx a (List.mem_cons_of_mem _ ha))
          (fun b hb => hy b (List.mem_cons_of_mem _ hb)))

theorem diffNodeF_rel {opts : Options} :
    ∀ (fuel : Nat) (o ob n nb : Node) (path : String),
      NodeRel o ob → NodeRel n nb →
      ExceptRel (diffNodeF fuel o n path opts) (diffNodeF fuel ob nb path opts) := by
  intro fuel
  induction fuel with
  | zero => intro o ob n nb path _ _; exact rfl
  | succ fuel ih =>
      intro o ob n nb path ho hn
      obtain ⟨hco, hndo, hndob⟩ := ho
      obtain ⟨hcn, hndn, hndnb⟩ := hn
      cases hig : isIgnored path opts.ignorePaths with
      | true =>
          have hL : diffNodeF (fuel + 1) o n path opts = .ok [] := by
            simp [diffNodeF, hig]
          have hLb : diffNodeF (fuel + 1) ob nb path opts = .ok [] := by
            simp [diffNodeF, hig]
          rw [hL, hLb]
          exact .nil
      | false =>
          by_cases hobj : o.kind = .object ∧ n.kind = .object
          · obtain ⟨es1, p1, rfl⟩ := kind_obj_inv hobj.1
            obtain ⟨es2, p2, rfl⟩ := kind_obj_inv hobj.2
            have hhob : canonS ob = .obj ((canonEntries es1).insertionSort
                (fun a b => StrLe a.1 b.1)) p1 := by
              rw [← hco]
              simp [canonS]
            obtain ⟨es1b, rfl, hsort1⟩ := canonS_obj_inv hhob
            have hhnb : canonS nb = .obj ((canonEntries es2).insertionSort
                (fun a b => StrLe a.1 b.1)) p2 := by
              rw [← hcn]
              simp [canonS]
            obtain ⟨es2b, rfl, hsort2⟩ := canonS_obj_inv hhnb
            have hL : diffNodeF (fuel + 1) (.obj es1 p1) (.obj es2 p2) path opts =
                diffKeysGo (fun a b p => diffNodeF fuel a b p opts)
                  (fun p => isIgnored p opts.ignorePaths) (unionKeys es1 es2) es1 es2 path := by
              simp [diffNodeF, hig]
            have hLb : diffNodeF (fuel + 1) (.obj es1b p1) (.obj es2b p2) path opts =
                diffKeysGo (fun a b p => diffNodeF fuel a b p opts)
                  (fun p => isIgnored p opts.ignorePaths)
                  (unionKeys es1b es2b) es1b es2b path := by
              simp [diffNodeF, hig]
            have hkeys : unionKeys es1 es2 = unionKeys es1b es2b :=
              unionKeys_canon hsort1.symm hsort2.symm
            rw [hL, hLb, hkeys]
            have hl1 : ∀ k, optValRel (lookupEntry es1 k) (lookupEntry es1b k) := by
              intro k
              have h0 := lookup_canon_rel hsort1.symm (nodupKeys_obj hndo).1
                (nodupKeys_obj hndob).1 k
              cases hA : lookupEntry es1 k with
              | none =>
                  cases hAb : lookupEntry es1b k with
                  | none => exact trivial
                  | some vb => rw [hA, hAb] at h0; exact h0.elim
              | some v =>
                  cases hAb : lookupEntry es1b k with
                  | none => rw [hA, hAb] at h0; exact h0.elim
                  | some vb =>
                      rw [hA, hAb] at h0
                      exact valRel_of_canon h0
                        ((nodupKeys_obj hndo).2 (k, v) (lookupEntry_mem hA))
                        ((nodupKeys_obj hndob).2 (k, vb) (lookupEntry_mem hAb))
            have hl2 : ∀ k, optValRel (lookupEntry es2 k) (lookupEntry es2b k) := by
              intro k
              have h0 := lookup_canon_rel hsort2.symm (nodupKeys_obj hndn).1
                (nodupKeys_obj hndnb).1 k
              cases hB : lookupEntry es2 k with
              | none =>
                  cases hBb : lookupEntry es2b k with
                  | none => exact trivial
                  | some vb => rw [hB, hBb] at h0; exact h0.elim
              | some v =>
                  cases hBb : lookupEntry es2b k with
                  | none => rw [hB, hBb] at h0; exact h0.elim
                  | some vb =>
                      rw [hB, hBb] at h0
                      exact valRel_of_canon h0
                        ((nodupKeys_obj hndn).2 (k, v) (lookupEntry_mem hB))
                        ((nodupKeys_obj hndnb).2 (k, vb) (lookupEntry_mem hBb))
            apply diffKeysGo_rel hl1 hl2
            intro k v1 v2 v1b v2b hA hB hAb hBb
            have hc1 := hl1 k
            rw [hA, hAb] at hc1
            have hc2 := hl2 k
            rw [hB, hBb] at hc2
            exact ih v1 v1b v2 v2b (joinPath path k)
              ⟨hc1.1, (nodupKeys_obj hndo).2 (k, v1) (lookupEntry_mem hA),
                (nodupKeys_obj hndob).2 (k, v1b) (lookupEntry_mem hAb)⟩
              ⟨hc2.1, (nodupKeys_obj hndn).2 (k, v2) (lookupEntry_mem hB),
                (nodupKeys_obj hndnb).2 (k, v2b) (lookupEntry_mem hBb)⟩
          · by_cases harr : o.kind = .array ∧ n.kind = .array
            · obtain ⟨xs1, p1, rfl⟩ := kind_arr_inv harr.1
              obtain ⟨xs2, p2, rfl⟩ := kind_arr_inv harr.2
              have hhob : canonS ob = .arr (canonElems xs1) p1 := by
                rw [← hco]
                simp [canonS]
              obtain ⟨xs1b, rfl, hels1⟩ := canonS_arr_inv hhob
              have hhnb : canonS nb = .arr (canonElems xs2) p2 := by
                rw [← hcn]
                simp [canonS]
              obtain ⟨xs2b, rfl, hels2⟩ := canonS_arr_inv hhnb
              have hrel1 : List.Forall₂ NodeRel xs1 xs1b :=
                forall2_nodeRel_of (canonElems_forall2 hels1.symm)
                  (nodupKeys_arr hndo) (nodupKeys_arr hndob)
              have hrel2 : List.Forall₂ NodeRel xs2 xs2b :=
                forall2_nodeRel_of (canonElems_forall2 hels2.symm)
                  (nodupKeys_arr hndn) (nodupKeys_arr hndnb)
              have hrec2 : ∀ x y xb yb p2x, NodeRel x xb → NodeRel y yb →
                  ExceptRel (diffNodeF fuel x y p2x opts) (diffNodeF fuel xb yb p2x opts) :=
                fun x y xb yb p2x hx hy => ih x xb y yb p2x hx hy
              have hL : diffNodeF (fuel + 1) (.arr xs1 p1) (.arr xs2 p2) path opts =
                  reconcileGo (fun a b p => diffNodeF fuel a b p opts)
                    (fun p => isIgnored p opts.ignorePaths) xs1 xs2 path opts := by
                simp [diffNodeF, hig]
              have hLb : diffNodeF (fuel + 1) (.arr xs1b p1) (.arr xs2b p2) path opts =
                  reconcileGo (fun a b p => diffNodeF fuel a b p opts)
                    (fun p => isIgnored p opts.ignorePaths) xs1b xs2b path opts := by
                simp [diffNodeF, hig]
              rw [hL, hLb]
              cases hkey : lookupStr opts.arraySetKeys path with
              | none =>
                  have hR : reconcileGo (fun a b p => diffNodeF fuel a b p opts)
                      (fun p => isIgnored p opts.ignorePaths) xs1 xs2 path opts =
                      diffPosGo (fun a b p => diffNodeF fuel a b p opts)
                        (fun p => isIgnored p opts.ignorePaths) xs1 xs2 0 path := by
                    simp [reconcileGo, hkey]
                  have hRb : reconcileGo (fun a b p => diffNodeF fuel a b p opts)
                      (fun p => isIgnored p opts.ignorePaths) xs1b xs2b path opts =
                      diffPosGo (fun a b p => diffNodeF fuel a b p opts)
                        (fun p => isIgnored p opts.ignorePaths) xs1b xs2b 0 path := by
                    simp [reconcileGo, hkey]
                  rw [hR, hRb]
                  exact diffPosGo_rel hrec2 hrel1 hrel2 0 path
              | some key =>
                  have hobja : xs1.all isObjNode = xs1b.all isObjNode :=
                    all_isObj_congr (hrel1.imp fun a b hab => hab.1)
                  have hobjb : xs2.all isObjNode = xs2b.all isObjNode :=
                    all_isObj_congr (hrel2.imp fun a b hab => hab.1)
                  have hid1 : idsOf key xs1 = idsOf key xs1b :=
                    idsOf_congr (hrel1.imp fun a b hab =>
                      getId_canon hab.1 hab.2.1 hab.2.2 key)
                  have hid2 : idsOf key xs2 = idsOf key xs2b :=
                    idsOf_congr (hrel2.imp fun a b hab =>
                      getId_canon hab.1 hab.2.1 hab.2.2 key)
                  cases hguard : xs1.all isObjNode && xs2.all isObjNode with
                  | false =>
                      have hguardb : (xs1b.all isObjNode && xs2b.all isObjNode) = false := by
                        rw [← hobja, ← hobjb]
                        exact hguard
                      have hR : reconcileGo (fun a b p => diffNodeF fuel a b p opts)
                          (fun p => isIgnored p opts.ignorePaths) xs1 xs2 path opts =
                          .error ("set-keyed array element is not an object at " ++ path) := by
                        simp [reconcileGo, hkey, hguard]
                      have hRb : reconcileGo (fun a b p => diffNodeF fuel a b p opts)
                          (fun p => isIgnored p opts.ignorePaths) xs1b xs2b path opts =
                          .error ("set-keyed array element is not an object at " ++ path) := by
                        simp [reconcileGo, hkey, hguardb]
                      rw [hR, hRb]
                      exact rfl
                  | true =>
                      have hguardb : (xs1b.all isObjNode && xs2b.all isObjNode) = true := by
                        rw [← hobja, ← hobjb]
                        exact hguard
                      have hsmEq : setModeOK key xs1 xs2 = setModeOK key xs1b xs2b := by
                        unfold setModeOK
                        rw [hid1, hid2]
                      cases hsm : setModeOK key xs1 xs2 with
                      | false =>
                          have hsmb : setModeOK key xs1b xs2b = false := by
                            rw [← hsmEq]
                            exact hsm
                          have hR : reconcileGo (fun a b p => diffNodeF fuel a b p opts)
                              (fun p => isIgnored p opts.ignorePaths) xs1 xs2 path opts =
                              diffPosGo (fun a b p => diffNodeF fuel a b p opts)
                                (fun p => isIgnored p opts.ignorePaths) xs1 xs2 0 path := by
                            simp [reconcileGo, hkey, hguard, hsm]
                          have hRb : reconcileGo (fun a b p => diffNodeF fuel a b p opts)
                              (fun p => isIgnored p opts.ignorePaths) xs1b xs2b path opts =
                              diffPosGo (fun a b p => diffNodeF fuel a b p opts)
                                (fun p => isIgnored p opts.ignorePaths) xs1b xs2b 0 path := by
                            simp [reconcileGo, hkey, hguardb, hsmb]
                          rw [hR, hRb]
                          exact diffPosGo_rel hrec2 hrel1 hrel2 0 path
                      | true =>
                          have hsmb : setModeOK key xs1b xs2b = true := by
                            rw [← hsmEq]
                            exact hsm
                          have hrem : List.Forall₂ changeRel
                              (xs1.filterMap fun x =>
                                match getId key x with
                                | some v =>
                                    if v ∈ (idsOf key xs2).getD [] then none
                                    else if isIgnored (elemPath path key v)
                                        opts.ignorePaths then none
                                    else some ⟨.remove, elemPath path key v, some x, none⟩
                                | none => none)
                              (xs1b.filterMap fun x =>
                                match getId key x with
                                | some v =>
                                    if v ∈ (idsOf key xs2b).getD [] then none
                                    else if isIgnored (elemPath path key v)
                                        opts.ignorePaths then none
                                    else some ⟨.remove, elemPath path key v, some x, none⟩
                                | none => none) := by
                            apply List.rel_filterMap ?_ hrel1
                            intro x xb hx
                            have hg : getId key x = getId key xb :=
                              getId_canon hx.1 hx.2.1 hx.2.2 key
                            cases hv : getId key x with
                            | none =>
                                have hvb : getId key xb = none := by rw [← hg]; exact hv
                                simp only [hv, hvb]
                                exact Option.Rel.none
                            | some v =>
                                have hvb : getId key xb = some v := by rw [← hg]; exact hv
                                simp only [hv, hvb, ← hid2]
                                by_cases hmem : v ∈ (idsOf key xs2).getD []
                                · rw [if_pos hmem, if_pos hmem]
                                  exact Option.Rel.none
                                · rw [if_neg hmem, if_neg hmem]
                                  by_cases hign2 : isIgnored (elemPath path key v)
                                      opts.ignorePaths = true
                                  · rw [if_pos hign2, if_pos hign2]
                                    exact Option.Rel.none
                                  · rw [if_neg hign2, if_neg hign2]
                                    exact Option.Rel.some
                                      ⟨rfl, rfl, nodeRel_valRel hx, trivial⟩
                          have hadd : List.Forall₂ changeRel
                              (xs2.filterMap fun y =>
                                match getId key y with
                                | some v =>
                                    if v ∈ (idsOf key xs1).getD [] then none
                                    else if isIgnored (elemPath path key v)
                                        opts.ignorePaths then none
                                    else some ⟨.add, elemPath path key v, none, some y⟩
                                | none => none)
                              (xs2b.filterMap fun y =>
                                match getId key y with
                                | some v =>
                                    if v ∈ (idsOf key xs1b).getD [] then none
                                    else if isIgnored (elemPath path key v)
                                        opts.ignorePaths then none
                                    else some ⟨.add, elemPath path key v, none, some y⟩
                                | none => none) := by
                            apply List.rel_filterMap ?_ hrel2
                            intro y yb hy
                            have hg : getId key y = getId key yb :=
                              getId_canon hy.1 hy.2.1 hy.2.2 key
                            cases hv : getId key y with
                            | none =>
                                have hvb : getId key yb = none := by rw [← hg]; exact hv
                                simp only [hv, hvb]
                                exact Option.Rel.none
                            | some v =>
                                have hvb : getId key yb = some v := by rw [← hg]; exact hv
                                simp only [hv, hvb, ← hid1]
                                by_cases hmem : v ∈ (idsOf key xs1).getD []
                                · rw [if_pos hmem, if_pos hmem]
                                  exact Option.Rel.none
                                · rw [if_neg hmem, if_neg hmem]
                                  by_cases hign2 : isIgnored (elemPath path key v)
                                      opts.ignorePaths = true
                                  · rw [if_pos hign2, if_pos hign2]
                                    exact Option.Rel.none
                                  · rw [if_neg hign2, if_neg hign2]
                                    exact Option.Rel.some
                                      ⟨rfl, rfl, trivial, nodeRel_valRel hy⟩
                          rcases exceptRel_cases
                              (@diffPairsGo_rel (fun a b p => diffNodeF fuel a b p opts)
                                (fun p => isIgnored p opts.ignorePaths) key xs2 xs2b
                                hrel2 hrec2 xs1 xs1b hrel1 0 path) with
                            ⟨e, he, heb⟩ | ⟨ps, psb, hpo, hpob, hprel⟩
                          · have hR : reconcileGo (fun a b p => diffNodeF fuel a b p opts)
                                (fun p => isIgnored p opts.ignorePaths) xs1 xs2 path opts =
                                .error e := by
                              simp [reconcileGo, hkey, hguard, hsm, he, except_ok_bind,
                                except_error_bind, except_map_ok, except_map_error]
                            have hRb : reconcileGo (fun a b p => diffNodeF fuel a b p opts)
                                (fun p => isIgnored p opts.ignorePaths) xs1b xs2b path opts =
                                .error e := by
                              simp [reconcileGo, hkey, hguardb, hsmb, heb, except_ok_bind,
                                except_error_bind, except_map_ok, except_map_error]
                            rw [hR, hRb]
                            exact rfl
                          · have hR : reconcileGo (fun a b p => diffNodeF fuel a b p opts)
                                (fun p => isIgnored p opts.ignorePaths) xs1 xs2 path opts =
                                .ok ((xs1.filterMap fun x =>
                                  match getId key x with
                                  | some v =>
                                      if v ∈ (idsOf key xs2).getD [] then none
                                      else if isIgnored (elemPath path key v)
                                          opts.ignorePaths then none
                                      else some ⟨.remove, elemPath path key v, some x, none⟩
                                  | none => none) ++
                                  ((xs2.filterMap fun y =>
                                    match getId key y with
                                    | some v =>
                                        if v ∈ (idsOf key xs1).getD [] then none
                                        else if isIgnored (elemPath path key v)
                                            opts.ignorePaths then none
                                        else some ⟨.add, elemPath path key v, none, some y⟩
                                    | none => none) ++ ps)) := by
                              simp [reconcileGo, hkey, hguard, hsm, hpo, except_ok_bind,
                                except_error_bind, except_map_ok, except_map_error]
                            have hRb : reconcileGo (fun a b p => diffNodeF fuel a b p opts)
                                (fun p => isIgnored p opts.ignorePaths) xs1b xs2b path opts =
                                .ok ((xs1b.filterMap fun x =>
                                  match getId key x with
                                  | some v =>
                                      if v ∈ (idsOf key xs2b).getD [] then none
                                      else if isIgnored (elemPath path key v)
                                          opts.ignorePaths then none
                                      else some ⟨.remove, elemPath path key v, some x, none⟩
                                  | none => none) ++
                                  ((xs2b.filterMap fun y =>
                                    match getId key y with
                                    | some v =>
                                        if v ∈ (idsOf key xs1b).getD [] then none
                                        else if isIgnored (elemPath path key v)
                                            opts.ignorePaths then none
                                        else some ⟨.add, elemPath path key v, none, some y⟩
                                    | none => none) ++ psb)) := by
                              simp [reconcileGo, hkey, hguardb, hsmb, hpob, except_ok_bind,
                                except_error_bind, except_map_ok, except_map_error]
                            rw [hR, hRb]
                            exact forall2_append hrem (forall2_append hadd hprel)
            · have hobjb : ¬ (ob.kind = .object ∧ nb.kind = .object) := by
                rw [← kind_canon hco, ← kind_canon hcn]
                exact hobj
              have harrb : ¬ (ob.kind = .array ∧ nb.kind = .array) := by
                rw [← kind_canon hco, ← kind_canon hcn]
                exact harr
              rw [diffNodeF_catch o n hig hobj harr,
                diffNodeF_catch ob nb hig hobjb harrb,
                scalarEq_canon hco hcn]
              by_cases hsc : scalarEq opts.coercions ob nb = true
              · rw [if_pos hsc, if_pos hsc]
                exact .nil
              · rw [if_neg hsc, if_neg hsc]
                exact .cons ⟨rfl, rfl, valRel_of_canon hco hndo hndob,
                  valRel_of_canon hcn hndn hndnb⟩ .nil

theorem sortChanges_rel {cs csb : List Change}
    (h : List.Forall₂ changeRel cs csb) :
    List.Forall₂ changeRel (sortChanges cs) (sortChanges csb) := by
  apply insertionSort_rel ?_ h
  intro a b a2 b2 hab ha2
  rw [hab.2.1, ha2.2.1]

theorem optValRel_map_plain {o ob : Option Node} (h : optValRel o ob) :
    o.map plainValue = ob.map plainValue := by
  cases o with
  | none =>
      cases ob with
      | none => rfl
      | some b => exact h.elim
  | some a =>
      cases ob with
      | none => exact h.elim
      | some b =>
          show some (plainValue a) = some (plainValue b)
          rw [(h : valRel a b).2]

theorem toOperation_congr {c c2 : Change} (h : changeRel c c2) :
    toOperation c = toOperation c2 := by
  obtain ⟨ht, hp, ho, hn⟩ := h
  have hvn : c.newValue.map plainValue = c2.newValue.map plainValue :=
    optValRel_map_plain hn
  cases hT : c.type with
  | add =>
      have hT2 : c2.type = .add := by rw [← ht]; exact hT
      simp only [toOperation, hT, hT2, hp, hvn]
  | remove =>
      have hT2 : c2.type = .remove := by rw [← ht]; exact hT
      simp only [toOperation, hT, hT2, hp]
  | modify =>
      have hT2 : c2.type = .modify := by rw [← ht]; exact hT
      simp only [toOperation, hT, hT2, hp, hvn]
  | move =>
      have hT2 : c2.type = .move := by rw [← ht]; exact hT
      simp only [toOperation, hT, hT2, hp]

theorem map_toOperation_congr : ∀ {cs csb : List Change},
    List.Forall₂ changeRel cs csb → cs.map toOperation = csb.map toOperation := by
  intro cs csb h
  induction h with
  | nil => rfl
  | cons h1 h2 ih =>
      simp only [List.map_cons]
      rw [toOperation_congr h1, ih]

theorem Diff_rel (opts : Options) {a ab b bb : Node}
    (ha : NodeRel a ab) (hb : NodeRel b bb) :
    ExceptRel (Diff a b opts) (Diff ab bb opts) := by
  have hfuel : nodeSize a + nodeSize b = nodeSize ab + nodeSize bb := by
    rw [nodeSize_canonEq ha.1, nodeSize_canonEq hb.1]
  have hrel := @diffNodeF_rel opts (nodeSize a + nodeSize b) a ab b bb "" ha hb
  rcases exceptRel_cases hrel with ⟨e, he, heb⟩ | ⟨cs, csb, hok, hokb, hrelc⟩
  · have hL : Diff a b opts = .error e := by
      simp [Diff, he, except_ok_bind, except_error_bind, except_map_ok, except_map_error]
    have hLb : Diff ab bb opts = .error e := by
      simp [Diff, ← hfuel, heb, except_ok_bind, except_error_bind,
        except_map_ok, except_map_error]
    rw [hL, hLb]
    exact rfl
  · have hL : Diff a b opts =
        .ok (if opts.stableOrder then sortChanges cs else cs) := by
      simp [Diff, hok, except_ok_bind, except_error_bind, except_map_ok, except_map_error]
    have hLb : Diff ab bb opts =
        .ok (if opts.stableOrder then sortChanges csb else csb) := by
      simp [Diff, ← hfuel, hokb, except_ok_bind, except_error_bind,
        except_map_ok, except_map_error]
    rw [hL, hLb]
    show List.Forall₂ changeRel _ _
    by_cases hso : opts.stableOrder = true
    · rw [if_pos hso, if_pos hso]
      exact sortChanges_rel hrelc
    · rw [if_neg hso, if_neg hso]
      exact hrelc

/-- C6: compare is deterministic: with stableOrder set, two runs on the
same two input trees and Options — the trees presented with their Go
map members in any two enumeration orders (maps are unordered, so the
association lists of the model may list the same members differently) —
either fail with the same error or produce Change sequences that are
identical as Go values position by position (same kind, same path,
value nodes denoting the same tree) and byte-identical Operation
sequences in the patch. -/
theorem C6_determinism (a ab b bb : Node) (opts : Options)
    (hso : opts.stableOrder = true)
    (ha : canonEq a ab) (hb : canonEq b bb)
    (hnda : nodupKeys a = true) (hndab : nodupKeys ab = true)
    (hndb : nodupKeys b = true) (hndbb : nodupKeys bb = true) :
    DTRel (DiffTrees a b opts) (DiffTrees ab bb opts) := by
  have hrel := Diff_rel opts (a := a) (b := b)
    ⟨ha, hnda, hndab⟩ ⟨hb, hndb, hndbb⟩
  rcases exceptRel_cases hrel with ⟨e, he, heb⟩ | ⟨cs, csb, hok, hokb, hrelc⟩
  · have hL : DiffTrees a b opts = .error ("diff failed: " ++ e) := by
      simp [DiffTrees, he]
    have hLb : DiffTrees ab bb opts = .error ("diff failed: " ++ e) := by
      simp [DiffTrees, heb]
    rw [hL, hLb]
    exact rfl
  · have hL : DiffTrees a b opts = .ok ⟨cs, Patch.fromChanges cs⟩ := by
      simp [DiffTrees, hok]
    have hLb : DiffTrees ab bb opts = .ok ⟨csb, Patch.fromChanges csb⟩ := by
      simp [DiffTrees, hokb]
    rw [hL, hLb]
    exact ⟨hrelc, map_toOperation_congr hrelc⟩

/-- Witness for C6 at the concrete reordered-presentation example. -/
theorem C6_witness :
    DTRel (DiffTrees detOldA detNewA stableOpts)
      (DiffTrees detOldB detNewB stableOpts) :=
  C6_determinism detOldA detOldB detNewA detNewB stableOpts
    rfl rfl rfl rfl rfl rfl rfl

end Configdiff
